import Mathlib

/-!
# File searching (`file_search.c`): a shallow embedding

The search engine behind the 'path', 'cdpath' and 'tags' options:
`vim_findfile_init`, `vim_findfile`, the visited registries
(`ff_check_visited`, `ff_wc_equal`) and the stack of directory frames.

Conventions of the embedding:

* a C string (`char_u *`, NUL terminated) is the list of its characters
  before the NUL, each a `Nat`; a pointer that may be NULL is an `Option`;
* `MB_PTR2LEN` / `PTR2CHAR` step over and read one character, so a string
  is indexed by character;
* every allocation succeeds;
* whatever the file lives on (the file system, the options, the interrupt
  flag) is a field of `Env` or an argument.
-/

namespace FileSearch

/-- A C string without its terminating NUL. -/
abbrev Str := List Nat

/-- The character `*`. -/
abbrev STAR : Nat := 42

/-- The characters of a string literal, as numbers. -/
def str (s : String) : Str := s.toList.map Char.toNat

/-- `FF_MAX_STAR_STAR_EXPAND`: the default depth of `**`. -/
def FF_MAX_STAR_STAR_EXPAND : Nat := 30

/-- Everything `file_search.c` takes from outside the file. -/
structure Env where
  /-- the size of a path buffer -/
  MAXPATHL : Nat
  /-- the option 'fileignorecase' -/
  p_fic : Bool
  /-- `MB_TOLOWER` -/
  mb_tolower : Nat → Nat
  /-- `fnamecmp`: 0 when the two file names are the same -/
  fnamecmp : Str → Str → Int
  /-- `vim_ispathsep` -/
  vim_ispathsep : Nat → Bool
  /-- `path_with_url`: the name has URL syntax -/
  path_with_url : Str → Bool
  /-- `mch_stat`: `(st_dev, st_ino)`, or `none` when stat fails -/
  mch_stat : Str → Option (Nat × Nat)
  /-- `mch_isdir` -/
  mch_isdir : Str → Bool
  /-- `mch_getperm`: negative when the file does not exist -/
  mch_getperm : Str → Int
  /-- `vim_isAbsName` -/
  vim_isAbsName : Str → Bool
  /-- `expand_wildcards` with `EW_DIR|EW_ADDSLASH|EW_SILENT|EW_NOTWILD` -/
  expand_wildcards : List Str → List Str
  /-- the option 'suffixesadd' of the current buffer -/
  b_p_sua : Str
  /-- `simplify_filename` -/
  simplify_filename : Str → Str
  /-- `mch_dirname`: the current directory, `none` on failure -/
  mch_dirname : Option Str
  /-- `shorten_fname`: the tail of the name below the directory, or NULL -/
  shorten_fname : Str → Str → Option Str
  /-- `gettail`: the offset of the last path component -/
  gettail : Str → Nat
  /-- `FullName_save` without forcing -/
  FullName_save : Str → Option Str
  /-- `CPO_DOTTAG` is in 'cpoptions' -/
  cpo_dottag : Bool
  /-- `add_pathsep`: the name with a path separator at its end -/
  add_pathsep : Str → Str
  /-- `fnamencmp`: `fnamecmp` on at most so many characters -/
  fnamencmp : Str → Str → Nat → Int
  /-- `copy_option_part` with separator `,`, called over and over on an
  option value until it is used up: what each call in turn writes into a
  buffer of the given size -/
  copy_option_parts : Str → Int → List Str

/-! ## `ff_wc_equal` -/

/-- The loop of `ff_wc_equal`: `prev1` and `prev2` are the two characters
of `s1` before the current one. -/
def ff_wc_equal_loop (env : Env) : Str → Str → Nat → Nat → Bool
  | c1 :: r1, c2 :: r2, prev1, prev2 =>
    if (if env.p_fic then env.mb_tolower c1 ≠ env.mb_tolower c2 else c1 ≠ c2)
        ∧ (prev1 ≠ STAR ∨ prev2 ≠ STAR) then
      false
    else
      ff_wc_equal_loop env r1 r2 c1 prev1
  | _, _, _, _ => true

/-- Check if two wildcard paths are equal (`TRUE` is `true`; `FALSE` and
`FAIL` are both 0, `false`). -/
def ff_wc_equal (env : Env) (s1 s2 : Option Str) : Bool :=
  match s1, s2 with
  | none, none => true
  | none, some _ => false
  | some _, none => false
  | some a, some b =>
    if a.length ≠ b.length then false
    else ff_wc_equal_loop env a b 0 0

/-! ## The visited registry -/

/-- An entry of a visited list (`ff_visited_T`); the list itself is a
`List`, newest entry first. -/
structure ff_visited_T where
  ffv_wc_path : Option Str
  ffv_dev_valid : Bool
  ffv_dev : Nat
  ffv_ino : Nat
  ffv_fname : Str
deriving DecidableEq, Repr

/-- The search of `ff_check_visited` through the list. -/
def ff_visited_find (env : Env) (url : Bool) (st : Nat × Nat) (buf : Str)
    (wc_path : Option Str) : List ff_visited_T → Bool
  | [] => false
  | vp :: rest =>
    if (if !url then (vp.ffv_dev_valid && vp.ffv_dev == st.1 && vp.ffv_ino == st.2)
        else env.fnamecmp vp.ffv_fname buf == 0)
        && ff_wc_equal env vp.ffv_wc_path wc_path then
      true
    else
      ff_visited_find env url st buf wc_path rest

/-- Maintain the list of visited files and directories: `(false, list)` is
`FAIL` (already in the list, or stat failed), `(true, list')` is `OK` with
the new entry in front.  For a URL the fields `ffv_dev` and `ffv_ino` are
left as they come (0 here). -/
def ff_check_visited (env : Env) (visited_list : List ff_visited_T) (fname : Str)
    (wc_path : Option Str) : Bool × List ff_visited_T :=
  if env.path_with_url fname then
    let buf := fname.take (env.MAXPATHL - 1)
    if ff_visited_find env true (0, 0) buf wc_path visited_list then
      (false, visited_list)
    else
      (true, { ffv_wc_path := wc_path, ffv_dev_valid := false, ffv_dev := 0,
               ffv_ino := 0, ffv_fname := buf } :: visited_list)
  else
    match env.mch_stat fname with
    | none => (false, visited_list)
    | some st =>
      if ff_visited_find env false st [] wc_path visited_list then
        (false, visited_list)
      else
        (true, { ffv_wc_path := wc_path, ffv_dev_valid := true, ffv_dev := st.1,
                 ffv_ino := st.2, ffv_fname := [] } :: visited_list)

/-! ## The stack of directory frames and the search context -/

/-- A frame of the directory search stack (`ff_stack_T`); the stack is a
`List`, top first.  `ffs_filearray` is `none` for a NULL array, and its
length is `ffs_filearray_size`.  `ffs_filearray_cur` is a `char_u`. -/
structure ff_stack_T where
  ffs_fix_path : Str
  ffs_wc_path : Str
  ffs_filearray : Option (List Str)
  ffs_filearray_cur : Nat
  ffs_stage : Int
  ffs_level : Int
  ffs_star_star_empty : Int
deriving DecidableEq, Repr

/-- A visited list with the file name it is for (`ff_visited_list_hdr_T`). -/
structure ff_visited_list_hdr_T where
  ffvl_filename : Str
  ffvl_visited_list : List ff_visited_T
deriving DecidableEq, Repr

/-- The search context (`ff_search_ctx_T`).  The two lists of visited lists
are `List`s, newest header first; a pointer to a header is its position
counted from the oldest header (`none` is NULL), so that it stays put when a
header is added in front. -/
structure ff_search_ctx_T where
  ffsc_stack_ptr : List ff_stack_T
  ffsc_visited_list : Option Nat
  ffsc_dir_visited_list : Option Nat
  ffsc_visited_lists_list : List ff_visited_list_hdr_T
  ffsc_dir_visited_lists_list : List ff_visited_list_hdr_T
  ffsc_file_to_search : Option Str
  ffsc_start_dir : Option Str
  ffsc_fix_path : Option Str
  ffsc_wc_path : Option Str
  ffsc_level : Int
  ffsc_stopdirs_v : Option (List Str)
  ffsc_find_what : Int
  ffsc_tagfile : Bool
deriving DecidableEq, Repr

/-- `FINDFILE_FILE`, `FINDFILE_DIR`, `FINDFILE_BOTH` (vim.h). -/
def FINDFILE_FILE : Int := 0

/-- See `FINDFILE_FILE`. -/
def FINDFILE_DIR : Int := 1

/-- See `FINDFILE_FILE`. -/
def FINDFILE_BOTH : Int := 2

/-- The header a pointer points to; `none` when the pointer is NULL or
points to a freed header. -/
def hdr_deref (l : List ff_visited_list_hdr_T) (p : Option Nat) :
    Option ff_visited_list_hdr_T :=
  match p with
  | none => none
  | some a => if a < l.length then l[l.length - 1 - a]? else none

/-- Store a visited list through a pointer to its header. -/
def hdr_store (l : List ff_visited_list_hdr_T) (p : Option Nat)
    (v : List ff_visited_T) : List ff_visited_list_hdr_T :=
  match p with
  | none => l
  | some a =>
    if a < l.length then
      l.modify (fun h => { h with ffvl_visited_list := v }) (l.length - 1 - a)
    else l

/-- The context with all fields zero, as after `vim_memset`. -/
def ff_ctx_zero : ff_search_ctx_T :=
  { ffsc_stack_ptr := [], ffsc_visited_list := none, ffsc_dir_visited_list := none,
    ffsc_visited_lists_list := [], ffsc_dir_visited_lists_list := [],
    ffsc_file_to_search := none, ffsc_start_dir := none, ffsc_fix_path := none,
    ffsc_wc_path := none, ffsc_level := 0, ffsc_stopdirs_v := none,
    ffsc_find_what := 0, ffsc_tagfile := false }

/-- Create a stack element from the given path pieces. -/
def ff_create_stack_element (fix_part wc_part : Option Str) (level : Int)
    (star_star_empty : Int) : ff_stack_T :=
  { ffs_fix_path := fix_part.getD [], ffs_wc_path := wc_part.getD [],
    ffs_filearray := none, ffs_filearray_cur := 0, ffs_stage := 0,
    ffs_level := level, ffs_star_star_empty := star_star_empty }

/-- Push a directory on the directory stack. -/
def ff_push (search_ctx : ff_search_ctx_T) (stack_ptr : ff_stack_T) : ff_search_ctx_T :=
  { search_ctx with ffsc_stack_ptr := stack_ptr :: search_ctx.ffsc_stack_ptr }

/-- Pop a directory from the directory stack; `none` if the stack is empty. -/
def ff_pop (search_ctx : ff_search_ctx_T) : Option ff_stack_T × ff_search_ctx_T :=
  match search_ctx.ffsc_stack_ptr with
  | [] => (none, search_ctx)
  | sptr :: prev => (some sptr, { search_ctx with ffsc_stack_ptr := prev })

/-- Clear the search context, but NOT the visited lists. -/
def ff_clear (search_ctx : ff_search_ctx_T) : ff_search_ctx_T :=
  { search_ctx with
    ffsc_stack_ptr := [], ffsc_file_to_search := none, ffsc_start_dir := none,
    ffsc_fix_path := none, ffsc_wc_path := none, ffsc_stopdirs_v := none,
    ffsc_level := 0 }

/-- Free the list of lists of visited files and directories.  The two
pointers to the active lists are left as they are. -/
def vim_findfile_free_visited (search_ctx : ff_search_ctx_T) : ff_search_ctx_T :=
  { search_ctx with ffsc_visited_lists_list := [], ffsc_dir_visited_lists_list := [] }

/-- The search of `ff_get_visited_list`: the position, from the head, of the
first header for the file name. -/
def ff_find_visited_list (env : Env) (filename : Str) :
    List ff_visited_list_hdr_T → Option Nat
  | [] => none
  | h :: rest =>
    if env.fnamecmp filename h.ffvl_filename == 0 then some 0
    else (ff_find_visited_list env filename rest).map (· + 1)

/-- Return the already visited list for the given file name; if none is
found add a new one in front.  The result is the pointer and the list of
lists. -/
def ff_get_visited_list (env : Env) (filename : Str)
    (list_headp : List ff_visited_list_hdr_T) : Nat × List ff_visited_list_hdr_T :=
  match ff_find_visited_list env filename list_headp with
  | some i => (list_headp.length - 1 - i, list_headp)
  | none =>
    (list_headp.length,
      { ffvl_filename := filename, ffvl_visited_list := [] } :: list_headp)

/-! ## `vim_findfile_init` -/

/-- The C function `isspace` in the C locale. -/
def isspace (c : Nat) : Bool := c == 32 || (9 ≤ c && c ≤ 13)

/-- The C function `isdigit`. -/
def isdigit (c : Nat) : Bool := 48 ≤ c && c ≤ 57

/-- The value of a run of decimal digits. -/
def digits_value (ds : Str) : Nat := ds.foldl (fun a d => a * 10 + (d - 48)) 0

/-- The C function `strtol`, first part: the string after the white space
and the sign, where the digits are to start. -/
def strtol_after_sign (s : Str) : Str :=
  let s1 := s.dropWhile isspace
  if s1.head? == some 45 || s1.head? == some 43 then s1.drop 1 else s1

/-- The C function `strtol` with base 10 and a 64 bit `long`: the value and
the number of characters used (0 when there is no number). -/
def strtol (s : Str) : Int × Nat :=
  let ds := (strtol_after_sign s).takeWhile isdigit
  if ds.isEmpty then (0, 0)
  else
    let v : Int := digits_value ds
    ((if (s.dropWhile isspace).head? == some 45 then max (-v) (-(2 : Int) ^ 63)
      else min v ((2 : Int) ^ 63 - 1)),
      s.length - ((strtol_after_sign s).dropWhile isdigit).length)

/-- The conversion of a `long` to a 32 bit `int`. -/
def long_to_int (x : Int) : Int := (x + 2 ^ 31) % 2 ^ 32 - 2 ^ 31

/-- `STRNCMP(s, "**", 2) == 0`. -/
def starts_star_star (s : Str) : Bool :=
  match s with
  | 42 :: 42 :: _ => true
  | _ => false

/-- The messages `vim_findfile_init` gives. -/
inductive ff_msg where
  | e_pathtoolong
  | e343_invalid_path
deriving DecidableEq, Repr

/-- How the loop over the wildcard part ends: at the end of the string, by
the `break` after "path too long", or by `goto error_return` after E343.
The string is what is in `ff_expand_buffer` up to `len`. -/
inductive wc_result where
  | done (buf : Str)
  | toolong (buf : Str)
  | invalid
deriving DecidableEq, Repr

/-- The loop of `vim_findfile_init` that copies the wildcard part and adds
the restricts to `**`.  Each turn uses at least one character, so a `fuel`
above the length of `wc_part` is never used up. -/
def ff_wc_loop (env : Env) : Nat → Str → Str → wc_result
  | 0, _, buf => .done buf
  | _ + 1, [], buf => .done buf
  | fuel + 1, c :: rest, buf =>
    if buf.length + 5 ≥ env.MAXPATHL then .toolong buf
    else if starts_star_star (c :: rest) then
      let buf2 := buf ++ [c] ++ rest.take 1
      let wc2 := rest.drop 1
      let llevel := long_to_int (strtol wc2).1
      let used := (strtol wc2).2
      let buf3 :=
        if used ≠ 0 ∧ llevel > 0 ∧ llevel < 255 then buf2 ++ [llevel.toNat]
        else if used ≠ 0 ∧ llevel = 0 then buf2.take (buf2.length - 2)
        else buf2 ++ [FF_MAX_STAR_STAR_EXPAND]
      let wc3 := wc2.drop used
      if wc3.headD 0 ≠ 0 ∧ !env.vim_ispathsep (wc3.headD 0) then .invalid
      else ff_wc_loop env fuel wc3 buf3
    else ff_wc_loop env fuel rest (buf ++ [c])

/-- The split of 'stopdirs' at `;` in `vim_findfile_init`, after the leading
`;` were skipped: `cur` is the part read so far. -/
def ff_stopdirs_split : Str → Str → List Str
  | [], cur => [cur]
  | c :: rest, cur =>
    if c = 59 then cur :: ff_stopdirs_split rest []
    else ff_stopdirs_split rest (cur ++ [c])

/-- What `vim_findfile_init` returns: the context (`none` is NULL) and the
messages given on the way. -/
structure ff_init_result where
  ctx : Option ff_search_ctx_T
  msgs : List ff_msg
deriving DecidableEq, Repr

/-- The second half of `vim_findfile_init`, from "create an absolute path"
on: `start_dir`, `fix_path` and `wc_path` are stored in the context by
now. -/
def ff_init_finish (env : Env) (search_ctx : ff_search_ctx_T) (filename : Str)
    (level : Int) (start_dir fix_path : Str) (wc_path : Option Str)
    (msgs : List ff_msg) : ff_init_result :=
  if start_dir.length + fix_path.length + 3 ≥ env.MAXPATHL then
    { ctx := none, msgs := msgs ++ [.e_pathtoolong] }
  else
    let eb := env.add_pathsep start_dir
    let buf := eb ++ fix_path
    if env.mch_isdir buf then
      let eb2 := env.add_pathsep (eb ++ fix_path)
      let ctx := { search_ctx with
        ffsc_start_dir := some start_dir, ffsc_fix_path := some fix_path,
        ffsc_wc_path := wc_path }
      let ctx := ff_push ctx (ff_create_stack_element (some eb2) wc_path level 0)
      { ctx := some { ctx with ffsc_file_to_search := some filename }, msgs := msgs }
    else
      let p := env.gettail fix_path
      let len := if p > 0 then p - 1 else fix_path.length
      let eb2 := if p > 0 then env.add_pathsep (eb ++ fix_path.take len) else eb
      match wc_path with
      | none => { ctx := none, msgs := msgs }
      | some wc =>
        let temp := fix_path.drop len ++ wc
        let ctx := { search_ctx with
          ffsc_start_dir := some start_dir, ffsc_fix_path := some fix_path,
          ffsc_wc_path := some temp }
        let ctx := ff_push ctx (ff_create_stack_element (some eb2) (some temp) level 0)
        { ctx := some { ctx with ffsc_file_to_search := some filename }, msgs := msgs }

/-- The middle of `vim_findfile_init`: the stop directories, the level and
the split of the path into the fix part and the wildcard part.  `start_dir`
is `none` when the path is absolute. -/
def ff_init_split (env : Env) (search_ctx : ff_search_ctx_T) (path filename : Str)
    (stopdirs : Option Str) (level : Int) (start_dir : Option Str) : ff_init_result :=
  let ctx := { search_ctx with
    ffsc_stopdirs_v := stopdirs.map (fun s => ff_stopdirs_split (s.dropWhile (· == 59)) []),
    ffsc_level := level }
  if 42 ∈ path then
    let fix_path := path.takeWhile (· != 42)
    let wc_part := path.dropWhile (· != 42)
    match ff_wc_loop env (wc_part.length + 1) wc_part [] with
    | .invalid => { ctx := none, msgs := [.e343_invalid_path] }
    | .toolong buf =>
      match start_dir with
      | none => ff_init_finish env ctx filename level fix_path [] (some buf) [.e_pathtoolong]
      | some sd => ff_init_finish env ctx filename level sd fix_path (some buf) [.e_pathtoolong]
    | .done buf =>
      match start_dir with
      | none => ff_init_finish env ctx filename level fix_path [] (some buf) []
      | some sd => ff_init_finish env ctx filename level sd fix_path (some buf) []
  else
    match start_dir with
    | none => ff_init_finish env ctx filename level path [] none []
    | some sd => ff_init_finish env ctx filename level sd path none []

/-- The beginning of `vim_findfile_init`: the context to work on (the one
given or a new one), cleared, with its visited lists freed or with the
visited lists for the file name made the active ones. -/
def ff_init_ctx (env : Env) (filename : Str) (free_visited : Bool) (find_what : Int)
    (search_ctx_arg : Option ff_search_ctx_T) (tagfile : Bool) : ff_search_ctx_T :=
  let ctx := search_ctx_arg.getD ff_ctx_zero
  let ctx := ff_clear { ctx with ffsc_find_what := find_what, ffsc_tagfile := tagfile }
  if free_visited then vim_findfile_free_visited ctx
  else
    let r := ff_get_visited_list env filename ctx.ffsc_visited_lists_list
    let rd := ff_get_visited_list env filename ctx.ffsc_dir_visited_lists_list
    { ctx with
      ffsc_visited_list := some r.1, ffsc_visited_lists_list := r.2,
      ffsc_dir_visited_list := some rd.1, ffsc_dir_visited_lists_list := rd.2 }

/-- The start directory `vim_findfile_init` takes from `rel_fname` for a
path that starts with `./`; `none` when `FullName_save` fails. -/
def ff_init_rel_dir (env : Env) (rel : Str) : Option Str :=
  if !env.vim_isAbsName rel ∧ env.gettail rel + 1 < env.MAXPATHL then
    env.FullName_save (rel.take (env.gettail rel))
  else some (rel.take (env.gettail rel))

/-- Initialization routine for `vim_findfile`.  `free_visited` stands for
`free_visited == TRUE`.  The result has no context (NULL) if an error
occurred. -/
def vim_findfile_init (env : Env) (path filename : Str) (stopdirs : Option Str)
    (level : Int) (free_visited : Bool) (find_what : Int)
    (search_ctx_arg : Option ff_search_ctx_T) (tagfile : Bool)
    (rel_fname : Option Str) : ff_init_result :=
  let ctx := ff_init_ctx env filename free_visited find_what search_ctx_arg tagfile
  if path.headD 0 = 46
      ∧ (env.vim_ispathsep (path.getD 1 0) ∨ path.getD 1 0 = 0)
      ∧ (!tagfile ∨ !env.cpo_dottag)
      ∧ rel_fname.isSome then
    match ff_init_rel_dir env (rel_fname.getD []) with
    | none => { ctx := none, msgs := [] }
    | some sd =>
      ff_init_split env ctx (if (path.drop 1).headD 0 ≠ 0 then path.drop 2 else path.drop 1)
        filename stopdirs level (some sd)
  else if path.headD 0 = 0 ∨ !env.vim_isAbsName path then
    match env.mch_dirname with
    | none => { ctx := none, msgs := [] }
    | some cwd => ff_init_split env ctx path filename stopdirs level (some cwd)
  else
    ff_init_split env ctx path filename stopdirs level none

/-! ## `vim_findfile` -/

/-- The part of `vim_findfile` that expands the wildcards of a frame with
no file array yet: the frame afterwards, and `rest_of_wildcards`.  When the
restrict byte of `**` is missing (the string ends after `**`) `STRMOVE`
reads past the end; nothing is left of the wildcards then. -/
def ff_expand (env : Env) (search_ctx : ff_search_ctx_T) (stackp : ff_stack_T) :
    ff_stack_T × Str :=
  let file_path : Str :=
    if !env.vim_isAbsName stackp.ffs_fix_path ∧ search_ctx.ffsc_start_dir.isSome then
      env.add_pathsep (search_ctx.ffsc_start_dir.getD [])
    else []
  let file_path := env.add_pathsep (file_path ++ stackp.ffs_fix_path)
  let wc := stackp.ffs_wc_path
  if wc.headD 0 ≠ 0 then
    let star := starts_star_star wc
    let p := wc.getD 2 0
    let p1 := if p > 0 then p - 1 else p
    let file_path := if star ∧ p > 0 then file_path ++ [42] else file_path
    let wc_path := if star then (if p1 = 0 then wc.drop 3 else wc.set 2 p1) else wc
    let rest := if star then wc.drop 3 else wc
    let dirptrs1 : Option Str :=
      if star ∧ stackp.ffs_star_star_empty = 0 then some stackp.ffs_fix_path else none
    let star_star_empty :=
      if star ∧ stackp.ffs_star_star_empty = 0 then 1 else stackp.ffs_star_star_empty
    let file_path := file_path ++ rest.takeWhile (fun c => c != 0 && !env.vim_ispathsep c)
    let rest := rest.dropWhile (fun c => c != 0 && !env.vim_ispathsep c)
    let rest := if env.vim_ispathsep (rest.headD 0) then rest.drop 1 else rest
    let filearray :=
      if env.path_with_url file_path then [file_path]
      else env.expand_wildcards (file_path :: dirptrs1.toList)
    ({ stackp with
       ffs_wc_path := wc_path, ffs_star_star_empty := star_star_empty,
       ffs_filearray := some filearray, ffs_filearray_cur := 0, ffs_stage := 0 }, rest)
  else
    let filearray :=
      if env.path_with_url file_path then [file_path]
      else env.expand_wildcards [file_path]
    ({ stackp with
       ffs_filearray := some filearray, ffs_filearray_cur := 0, ffs_stage := 0 }, wc)

/-- The test "the file exists and has the wanted kind" of `vim_findfile`. -/
def ff_file_wanted (env : Env) (search_ctx : ff_search_ctx_T) (file_path : Str) : Bool :=
  env.path_with_url file_path
    || (decide (env.mch_getperm file_path ≥ 0)
        && (search_ctx.ffsc_find_what == FINDFILE_BOTH
            || (decide (search_ctx.ffsc_find_what = FINDFILE_DIR) == env.mch_isdir file_path)))

/-- The name `vim_findfile` returns for the file it found: simplified
unless it is a URL, and made relative to the current directory when
`shorten_fname` can do that. -/
def ff_found_name (env : Env) (file_path : Str) : Str :=
  let file_path :=
    if !env.path_with_url file_path then env.simplify_filename file_path else file_path
  match env.mch_dirname with
  | none => file_path
  | some cwd => (env.shorten_fname file_path cwd).getD file_path

/-- How the search for the final file through a file array ends: with a
file found at an index, without one, or by the use of a visited list
that is not there. -/
inductive ff_scan where
  | hit (i : Nat) (file_path : Str) (vl : List ff_visited_T)
  | miss (vl : Option (List ff_visited_T))
  | fault
deriving DecidableEq, Repr

/-- The loop of `vim_findfile` over the name without and with the suffixes
of 'suffixesadd', for the entry at index `i`. -/
def ff_try_suffixes (env : Env) (search_ctx : ff_search_ctx_T) (i : Nat) :
    List Str → Option (List ff_visited_T) → ff_scan
  | [], vl => .miss vl
  | file_path :: more, vl =>
    if ff_file_wanted env search_ctx file_path then
      match vl with
      | none => .fault
      | some l =>
        if (ff_check_visited env l file_path (some [])).1 then
          .hit i file_path (ff_check_visited env l file_path (some [])).2
        else
          ff_try_suffixes env search_ctx i more
            (some (ff_check_visited env l file_path (some [])).2)
    else ff_try_suffixes env search_ctx i more vl

/-- The names `vim_findfile` tries for an entry of the file array: the
entry with the file name, then that with each suffix of 'suffixesadd'
(none when searching for a tags file). -/
def ff_candidates (env : Env) (search_ctx : ff_search_ctx_T) (entry : Str) : List Str :=
  let file_path := env.add_pathsep entry ++ search_ctx.ffsc_file_to_search.getD []
  let parts :=
    if search_ctx.ffsc_tagfile ∨ env.b_p_sua.headD 0 = 0 then []
    else env.copy_option_parts env.b_p_sua ((env.MAXPATHL : Int) - file_path.length)
  file_path :: parts.map (fun suf => file_path ++ suf)

/-- The loop of `vim_findfile` that checks for the final file in the
entries of the file array from index `i` on. -/
def ff_scan_entries (env : Env) (search_ctx : ff_search_ctx_T) :
    List Str → Nat → Option (List ff_visited_T) → ff_scan
  | [], _, vl => .miss vl
  | entry :: more, i, vl =>
    if !env.path_with_url entry && !env.mch_isdir entry then
      ff_scan_entries env search_ctx more (i + 1) vl
    else
      match ff_try_suffixes env search_ctx i (ff_candidates env search_ctx entry) vl with
      | .miss vl1 => ff_scan_entries env search_ctx more (i + 1) vl1
      | .hit j file_path vl1 => .hit j file_path vl1
      | .fault => .fault

/-- The frames `vim_findfile` pushes for further search when wildcards are
left: one for every entry that is a directory. -/
def ff_push_children (env : Env) (rest_of_wildcards : Str) (level : Int) :
    List Str → ff_search_ctx_T → ff_search_ctx_T
  | [], search_ctx => search_ctx
  | entry :: more, search_ctx =>
    if !env.mch_isdir entry then ff_push_children env rest_of_wildcards level more search_ctx
    else
      ff_push_children env rest_of_wildcards level more
        (ff_push search_ctx
          (ff_create_stack_element (some entry) (some rest_of_wildcards) (level - 1) 0))

/-- The frames `vim_findfile` pushes when the wildcards start with `**`:
one for every entry that is a directory other than the frame's own. -/
def ff_push_star_star (env : Env) (stackp : ff_stack_T) :
    List Str → ff_search_ctx_T → ff_search_ctx_T
  | [], search_ctx => search_ctx
  | entry :: more, search_ctx =>
    if env.fnamecmp entry stackp.ffs_fix_path == 0 then
      ff_push_star_star env stackp more search_ctx
    else if !env.mch_isdir entry then ff_push_star_star env stackp more search_ctx
    else
      ff_push_star_star env stackp more
        (ff_push search_ctx
          (ff_create_stack_element (some entry) (some stackp.ffs_wc_path)
            (stackp.ffs_level - 1) 1))

/-- How one turn of the downward search loop ends. -/
inductive ff_step where
  | again (search_ctx : ff_search_ctx_T)
  | found (file_path : Str) (search_ctx : ff_search_ctx_T)
  | fault
deriving DecidableEq, Repr

/-- The end of a turn of the downward loop: the descent for `**` and the
release of the frame. -/
def ff_step_finish (env : Env) (search_ctx : ff_search_ctx_T) (stackp : ff_stack_T) :
    ff_step :=
  if starts_star_star stackp.ffs_wc_path then
    .again (ff_push_star_star env stackp
      ((stackp.ffs_filearray.getD []).drop stackp.ffs_filearray_cur) search_ctx)
  else .again search_ctx

/-- One turn of the downward search loop of `vim_findfile` on the frame
just popped, from "check depth" on. -/
def ff_step_frame (env : Env) (search_ctx : ff_search_ctx_T) (stackp : ff_stack_T) :
    ff_step :=
  if stackp.ffs_level ≤ 0 then .again search_ctx
  else
    let ex : ff_stack_T × Str :=
      if stackp.ffs_filearray.isNone then ff_expand env search_ctx stackp else (stackp, [])
    let stackp := ex.1
    let rest_of_wildcards := ex.2
    if stackp.ffs_stage = 0 then
      if rest_of_wildcards.headD 0 = 0 then
        match ff_scan_entries env search_ctx
            ((stackp.ffs_filearray.getD []).drop stackp.ffs_filearray_cur)
            stackp.ffs_filearray_cur
            ((hdr_deref search_ctx.ffsc_visited_lists_list search_ctx.ffsc_visited_list).map
              (·.ffvl_visited_list)) with
        | .fault => .fault
        | .hit i file_path vl =>
          let search_ctx := { search_ctx with
            ffsc_visited_lists_list :=
              hdr_store search_ctx.ffsc_visited_lists_list search_ctx.ffsc_visited_list vl }
          let search_ctx := ff_push search_ctx { stackp with ffs_filearray_cur := (i + 1) % 256 }
          .found (ff_found_name env file_path) search_ctx
        | .miss vl =>
          let search_ctx := { search_ctx with
            ffsc_visited_lists_list :=
              match vl with
              | none => search_ctx.ffsc_visited_lists_list
              | some l =>
                hdr_store search_ctx.ffsc_visited_lists_list search_ctx.ffsc_visited_list l }
          ff_step_finish env search_ctx { stackp with ffs_filearray_cur := 0, ffs_stage := 1 }
      else
        let search_ctx := ff_push_children env rest_of_wildcards stackp.ffs_level
          ((stackp.ffs_filearray.getD []).drop stackp.ffs_filearray_cur) search_ctx
        ff_step_finish env search_ctx { stackp with ffs_filearray_cur := 0, ffs_stage := 1 }
    else ff_step_finish env search_ctx stackp

/-- One turn of the downward search loop of `vim_findfile` on the frame
just popped: the check of the visited directories, then the rest. -/
def ff_step_popped (env : Env) (search_ctx : ff_search_ctx_T) (stackp : ff_stack_T) :
    ff_step :=
  if stackp.ffs_filearray.isNone then
    match hdr_deref search_ctx.ffsc_dir_visited_lists_list search_ctx.ffsc_dir_visited_list with
    | none => .fault
    | some h =>
      let r := ff_check_visited env h.ffvl_visited_list stackp.ffs_fix_path
        (some stackp.ffs_wc_path)
      let search_ctx := { search_ctx with
        ffsc_dir_visited_lists_list :=
          hdr_store search_ctx.ffsc_dir_visited_lists_list search_ctx.ffsc_dir_visited_list r.2 }
      if !r.1 then .again search_ctx
      else ff_step_frame env search_ctx stackp
  else ff_step_frame env search_ctx stackp

/-- Check if the given path is in the stopdirs: the loop that eats up the
trailing path separators, except the first. -/
def ff_stoplist_trim (env : Env) (path : Str) : Nat → Int → Int
  | 0, path_len => path_len
  | fuel + 1, path_len =>
    if path_len > 1 ∧ env.vim_ispathsep (path.getD (path_len - 1).toNat 0) then
      ff_stoplist_trim env path fuel (path_len - 1)
    else path_len

/-- Check if the given path is in the stopdirs: the loop over the
stopdirs. -/
def ff_stoplist_any (env : Env) (path : Str) (path_len : Int) : List Str → Bool
  | [] => false
  | s :: more =>
    if (s.length : Int) > path_len then
      if env.fnamencmp s path path_len.toNat == 0
          && env.vim_ispathsep (s.getD path_len.toNat 0) then true
      else ff_stoplist_any env path path_len more
    else
      if env.fnamecmp s path == 0 then true
      else ff_stoplist_any env path path_len more

/-- Check if the given path is in the stopdirs. -/
def ff_path_in_stoplist (env : Env) (path : Str) (path_len : Int) (stopdirs_v : List Str) :
    Bool :=
  let path_len := ff_stoplist_trim env path path_len.toNat path_len
  if path_len = 0 then true
  else ff_stoplist_any env path path_len stopdirs_v

/-- The loop `while (path_end > start_dir && vim_ispathsep(*path_end))
path_end--` of the upward search; `path_end` is an offset in `start_dir`. -/
def ff_cut_seps (env : Env) (start_dir : Str) : Nat → Int → Int
  | 0, path_end => path_end
  | fuel + 1, path_end =>
    if path_end > 0 ∧ env.vim_ispathsep (start_dir.getD path_end.toNat 0) then
      ff_cut_seps env start_dir fuel (path_end - 1)
    else path_end

/-- The loop `while (path_end > start_dir && !vim_ispathsep(path_end[-1]))
path_end--` of the upward search. -/
def ff_cut_name (env : Env) (start_dir : Str) : Nat → Int → Int
  | 0, path_end => path_end
  | fuel + 1, path_end =>
    if path_end > 0 ∧ !env.vim_ispathsep (start_dir.getD (path_end - 1).toNat 0) then
      ff_cut_name env start_dir fuel (path_end - 1)
    else path_end

/-- How the upward part of `vim_findfile` ends: by leaving the upward
loop, or with a new frame on the stack and a new `path_end`. -/
inductive ff_up where
  | stop (search_ctx : ff_search_ctx_T)
  | seed (search_ctx : ff_search_ctx_T) (path_end : Int)
deriving DecidableEq, Repr

/-- The upward part of `vim_findfile`, reached with an empty stack and
without an interrupt. -/
def ff_upward (env : Env) (search_ctx : ff_search_ctx_T) (path_end : Int) : ff_up :=
  match search_ctx.ffsc_start_dir, search_ctx.ffsc_stopdirs_v with
  | some start_dir, some stopdirs_v =>
    if ff_path_in_stoplist env start_dir path_end stopdirs_v then .stop search_ctx
    else
      let path_end := ff_cut_seps env start_dir path_end.toNat path_end
      let path_end := ff_cut_name env start_dir path_end.toNat path_end
      let start_dir := start_dir.take path_end.toNat
      let search_ctx := { search_ctx with ffsc_start_dir := some start_dir }
      if start_dir.headD 0 = 0 then .stop search_ctx
      else
        let file_path := env.add_pathsep start_dir ++ search_ctx.ffsc_fix_path.getD []
        .seed
          (ff_push search_ctx
            (ff_create_stack_element (some file_path) search_ctx.ffsc_wc_path
              search_ctx.ffsc_level 0))
          (path_end - 1)
  | _, _ => .stop search_ctx

/-- What a call of `vim_findfile` comes to: it returns (a file name, or
`none` for NULL) and leaves a context; or it uses a visited list through a
pointer that is NULL or dangling; or the turns allowed were not enough. -/
inductive ff_result where
  | done (file_path : Option Str) (search_ctx : ff_search_ctx_T)
  | fault
  | out_of_fuel
deriving DecidableEq, Repr

/-- The two loops of `vim_findfile`.  A turn of the downward loop is one
unit of `fuel`; `poll k` is the value of `got_int` after the `k`th call of
`ui_breakcheck`; `path_end` is an offset in `ffsc_start_dir`. -/
def ff_search_loop (env : Env) (poll : Nat → Bool) :
    Nat → Nat → ff_search_ctx_T → Int → ff_result
  | 0, _, _, _ => .out_of_fuel
  | fuel + 1, k, search_ctx, path_end =>
    if poll k then .done none search_ctx
    else
      match ff_pop search_ctx with
      | (none, search_ctx) =>
        match ff_upward env search_ctx path_end with
        | .stop search_ctx => .done none search_ctx
        | .seed search_ctx path_end => ff_search_loop env poll fuel (k + 1) search_ctx path_end
      | (some stackp, search_ctx) =>
        match ff_step_popped env search_ctx stackp with
        | .fault => .fault
        | .found file_path search_ctx => .done (some file_path) search_ctx
        | .again search_ctx => ff_search_loop env poll fuel (k + 1) search_ctx path_end

/-- Find a file in a search context (not NULL).  `fuel` bounds the turns of
the downward loop, `poll` is the interrupt flag at each of its turns. -/
def vim_findfile (env : Env) (poll : Nat → Bool) (fuel : Nat)
    (search_ctx : ff_search_ctx_T) : ff_result :=
  ff_search_loop env poll fuel 0 search_ctx
    ((search_ctx.ffsc_start_dir.getD []).length : Int)

/-- Calls of `vim_findfile` one after the other on one context, each with
its own interrupt flag and fuel: what each call returns.  The run ends at
the first call that does not return. -/
def ff_calls (env : Env) : List ((Nat → Bool) × Nat) → ff_search_ctx_T → List (Option Str)
  | [], _ => []
  | call :: more, search_ctx =>
    match vim_findfile env call.1 call.2 search_ctx with
    | .done file_path search_ctx => file_path :: ff_calls env more search_ctx
    | _ => []

/-- The interrupt flag that is never set. -/
def no_interrupt : Nat → Bool := fun _ => false

/-! ## Identity in the visited registry -/

/-- What `ff_check_visited` compares a name by: device and inode from
`mch_stat`, or for a URL the name itself as far as it fits in
`ff_expand_buffer`. -/
inductive ff_identity where
  | inode (dev ino : Nat)
  | name (fname : Str)
deriving DecidableEq, Repr

/-- The identity of a name; `none` when the name is not a URL and stat
fails. -/
def ff_identity_of (env : Env) (fname : Str) : Option ff_identity :=
  if env.path_with_url fname then some (.name (fname.take (env.MAXPATHL - 1)))
  else (env.mch_stat fname).map (fun st => .inode st.1 st.2)

/-- The entry `ff_check_visited` makes for an identity and a wildcard
string. -/
def ff_entry_for (id : ff_identity) (wc_path : Option Str) : ff_visited_T :=
  match id with
  | .inode dev ino =>
    { ffv_wc_path := wc_path, ffv_dev_valid := true, ffv_dev := dev, ffv_ino := ino,
      ffv_fname := [] }
  | .name fname =>
    { ffv_wc_path := wc_path, ffv_dev_valid := false, ffv_dev := 0, ffv_ino := 0,
      ffv_fname := fname }

/-- The entry is a visit of the same thing: it has the identity, and its
wildcard string is equal in shape to the given one. -/
def ff_same_visit (env : Env) (id : ff_identity) (wc_path : Option Str)
    (vp : ff_visited_T) : Bool :=
  (match id with
    | .inode dev ino => vp.ffv_dev_valid && vp.ffv_dev == dev && vp.ffv_ino == ino
    | .name fname => env.fnamecmp vp.ffv_fname fname == 0)
  && ff_wc_equal env vp.ffv_wc_path wc_path

/-- Two identities are the same: the same device and inode, or two URLs
that `fnamecmp` finds equal. -/
def ff_same_identity (env : Env) (id1 id2 : ff_identity) : Prop :=
  match id1, id2 with
  | .inode dev1 ino1, .inode dev2 ino2 => dev1 = dev2 ∧ ino1 = ino2
  | .name fname1, .name fname2 => env.fnamecmp fname1 fname2 = 0
  | _, _ => False

/-! ## A small file system to run the search on -/

/-- A directory tree given by its directories and its files, each a full
name (without a separator at the end) with its inode; all on device 1. -/
structure fs_tree where
  dirs : List (Str × Nat)
  files : List (Str × Nat)

/-- The name without the path separators at its end. -/
def strip_seps (p : Str) : Str := (p.reverse.dropWhile (· == 47)).reverse

/-- The name up to and with its last path separator. -/
def dir_part (p : Str) : Str := (p.reverse.dropWhile (· != 47)).reverse

/-- The inode of the directory of that name, if there is one. -/
def fs_tree.dir_inode (fs : fs_tree) (p : Str) : Option Nat :=
  (fs.dirs.find? (fun d => d.1 == strip_seps p)).map (·.2)

/-- The inode of the file of that name, if there is one. -/
def fs_tree.file_inode (fs : fs_tree) (p : Str) : Option Nat :=
  (fs.files.find? (fun d => d.1 == p)).map (·.2)

/-- The directories a pattern stands for, each with a separator at its
end: all directories in a directory for a pattern that ends in `/*`, the
directory itself for a pattern without wildcard. -/
def fs_tree.glob (fs : fs_tree) (pat : Str) : List Str :=
  if pat.getLast? == some 42 then
    (fs.dirs.filter (fun d => dir_part d.1 == pat.dropLast && d.1 != [47])).map
      (fun d => d.1 ++ [47])
  else if (fs.dir_inode pat).isSome then [strip_seps pat ++ [47]] else []

/-- The parts of an option value between its commas. -/
def comma_parts : Str → Str → List Str
  | [], cur => if cur.isEmpty then [] else [cur]
  | c :: rest, cur =>
    if c == 44 then cur :: comma_parts rest [] else comma_parts rest (cur ++ [c])

/-- The outside world over a directory tree: Unix file names, file names
compared as they are, no URLs, current directory `/cwd`, found names
returned as they are. -/
def tree_env (fs : fs_tree) (MAXPATHL : Nat) (sua : Str) : Env :=
  { MAXPATHL := MAXPATHL, p_fic := false, mb_tolower := id,
    fnamecmp := fun a b => if a = b then 0 else 1,
    vim_ispathsep := fun c => c == 47,
    path_with_url := fun _ => false,
    mch_stat := fun p =>
      match fs.dir_inode p with
      | some i => some (1, i)
      | none => (fs.file_inode p).map (fun i => (1, i)),
    mch_isdir := fun p => (fs.dir_inode p).isSome,
    mch_getperm := fun p =>
      if (fs.dir_inode p).isSome || (fs.file_inode p).isSome then 420 else -1,
    vim_isAbsName := fun p => p.head? == some 47,
    expand_wildcards := fun pats => pats.flatMap fs.glob,
    b_p_sua := sua,
    simplify_filename := id,
    mch_dirname := some (str "/cwd"),
    shorten_fname := fun _ _ => none,
    gettail := fun p => p.length - (p.reverse.takeWhile (· != 47)).length,
    FullName_save := fun p => some p,
    cpo_dottag := false,
    add_pathsep := fun p => if p != [] && p.getLast? != some 47 then p ++ [47] else p,
    fnamencmp := fun a b n => if a.take n = b.take n then 0 else 1,
    copy_option_parts := fun o n => (comma_parts o []).map (fun s => s.take (n - 1).toNat) }

/-- The tree `/r/{x,y}/tags`. -/
def tree_r : fs_tree :=
  { dirs := [(str "/", 1), (str "/r", 2), (str "/r/x", 3), (str "/r/y", 4)],
    files := [(str "/r/x/tags", 10), (str "/r/y/tags", 11)] }

/-- The comparison of two characters in `ff_wc_equal`. -/
def ff_same_char (env : Env) (c1 c2 : Nat) : Prop :=
  if env.p_fic then env.mb_tolower c1 = env.mb_tolower c2 else c1 = c2

instance ff_same_char_decidable (env : Env) (c1 c2 : Nat) :
    Decidable (ff_same_char env c1 c2) := by
  unfold ff_same_char; infer_instance

/-! ## The wildcard part, item by item -/

/-- An item of the wildcard part of a path: one character, or a `**` with
the decimal digits that follow it (there may be none). -/
inductive wc_item where
  | char (c : Nat)
  | star_star (digits : Str)
deriving DecidableEq, Repr

/-- The wildcard part as it is written in the path. -/
def wc_source : List wc_item → Str
  | [] => []
  | .char c :: more => c :: wc_source more
  | .star_star digits :: more => [STAR, STAR] ++ digits ++ wc_source more

/-- The wildcard part as the description of `**` has it stored: a `**` with
a number from 1 to 254 is `**` and one byte of that value, a `**` without
number is `**` and the byte 30, a `**` with the number 0 is dropped, and
every other character is copied. -/
def wc_compiled : List wc_item → Str
  | [] => []
  | .char c :: more => c :: wc_compiled more
  | .star_star digits :: more =>
    (if digits.isEmpty then [STAR, STAR, FF_MAX_STAR_STAR_EXPAND]
     else if digits_value digits = 0 then []
     else [STAR, STAR, digits_value digits]) ++ wc_compiled more

/-- The items are those of a well formed wildcard part: no character is
NUL, a character `*` is not followed by another `*` (that would be a `**`),
the number after a `**` is made of digits and is at most 254, and after it
comes a path separator or the end of the string. -/
def wc_items_ok (env : Env) : List wc_item → Prop
  | [] => True
  | .char c :: more =>
    c ≠ 0 ∧ (c = STAR → (wc_source more).head? ≠ some STAR) ∧ wc_items_ok env more
  | .star_star digits :: more =>
    (∀ d ∈ digits, isdigit d = true) ∧ digits_value digits ≤ 254
      ∧ ((wc_source more) = [] ∨ env.vim_ispathsep ((wc_source more).headD 0) = true)
      ∧ wc_items_ok env more

/-- A path separator is not a character `strtol` would read: no white
space, no sign, no digit. -/
def sep_not_numeric (env : Env) : Prop :=
  ∀ c, env.vim_ispathsep c = true → isspace c = false ∧ isdigit c = false ∧ c ≠ 43 ∧ c ≠ 45

/-- The tree below `/cwd/a`: the chain of directories `a/x/y/z`, each with
a directory `b` that holds a file `t`. -/
def tree_a : fs_tree :=
  { dirs := [(str "/", 1), (str "/cwd", 2), (str "/cwd/a", 3), (str "/cwd/a/b", 4),
      (str "/cwd/a/x", 5), (str "/cwd/a/x/b", 6), (str "/cwd/a/x/y", 7),
      (str "/cwd/a/x/y/b", 8), (str "/cwd/a/x/y/z", 9), (str "/cwd/a/x/y/z/b", 10)],
    files := [(str "/cwd/a/b/t", 20), (str "/cwd/a/x/b/t", 21), (str "/cwd/a/x/y/b/t", 22),
      (str "/cwd/a/x/y/z/b/t", 23)] }

/-- The active visited list for files of a context; `none` when its pointer
is NULL or dangling. -/
def ff_file_registry (search_ctx : ff_search_ctx_T) : Option (List ff_visited_T) :=
  (hdr_deref search_ctx.ffsc_visited_lists_list search_ctx.ffsc_visited_list).map
    (·.ffvl_visited_list)

/-- The active visited list for directories of a context; `none` when its
pointer is NULL or dangling. -/
def ff_dir_registry (search_ctx : ff_search_ctx_T) : Option (List ff_visited_T) :=
  (hdr_deref search_ctx.ffsc_dir_visited_lists_list search_ctx.ffsc_dir_visited_list).map
    (·.ffvl_visited_list)

/-- A turn of the downward loop and the visited list for files: it stays as
it is, unless a file is found, which the turn then has put in front. -/
def ff_step_keeps (env : Env) (search_ctx : ff_search_ctx_T) : ff_step → Prop
  | .again search_ctx' => ff_file_registry search_ctx' = ff_file_registry search_ctx
  | .found file_path search_ctx' =>
    ∃ c l l', file_path = ff_found_name env c ∧ ff_file_registry search_ctx = some l
      ∧ ff_check_visited env l c (some []) = (true, l')
      ∧ ff_file_registry search_ctx' = some l'
  | .fault => True

/-- A call of `vim_findfile` and the visited list for files: it stays as
it is when NULL is returned; a name returned is the found name of a
candidate that `ff_check_visited` has just put in front of the list. -/
def ff_call_keeps (env : Env) (search_ctx : ff_search_ctx_T) : ff_result → Prop
  | .done none search_ctx' => ff_file_registry search_ctx' = ff_file_registry search_ctx
  | .done (some file_path) search_ctx' =>
    ∃ c l l', file_path = ff_found_name env c ∧ ff_file_registry search_ctx = some l
      ∧ ff_check_visited env l c (some []) = (true, l')
      ∧ ff_file_registry search_ctx' = some l'
  | _ => True

/-! ## A search with one wildcard at the end of the path -/

/-- The first name `vim_findfile` tries in a directory: the directory,
a path separator, the file name. -/
def star_cand (env : Env) (target d : Str) : Str := env.add_pathsep d ++ target

/-- The context of such a search: one visited list for files and one for
directories, both for the file name, and the fields as
`vim_findfile_init` sets them. -/
def star_state (root target : Str) (level find_what : Int) (tagfile : Bool)
    (stack : List ff_stack_T) (files dirs : List ff_visited_T) : ff_search_ctx_T :=
  { ffsc_stack_ptr := stack, ffsc_visited_list := some 0, ffsc_dir_visited_list := some 0,
    ffsc_visited_lists_list := [{ ffvl_filename := target, ffvl_visited_list := files }],
    ffsc_dir_visited_lists_list := [{ ffvl_filename := target, ffvl_visited_list := dirs }],
    ffsc_file_to_search := some target, ffsc_start_dir := some root,
    ffsc_fix_path := some [], ffsc_wc_path := some [STAR], ffsc_level := level,
    ffsc_stopdirs_v := none, ffsc_find_what := find_what, ffsc_tagfile := tagfile }

/-- The frame of such a search once its file array is there: `k` entries
have been returned. -/
def star_frame (root : Str) (ds : List Str) (level : Int) (k : Nat) : ff_stack_T :=
  { ffs_fix_path := root, ffs_wc_path := [STAR], ffs_filearray := some ds,
    ffs_filearray_cur := k % 256, ffs_stage := 0, ffs_level := level,
    ffs_star_star_empty := 0 }

/-- The entry of the visited list for the file found in a directory. -/
def star_entry (env : Env) (target d : Str) : ff_visited_T :=
  ff_entry_for
    (.inode ((env.mch_stat (star_cand env target d)).getD (0, 0)).1
      ((env.mch_stat (star_cand env target d)).getD (0, 0)).2) (some [])

/-- The visited list for files after `k` entries have been returned. -/
def star_registry (env : Env) (target : Str) (ds : List Str) (k : Nat) : List ff_visited_T :=
  ((ds.take k).map (star_entry env target)).reverse

/-- What `vim_findfile_init` without `free_visited` does to a list of
visited lists: every visited list of `old` is still there in `new`, under
its pointer and with its entries; the pointer `ptr` to the active list
points to a list for the file name, which either was in `old` (then
nothing is added) or is new and empty, and `old` had none for the name. -/
def ff_lists_kept (env : Env) (filename : Str) (old new : List ff_visited_list_hdr_T)
    (ptr : Option Nat) : Prop :=
  (∀ a, a < old.length → hdr_deref new (some a) = hdr_deref old (some a))
  ∧ ∃ hdr, hdr_deref new ptr = some hdr
      ∧ ((hdr ∈ old ∧ env.fnamecmp filename hdr.ffvl_filename = 0 ∧ new = old)
        ∨ ((∀ h ∈ old, env.fnamecmp filename h.ffvl_filename ≠ 0)
          ∧ hdr = { ffvl_filename := filename, ffvl_visited_list := [] }
          ∧ new = hdr :: old))

/-- The tree `/r/x/tags` with a second name `/r/l` for the directory
`/r/x`. -/
def tree_link : fs_tree :=
  { dirs := [(str "/", 1), (str "/r", 2), (str "/r/x", 3), (str "/r/l", 3)],
    files := [(str "/r/x/tags", 10), (str "/r/l/tags", 10)] }

/-- The outside world over the tree with the link, where the names that
start with `http://` are URLs. -/
def link_env : Env :=
  { tree_env tree_link 4096 [] with path_with_url := fun p => p.take 7 == str "http://" }

/-- The fields of a context that `vim_findfile_init` sets and
`vim_findfile` only reads. -/
def ff_settings (c : ff_search_ctx_T) :
    Option Nat × Option Nat × Option Str × Option Str × Option Str × Int
      × Option (List Str) × Int × Bool :=
  (c.ffsc_visited_list, c.ffsc_dir_visited_list, c.ffsc_file_to_search, c.ffsc_fix_path,
    c.ffsc_wc_path, c.ffsc_level, c.ffsc_stopdirs_v, c.ffsc_find_what, c.ffsc_tagfile)

/-- No frame of the stack has a level above `cap`. -/
def ff_levels_le (cap : Int) (stack : List ff_stack_T) : Prop :=
  ∀ f ∈ stack, f.ffs_level ≤ cap

/-- The states of a context that the turns of `vim_findfile` lead to from
a given one, through any number of calls: a turn of the downward loop on
the frame popped that goes on or returns a file, or a turn of the upward
loop that pushes a new frame or leaves the loop. -/
inductive ff_reaches (env : Env) (start : ff_search_ctx_T) : ff_search_ctx_T → Prop where
  | refl : ff_reaches env start start
  | again (c c1 c2 : ff_search_ctx_T) (stackp : ff_stack_T) :
      ff_reaches env start c → ff_pop c = (some stackp, c1) →
      ff_step_popped env c1 stackp = .again c2 → ff_reaches env start c2
  | found (c c1 c2 : ff_search_ctx_T) (stackp : ff_stack_T) (file_path : Str) :
      ff_reaches env start c → ff_pop c = (some stackp, c1) →
      ff_step_popped env c1 stackp = .found file_path c2 → ff_reaches env start c2
  | seed (c c1 c2 : ff_search_ctx_T) (path_end path_end2 : Int) :
      ff_reaches env start c → ff_pop c = (none, c1) →
      ff_upward env c1 path_end = .seed c2 path_end2 → ff_reaches env start c2
  | stop (c c1 c2 : ff_search_ctx_T) (path_end : Int) :
      ff_reaches env start c → ff_pop c = (none, c1) →
      ff_upward env c1 path_end = .stop c2 → ff_reaches env start c2

/-! ## `vim_findfile_stopdir` -/

/-- The loop of `vim_findfile_stopdir`: `r_ptr` is an offset in `buf`.
`STRMOVE(r_ptr, r_ptr + 1)` takes the character at `r_ptr` out of the
string. -/
def vim_findfile_stopdir_loop : Nat → Str → Nat → Str × Nat
  | 0, buf, r_ptr => (buf, r_ptr)
  | fuel + 1, buf, r_ptr =>
    if buf.getD r_ptr 0 ≠ 0 ∧ buf.getD r_ptr 0 ≠ 59 then
      if buf.getD r_ptr 0 = 92 ∧ buf.getD (r_ptr + 1) 0 = 59 then
        vim_findfile_stopdir_loop fuel (buf.eraseIdx r_ptr) (r_ptr + 1 + 1)
      else vim_findfile_stopdir_loop fuel buf (r_ptr + 1)
    else (buf, r_ptr)

/-- Get the stopdir string.  Check that `;` is not escaped.  The result is
`buf` afterwards and the string returned (`none` for NULL). -/
def vim_findfile_stopdir (buf : Str) : Str × Option Str :=
  let r := vim_findfile_stopdir_loop (buf.length + 1) buf 0
  if r.1.getD r.2 0 = 59 then (r.1.take r.2, some (r.1.drop (r.2 + 1)))
  else (r.1, none)

/-- The string has no three `*` in a row. -/
def no_three_stars (s : Str) : Prop :=
  ∀ i, ¬ (s.getD i 0 = STAR ∧ s.getD (i + 1) 0 = STAR ∧ s.getD (i + 2) 0 = STAR)

/-- The first part of `vim_findfile_init`: the start directory (`none`
when the path is absolute: the fix part becomes the start directory then)
and the path that is left to split.  The result is `none` when the start
directory cannot be had (`FullName_save` or `mch_dirname` fails). -/
def ff_init_start (env : Env) (path : Str) (tagfile : Bool) (rel_fname : Option Str) :
    Option (Option Str × Str) :=
  if path.headD 0 = 46
      ∧ (env.vim_ispathsep (path.getD 1 0) ∨ path.getD 1 0 = 0)
      ∧ (!tagfile ∨ !env.cpo_dottag)
      ∧ rel_fname.isSome then
    match ff_init_rel_dir env (rel_fname.getD []) with
    | none => none
    | some sd => some (some sd, if (path.drop 1).headD 0 ≠ 0 then path.drop 2 else path.drop 1)
  else if path.headD 0 = 0 ∨ !env.vim_isAbsName path then
    match env.mch_dirname with
    | none => none
    | some cwd => some (some cwd, path)
  else some (none, path)

/-! ## `mouse_has` (mouse.c) -/

/-- What `mouse_has` reads from outside: the macros `MOUSE_A`, `MOUSE_HELP`
and `MOUSE_RETURN`, the option 'mouse' and whether the current buffer is a
help file (`curbuf->b_help`). -/
structure mouse_env where
  MOUSE_A : Str
  MOUSE_HELP : Nat
  MOUSE_RETURN : Nat
  p_mouse : Str
  b_help : Bool

/-- The loop of `mouse_has` over the characters of 'mouse'; `vim_strchr`
finds a character that is in the string. -/
def mouse_has_loop (m : mouse_env) (c : Nat) : Str → Bool
  | [] => false
  | p :: rest =>
    if p = 97 then
      if c ∈ m.MOUSE_A then true else mouse_has_loop m c rest
    else if p = m.MOUSE_HELP then
      if c ≠ m.MOUSE_RETURN ∧ m.b_help then true else mouse_has_loop m c rest
    else
      if c = p then true else mouse_has_loop m c rest

/-- Return true if `c` is in 'mouse', or `a` is in 'mouse' and `c` is in
`MOUSE_A`, or the current buffer is a help file and `h` is in 'mouse' and we
are in a normal editing mode (not at hit-return message). -/
def mouse_has (m : mouse_env) (c : Nat) : Bool := mouse_has_loop m c m.p_mouse

/-- A frame as `ff_create_stack_element` makes it: no file array, cursor 0,
stage 0. -/
def ff_frame_fresh (f : ff_stack_T) : Prop :=
  f.ffs_filearray = none ∧ f.ffs_filearray_cur = 0 ∧ f.ffs_stage = 0

/-- A listing of 256 directories `/r/AA/`, `/r/AB/`, ..., `/r/PP/`. -/
def wide_listing : List Str :=
  (List.range 256).map (fun i => str "/r/" ++ [65 + i / 16, 65 + i % 16, 47])

/-- An environment in which `/r/*` lists the 256 directories of
`wide_listing` and the file `t` is in the last of them only. -/
def wide_env : Env :=
  { tree_env tree_r 4096 [] with
    mch_isdir := fun p => p.getLast? == some 47,
    mch_getperm := fun p => if p = str "/r/PP/t" then 420 else -1,
    mch_stat := fun p => some (1, p.length),
    expand_wildcards := fun _ => wide_listing }

/-- The loops of `vim_findfile` come to an end from this state: with turns
enough the call returns. -/
def ff_returns (env : Env) (poll : Nat → Bool) (k : Nat) (search_ctx : ff_search_ctx_T)
    (path_end : Int) : Prop :=
  ∃ fuel, ff_search_loop env poll fuel k search_ctx path_end ≠ .out_of_fuel

/-- A context of a search with one visited list for files and one for
directories, both the active ones: the given context with that stack and
those two visited lists. -/
def ff_with (c : ff_search_ctx_T) (stack : List ff_stack_T)
    (files dirs : List ff_visited_T) : ff_search_ctx_T :=
  { c with
    ffsc_stack_ptr := stack, ffsc_visited_list := some 0, ffsc_dir_visited_list := some 0,
    ffsc_visited_lists_list :=
      [{ ffvl_filename := c.ffsc_file_to_search.getD [], ffvl_visited_list := files }],
    ffsc_dir_visited_lists_list :=
      [{ ffvl_filename := c.ffsc_file_to_search.getD [], ffvl_visited_list := dirs }] }

/-- The context `vim_findfile_init` builds from no context, without stop
directories, before the first frame is pushed and the visited lists are
made. -/
def ff_base (cwd target fix : Str) (wc : Option Str) (level find_what : Int)
    (tagfile : Bool) : ff_search_ctx_T :=
  { ff_ctx_zero with
    ffsc_file_to_search := some target, ffsc_start_dir := some cwd,
    ffsc_fix_path := some fix, ffsc_wc_path := wc, ffsc_level := level,
    ffsc_stopdirs_v := none, ffsc_find_what := find_what, ffsc_tagfile := tagfile }

/-- What the calls of a search return when all there is to it is the search
for the file in one file array of at most one entry: the file found in it,
by the first call, if there is one. -/
def ff_scan_results (env : Env) (c : ff_search_ctx_T) (arr : List Str)
    (calls : List ((Nat → Bool) × Nat)) : List (Option Str) :=
  match ff_scan_entries env c arr 0 (some []) with
  | .fault => []
  | .miss _ => calls.map (fun _ => none)
  | .hit _ p _ =>
    match calls with
    | [] => []
    | _ :: more => some (ff_found_name env p) :: more.map (fun _ => none)

/-- The name of the directory `a` below the current directory as
`vim_findfile_init` builds it for the fix part `a/`. -/
def elide_root (env : Env) (cwd a : Str) : Str := env.add_pathsep cwd ++ (a ++ [47])

/-- The setting in which the searches with the paths `a/b` and `a/**0/b` are
compared: Unix path separators, no URLs, both paths relative to the current
directory `cwd` and short enough for the buffers, `b` one name, `a` a
directory, and the outside world answers about the directory `a` and the
name `b` in it as a file system does. -/
structure elide_scenario (env : Env) (cwd a b : Str) : Prop where
  unix_sep : ∀ ch, env.vim_ispathsep ch = (ch == 47)
  no_url : ∀ p, env.path_with_url p = false
  cwd_dir : env.mch_dirname = some cwd
  a_plain : 42 ∉ a
  b_name : b ≠ [] ∧ ∀ ch ∈ b, ch ≠ 0 ∧ ch ≠ 47 ∧ ch ≠ 42
  relative : env.vim_isAbsName (a ++ 47 :: b) = false
    ∧ env.vim_isAbsName (a ++ 47 :: 42 :: 42 :: 48 :: 47 :: b) = false
  maxpathl : cwd.length + a.length + b.length + 10 < env.MAXPATHL
  root_abs : env.vim_isAbsName (elide_root env cwd a) = true
  root_sep : env.add_pathsep (elide_root env cwd a) = elide_root env cwd a
  root_isdir : env.mch_isdir (elide_root env cwd a) = true
  root_stat : (env.mch_stat (elide_root env cwd a)).isSome = true
  root_listing : env.expand_wildcards [elide_root env cwd a] = [elide_root env cwd a]
  sub_listing : env.expand_wildcards [elide_root env cwd a ++ b] =
    if env.mch_isdir (elide_root env cwd a ++ b) then [elide_root env cwd a ++ b ++ [47]]
    else []
  sub_sep : env.add_pathsep (elide_root env cwd a ++ b) = elide_root env cwd a ++ b ++ [47]
    ∧ env.add_pathsep (elide_root env cwd a ++ b ++ [47]) = elide_root env cwd a ++ b ++ [47]
  sub_dir : env.mch_isdir (elide_root env cwd a ++ b) = true →
    env.vim_isAbsName (elide_root env cwd a ++ b ++ [47]) = true
      ∧ (env.mch_stat (elide_root env cwd a ++ b ++ [47])).isSome = true
      ∧ env.expand_wildcards [elide_root env cwd a ++ b ++ [47]]
        = [elide_root env cwd a ++ b ++ [47]]

/-! ## The search below a `**` with a counter -/

/-- The directories a `**` lists in a directory: the entries of the
expansion of `d*` that are directories. -/
def ss_kids (env : Env) (d : Str) : List Str :=
  (env.expand_wildcards [d ++ [42]]).filter env.mch_isdir

/-- The directories below a directory in which the name after `**` is looked
up when the directory is searched with a counter `k`, in the order of the
search: the frames come off the stack last listed first, those for further
descent before those for the name. -/
def ss_order (env : Env) : Nat → Str → List Str
  | 0, _ => []
  | k + 1, d => (ss_kids env d).reverse.flatMap (ss_order env k) ++ (ss_kids env d).reverse

/-- The directories in which the name after `**` is looked up when the
search starts in the directory with the counter `n`: as in `ss_order`, and
in the directory itself (the `**` that matches nothing). -/
def ss_root_order (env : Env) (n : Nat) (d : Str) : List Str :=
  (ss_kids env d).reverse.flatMap (ss_order env (n - 1)) ++ d :: (ss_kids env d).reverse

/-- What the search needs of a directory it comes to below a `**`: the name
is absolute and ends in a path separator, the directory has an identity,
the directories listed in it are not the directory itself, and the name
after the `**` stands for at most one directory in it. -/
structure ss_dir_ok (env : Env) (b d : Str) : Prop where
  abs : env.vim_isAbsName d = true
  sep : env.add_pathsep d = d
  stat : (env.mch_stat d).isSome = true
  other : ∀ x ∈ ss_kids env d, env.fnamecmp x d ≠ 0
  name : (env.expand_wildcards [d ++ b]).length ≤ 1

instance ss_dir_ok_decidable (env : Env) (b d : Str) : Decidable (ss_dir_ok env b d) :=
  decidable_of_iff
    (env.vim_isAbsName d = true ∧ env.add_pathsep d = d ∧ (env.mch_stat d).isSome = true
      ∧ (∀ x ∈ ss_kids env d, env.fnamecmp x d ≠ 0)
      ∧ (env.expand_wildcards [d ++ b]).length ≤ 1)
    ⟨fun h => ⟨h.1, h.2.1, h.2.2.1, h.2.2.2.1, h.2.2.2.2⟩,
      fun h => ⟨h.abs, h.sep, h.stat, h.other, h.name⟩⟩

theorem ff_same_char_refl (env : Env) (c : Nat) : ff_same_char env c c := by
  unfold ff_same_char; split <;> rfl

theorem ff_wc_equal_loop_step (env : Env) (c1 c2 : Nat) (r1 r2 : Str) (p1 p2 : Nat) :
    ff_wc_equal_loop env (c1 :: r1) (c2 :: r2) p1 p2 =
      if ¬ ff_same_char env c1 c2 ∧ (p1 ≠ STAR ∨ p2 ≠ STAR) then false
      else ff_wc_equal_loop env r1 r2 c1 p1 := by
  rw [ff_wc_equal_loop]
  unfold ff_same_char
  by_cases h : env.p_fic = true <;> simp [h]

theorem ff_wc_equal_loop_refl (env : Env) (t : Str) :
    ∀ p1 p2 : Nat, ff_wc_equal_loop env t t p1 p2 = true := by
  induction t with
  | nil => intro p1 p2; simp [ff_wc_equal_loop]
  | cons c t ih =>
    intro p1 p2
    rw [ff_wc_equal_loop_step]
    simp [ff_same_char_refl, ih]

theorem ff_wc_equal_loop_iff (env : Env) :
    ∀ (r1 r2 : Str) (p1 p2 : Nat), r1.length = r2.length →
      (ff_wc_equal_loop env r1 r2 p1 p2 = true ↔
        ∀ i, i < r1.length →
          ff_same_char env (r1.getD i 0) (r2.getD i 0)
            ∨ ((p2 :: p1 :: r1).getD i 0 = STAR ∧ (p2 :: p1 :: r1).getD (i + 1) 0 = STAR)) := by
  intro r1
  induction r1 with
  | nil => intro r2 p1 p2 _; simp [ff_wc_equal_loop]
  | cons c1 r1 ih =>
    intro r2 p1 p2 hlen
    cases r2 with
    | nil => simp at hlen
    | cons c2 r2 =>
      have hlen' : r1.length = r2.length := by simpa using hlen
      rw [ff_wc_equal_loop_step]
      constructor
      · intro h
        split at h
        · exact absurd h (by simp)
        · rename_i hc
          rw [ih r2 c1 p1 hlen'] at h
          intro i hi
          cases i with
          | zero =>
            simp only [List.getD_cons_zero, List.getD_cons_succ]
            by_cases hs : ff_same_char env c1 c2
            · exact Or.inl hs
            · right
              by_contra hne
              apply hc
              refine ⟨hs, ?_⟩
              by_cases h1 : p1 = STAR
              · right; intro h2; exact hne ⟨h2, h1⟩
              · left; exact h1
          | succ j =>
            have := h j (by simpa using hi)
            simpa [List.getD_cons_succ] using this
      · intro h
        have h0 := h 0 (by simp)
        simp only [List.getD_cons_zero, List.getD_cons_succ] at h0
        rw [if_neg]
        · rw [ih r2 c1 p1 hlen']
          intro i hi
          have := h (i + 1) (by simpa using hi)
          simpa [List.getD_cons_succ] using this
        · rintro ⟨hs, hp⟩
          rcases h0 with h0 | ⟨h2, h1⟩
          · exact hs h0
          · rcases hp with hp | hp
            · exact hp h1
            · exact hp h2

/-- C9 (as amended).  `ff_wc_equal` is TRUE exactly when both strings have the same length and at every position the characters are the same, or the two characters of `s1` right before the position are both `*`. -/
theorem ff_wc_equal_iff (env : Env) (s1 s2 : Str) :
    ff_wc_equal env (some s1) (some s2) = true ↔
      s1.length = s2.length ∧
        ∀ i, i < s1.length →
          ff_same_char env (s1.getD i 0) (s2.getD i 0)
            ∨ (2 ≤ i ∧ s1.getD (i - 1) 0 = STAR ∧ s1.getD (i - 2) 0 = STAR) := by
  unfold ff_wc_equal
  by_cases hlen : s1.length = s2.length
  · simp only [hlen, ne_eq, not_true_eq_false, ↓reduceIte, true_and]
    rw [ff_wc_equal_loop_iff env s1 s2 0 0 hlen]
    constructor
    · intro h i hi
      rcases h i (hlen ▸ hi) with h | ⟨h2, h1⟩
      · exact Or.inl h
      · right
        match i, h2, h1 with
        | 0, h2, _ => simp [STAR] at h2
        | 1, h2, _ => simp [STAR] at h2
        | j + 2, h2, h1 =>
          refine ⟨by omega, ?_, ?_⟩
          · simpa [List.getD_cons_succ] using h1
          · simpa [List.getD_cons_succ] using h2
    · intro h i hi
      rcases h i (hlen ▸ hi) with h | ⟨hge, h1, h2⟩
      · exact Or.inl h
      · right
        obtain ⟨j, rfl⟩ : ∃ j, i = j + 2 := ⟨i - 2, by omega⟩
        simp only [List.getD_cons_succ]
        exact ⟨by simpa using h2, by simpa using h1⟩
  · simp [hlen]



theorem ff_wc_equal_loop_counter (env : Env) (t : Str) (m n : Nat) :
    ∀ (p : Str) (p1 p2 : Nat),
      ff_wc_equal_loop env (p ++ [STAR, STAR, m] ++ t) (p ++ [STAR, STAR, n] ++ t) p1 p2
        = true := by
  intro p
  induction p with
  | nil =>
    intro p1 p2
    simp only [List.nil_append, List.cons_append]
    rw [ff_wc_equal_loop_step, if_neg (by simp [ff_same_char_refl]),
      ff_wc_equal_loop_step, if_neg (by simp [ff_same_char_refl]),
      ff_wc_equal_loop_step, if_neg (by simp)]
    exact ff_wc_equal_loop_refl env t _ _
  | cons c p ih =>
    intro p1 p2
    simp only [List.cons_append]
    rw [ff_wc_equal_loop_step, if_neg (by simp [ff_same_char_refl])]
    simpa using ih c p1

/-- C8.  Shape equality ignores the depth counter of `**`: two wildcard strings that differ only in the counter byte after one `**` are equal for `ff_wc_equal`. -/
theorem ff_wc_equal_ignores_counter (env : Env) (p t : Str) (m n : Nat)
    (hm : 1 ≤ m ∧ m ≤ 254) (hn : 1 ≤ n ∧ n ≤ 254) :
    ff_wc_equal env (some (p ++ [STAR, STAR, m] ++ t)) (some (p ++ [STAR, STAR, n] ++ t))
      = true := by
  have _ := hm
  have _ := hn
  unfold ff_wc_equal
  simp only [List.length_append, List.length_cons, List.length_nil, ne_eq,
    not_true_eq_false, ↓reduceIte]
  exact ff_wc_equal_loop_counter env t m n p 0 0

theorem ff_wc_equal_ignores_counter_witness :
    (1 ≤ 5 ∧ 5 ≤ 254) ∧ (1 ≤ 9 ∧ 9 ≤ 254) ∧
      ff_wc_equal (tree_env tree_r 4096 []) (some (str "a/" ++ [STAR, STAR, 5] ++ str "/b"))
        (some (str "a/" ++ [STAR, STAR, 9] ++ str "/b")) = true :=
  ⟨by decide, by decide, ff_wc_equal_ignores_counter _ _ _ 5 9 (by decide) (by decide)⟩

/-- C9 (counterexample).  `*a` and `*b` have the same length and differ only at the position right after a literal `*`, and `ff_wc_equal` does not find them equal. -/
theorem ff_wc_equal_after_star_counterexample :
    ((str "*a").length = (str "*b").length ∧
      ∀ i, i < (str "*a").length →
        (str "*a").getD i 0 = (str "*b").getD i 0
          ∨ (1 ≤ i ∧ (str "*a").getD (i - 1) 0 = STAR ∧ (str "*b").getD (i - 1) 0 = STAR))
    ∧ ff_wc_equal (tree_env tree_r 4096 []) (some (str "*a")) (some (str "*b")) = false := by
  decide

theorem ff_wc_equal_refl (env : Env) (wc : Option Str) : ff_wc_equal env wc wc = true := by
  cases wc with
  | none => rfl
  | some s => simp [ff_wc_equal, ff_wc_equal_loop_refl]

theorem ff_visited_find_inode (env : Env) (dev ino : Nat) (buf : Str) (wc : Option Str)
    (l : List ff_visited_T) :
    ff_visited_find env false (dev, ino) buf wc l = l.any (ff_same_visit env (.inode dev ino) wc) := by
  induction l with
  | nil => rfl
  | cons vp l ih =>
    simp only [ff_visited_find, List.any_cons, ff_same_visit, ih]
    cases hh : (vp.ffv_dev_valid && vp.ffv_dev == dev && vp.ffv_ino == ino
      && ff_wc_equal env vp.ffv_wc_path wc) <;> simp_all

theorem ff_visited_find_name (env : Env) (st : Nat × Nat) (buf : Str) (wc : Option Str)
    (l : List ff_visited_T) :
    ff_visited_find env true st buf wc l = l.any (ff_same_visit env (.name buf) wc) := by
  induction l with
  | nil => rfl
  | cons vp l ih =>
    simp only [ff_visited_find, List.any_cons, ff_same_visit, ih]
    cases hh : (env.fnamecmp vp.ffv_fname buf == 0 && ff_wc_equal env vp.ffv_wc_path wc)
      <;> simp_all

/-- The outcome of `ff_check_visited` on a name whose identity resolves. -/
theorem ff_check_visited_eq (env : Env) (l : List ff_visited_T) (fname : Str)
    (wc : Option Str) (id : ff_identity) (hid : ff_identity_of env fname = some id) :
    ff_check_visited env l fname wc =
      if l.any (ff_same_visit env id wc) then (false, l)
      else (true, ff_entry_for id wc :: l) := by
  unfold ff_identity_of at hid
  unfold ff_check_visited
  by_cases hu : env.path_with_url fname = true
  · simp only [hu, ↓reduceIte, Option.some.injEq] at hid ⊢
    subst hid
    rw [ff_visited_find_name]
    rfl
  · simp only [hu, Bool.false_eq_true, ↓reduceIte] at hid ⊢
    cases hs : env.mch_stat fname with
    | none => simp [hs] at hid
    | some st =>
      simp only [hs, Option.map_some', Option.some.injEq] at hid
      subst hid
      simp only
      rw [ff_visited_find_inode]
      rfl

theorem ff_same_visit_entry_for (env : Env) (id : ff_identity) (wc : Option Str)
    (hrefl : ∀ s, env.fnamecmp s s = 0) :
    ff_same_visit env id wc (ff_entry_for id wc) = true := by
  cases id with
  | inode dev ino => simp [ff_same_visit, ff_entry_for, ff_wc_equal_refl]
  | name s => simp [ff_same_visit, ff_entry_for, ff_wc_equal_refl, hrefl]

/-- C10.  For a name whose identity resolves, `ff_check_visited` returns FAIL and leaves the registry as it is when the registry holds an entry with the same identity and a wildcard string equal in shape; otherwise it returns OK and puts exactly one new entry, for that identity and that wildcard string, in front; a second call right after returns FAIL. -/
theorem ff_check_visited_records (env : Env) (l : List ff_visited_T) (fname : Str)
    (wc : Option Str) (id : ff_identity) (hid : ff_identity_of env fname = some id)
    (hrefl : ∀ s, env.fnamecmp s s = 0) :
    ((∃ vp ∈ l, ff_same_visit env id wc vp = true) →
        ff_check_visited env l fname wc = (false, l))
    ∧ ((¬ ∃ vp ∈ l, ff_same_visit env id wc vp = true) →
        ff_check_visited env l fname wc = (true, ff_entry_for id wc :: l))
    ∧ (ff_check_visited env (ff_check_visited env l fname wc).2 fname wc).1 = false := by
  have key := ff_check_visited_eq env l fname wc id hid
  refine ⟨?_, ?_, ?_⟩
  · intro h
    rw [key, if_pos (by simpa using h)]
  · intro h
    rw [key, if_neg (by simpa using h)]
  · by_cases h : l.any (ff_same_visit env id wc) = true
    · rw [key, if_pos h]
      simp only
      rw [key, if_pos h]
    · rw [key, if_neg h]
      simp only
      rw [ff_check_visited_eq env _ fname wc id hid, if_pos]
      simp [ff_same_visit_entry_for env id wc hrefl]

theorem ff_check_visited_records_witness :
    ff_identity_of (tree_env tree_r 4096 []) (str "/r/x/tags") = some (.inode 1 10)
    ∧ (∀ s, (tree_env tree_r 4096 []).fnamecmp s s = 0)
    ∧ (ff_check_visited (tree_env tree_r 4096 [])
        (ff_check_visited (tree_env tree_r 4096 []) [] (str "/r/x/tags") (some [])).2
        (str "/r/x/tags") (some [])).1 = false :=
  ⟨by decide, fun s => by simp [tree_env],
    (ff_check_visited_records (tree_env tree_r 4096 []) [] (str "/r/x/tags") (some [])
      (.inode 1 10) (by decide) (fun s => by simp [tree_env])).2.2⟩

/-! ## The wildcard part in `vim_findfile_init` -/

theorem takeWhile_append_of_all {α : Type} (p : α → Bool) (a b : List α)
    (ha : ∀ x ∈ a, p x = true) (hb : b.head?.all (fun x => !p x) = true) :
    (a ++ b).takeWhile p = a ∧ (a ++ b).dropWhile p = b := by
  induction a with
  | nil =>
    cases b with
    | nil => simp
    | cons x b =>
      simp only [List.head?_cons, Option.all_some, Bool.not_eq_eq_eq_not, Bool.not_true] at hb
      simp [List.takeWhile_cons, List.dropWhile_cons, hb]
  | cons x a ih =>
    have hx := ha x (by simp)
    have := ih (fun y hy => ha y (by simp [hy]))
    simp [List.takeWhile_cons, List.dropWhile_cons, hx, this]

/-- What `strtol` skips before the digits is white space and at most one sign. -/
theorem strtol_after_sign_split (s : Str) :
    ∃ a, s = a ++ strtol_after_sign s ∧ ∀ x ∈ a, isspace x = true ∨ x = 43 ∨ x = 45 := by
  unfold strtol_after_sign
  have hw : s = s.takeWhile isspace ++ s.dropWhile isspace :=
    (List.takeWhile_append_dropWhile _ _).symm
  have hwsp : ∀ y ∈ s.takeWhile isspace, isspace y = true :=
    fun y hy => List.mem_takeWhile_imp hy
  generalize s.takeWhile isspace = ws at hw hwsp
  generalize s.dropWhile isspace = s1 at hw
  dsimp only
  by_cases hsign : (s1.head? == some 45 || s1.head? == some 43) = true
  · rw [if_pos hsign]
    cases s1 with
    | nil => simp at hsign
    | cons c s2 =>
      simp only [List.head?_cons, Bool.or_eq_true, beq_iff_eq, Option.some.injEq] at hsign
      refine ⟨ws ++ [c], by simp [hw], ?_⟩
      intro x hx
      simp only [List.mem_append, List.mem_singleton] at hx
      rcases hx with hx | hx
      · exact Or.inl (hwsp x hx)
      · subst hx; rcases hsign with h | h
        · exact Or.inr (Or.inr h)
        · exact Or.inr (Or.inl h)
  · rw [if_neg hsign]
    exact ⟨ws, hw, fun x hx => Or.inl (hwsp x hx)⟩

theorem strtol_used_chars (w : Str) :
    ∀ x ∈ w.take (strtol w).2, isspace x = true ∨ isdigit x = true ∨ x = 43 ∨ x = 45 := by
  intro x hx
  obtain ⟨a, ha, hap⟩ := strtol_after_sign_split w
  have hs2 : strtol_after_sign w = (strtol_after_sign w).takeWhile isdigit
      ++ (strtol_after_sign w).dropWhile isdigit :=
    (List.takeWhile_append_dropWhile _ _).symm
  have hdsp : ∀ y ∈ (strtol_after_sign w).takeWhile isdigit, isdigit y = true :=
    fun y hy => List.mem_takeWhile_imp hy
  unfold strtol at hx
  dsimp only at hx
  by_cases hE : ((strtol_after_sign w).takeWhile isdigit).isEmpty = true
  · rw [if_pos hE] at hx; simp at hx
  · rw [if_neg hE] at hx
    dsimp only at hx
    generalize (strtol_after_sign w).takeWhile isdigit = ds at hx hs2 hdsp
    generalize (strtol_after_sign w).dropWhile isdigit = tl at hx hs2
    rw [hs2] at ha
    have e : w.length - tl.length = (a ++ ds).length := by rw [ha]; simp; omega
    rw [e] at hx
    have e2 : w = (a ++ ds) ++ tl := by rw [ha]; simp
    rw [e2, List.take_left'] at hx
    · simp only [List.mem_append] at hx
      rcases hx with hx | hx
      · rcases hap x hx with h | h
        · exact Or.inl h
        · exact Or.inr (Or.inr h)
      · exact Or.inr (Or.inl (hdsp x hx))
    · rfl

theorem strtol_used_le (a b : Str) : (strtol (a ++ STAR :: b)).2 ≤ a.length := by
  by_contra h
  have hlt : a.length < (strtol (a ++ STAR :: b)).2 := by omega
  have hmem : STAR ∈ (a ++ STAR :: b).take (strtol (a ++ STAR :: b)).2 := by
    rw [List.mem_iff_getElem]
    refine ⟨a.length, ?_, ?_⟩
    · simp only [List.length_take, List.length_append, List.length_cons]
      omega
    · rw [List.getElem_take]
      exact List.getElem_append_right (Nat.le_refl _) |>.trans (by simp)
  have := strtol_used_chars _ _ hmem
  revert this
  decide

theorem strtol_no_number (r : Str)
    (h : r = [] ∨ (isspace (r.headD 0) = false ∧ isdigit (r.headD 0) = false
      ∧ r.headD 0 ≠ 43 ∧ r.headD 0 ≠ 45)) :
    strtol r = (0, 0) := by
  cases r with
  | nil => decide
  | cons c r =>
    rcases h with h | ⟨h1, h2, h3, h4⟩
    · simp at h
    · simp only [List.headD_cons] at h1 h2 h3 h4
      simp [strtol, strtol_after_sign, List.takeWhile_cons, List.dropWhile_cons, h1, h2, h3, h4]

theorem isdigit_not_space (d : Nat) (h : isdigit d = true) :
    isspace d = false ∧ d ≠ 43 ∧ d ≠ 45 := by
  simp only [isdigit, Bool.and_eq_true, decide_eq_true_eq] at h
  simp only [isspace, Bool.or_eq_false_iff, beq_eq_false_iff_ne, ne_eq, Bool.and_eq_false_imp,
    decide_eq_true_eq, decide_eq_false_iff_not, not_le]
  omega

theorem strtol_digits (ds r : Str) (hne : ds ≠ []) (hds : ∀ d ∈ ds, isdigit d = true)
    (hr : r = [] ∨ isdigit (r.headD 0) = false) :
    strtol (ds ++ r) = (min (digits_value ds : Int) (2 ^ 63 - 1), ds.length) := by
  cases ds with
  | nil => exact absurd rfl hne
  | cons d ds =>
    have hd := hds d (by simp)
    obtain ⟨h1, h2, h3⟩ := isdigit_not_space d hd
    have hb : r.head?.all (fun x => !isdigit x) = true := by
      cases r with
      | nil => rfl
      | cons c r =>
        rcases hr with hr | hr
        · simp at hr
        · simpa using hr
    obtain ⟨ht, hdr⟩ := takeWhile_append_of_all isdigit (d :: ds) r hds hb
    have hafter : strtol_after_sign (d :: ds ++ r) = d :: ds ++ r := by
      simp [strtol_after_sign, List.dropWhile_cons, h1, h2, h3]
    have hdw : (d :: ds ++ r).dropWhile isspace = d :: ds ++ r := by
      simp [List.dropWhile_cons, h1]
    unfold strtol
    simp only [hafter, ht, hdr, hdw]
    simp [h3]
    omega



theorem long_to_int_small (v : Nat) (h : v ≤ 254) :
    long_to_int (min (v : Int) (2 ^ 63 - 1)) = v := by
  have h1 : min (v : Int) (2 ^ 63 - 1) = v := by
    apply min_eq_left
    have : (v : Int) ≤ 254 := by exact_mod_cast h
    omega
  rw [h1]
  unfold long_to_int
  have : (0 : Int) ≤ v := Int.natCast_nonneg v
  have hv : (v : Int) ≤ 254 := by exact_mod_cast h
  omega

theorem ff_wc_loop_star_star (env : Env) (fuel : Nat) (rest buf : Str)
    (hlen : buf.length + 5 < env.MAXPATHL) :
    ff_wc_loop env (fuel + 1) (STAR :: STAR :: rest) buf =
      if ((rest.drop (strtol rest).2).headD 0 ≠ 0
          ∧ (!env.vim_ispathsep ((rest.drop (strtol rest).2).headD 0)) = true) then .invalid
      else ff_wc_loop env fuel (rest.drop (strtol rest).2)
        (if (strtol rest).2 ≠ 0 ∧ long_to_int (strtol rest).1 > 0
            ∧ long_to_int (strtol rest).1 < 255 then
          buf ++ [STAR, STAR] ++ [(long_to_int (strtol rest).1).toNat]
        else if (strtol rest).2 ≠ 0 ∧ long_to_int (strtol rest).1 = 0 then buf
        else buf ++ [STAR, STAR] ++ [FF_MAX_STAR_STAR_EXPAND]) := by
  rw [ff_wc_loop]
  have h1 : ¬ buf.length + 5 ≥ env.MAXPATHL := by omega
  simp only [h1, ↓reduceIte, starts_star_star, List.take_succ_cons, List.take_zero,
    List.drop_succ_cons, List.drop_zero, List.append_assoc, List.singleton_append,
    List.length_append, List.length_cons, List.length_nil]
  have h2 : (buf ++ [STAR, STAR]).take (buf.length + (0 + 1 + 1) - 2) = buf := by
    simp
  simp only [h2]

theorem ff_wc_loop_char (env : Env) (fuel : Nat) (c : Nat) (rest buf : Str)
    (hlen : buf.length + 5 < env.MAXPATHL) (hc : c = STAR → rest.head? ≠ some STAR) :
    ff_wc_loop env (fuel + 1) (c :: rest) buf = ff_wc_loop env fuel rest (buf ++ [c]) := by
  rw [ff_wc_loop]
  have h1 : ¬ buf.length + 5 ≥ env.MAXPATHL := by omega
  have h2 : starts_star_star (c :: rest) = false := by
    unfold starts_star_star
    split
    · rename_i heq
      simp only [List.cons.injEq] at heq
      exact absurd (by rw [heq.2]; rfl) (hc heq.1)
    · rfl
  simp [h1, h2]

theorem ff_wc_loop_items (env : Env) (hsep : sep_not_numeric env) :
    ∀ (items : List wc_item) (fuel : Nat) (buf : Str),
      wc_items_ok env items → (wc_source items).length < fuel →
      (buf ++ wc_compiled items).length + 5 < env.MAXPATHL →
      ff_wc_loop env fuel (wc_source items) buf = .done (buf ++ wc_compiled items) := by
  intro items
  induction items with
  | nil =>
    intro fuel buf _ hf _
    cases fuel with
    | zero => simp at hf
    | succ f => simp [wc_source, wc_compiled, ff_wc_loop]
  | cons item more ih =>
    intro fuel buf hok hf hlen
    cases fuel with
    | zero => simp at hf
    | succ f =>
      cases item with
      | char c =>
        simp only [wc_items_ok] at hok
        simp only [wc_source, List.length_cons] at hf
        simp only [wc_compiled, List.length_append, List.length_cons] at hlen
        simp only [wc_source, wc_compiled]
        rw [ff_wc_loop_char env f c _ buf (by omega) hok.2.1]
        rw [ih f (buf ++ [c]) hok.2.2 (by omega) (by simp; omega)]
        simp
      | star_star ds =>
        simp only [wc_items_ok] at hok
        obtain ⟨hds, hval, hnext, hmore⟩ := hok
        simp only [wc_source, List.length_append, List.length_cons, List.length_nil] at hf
        simp only [wc_source, List.cons_append, List.nil_append]
        have hnext' : wc_source more = [] ∨
            (isspace ((wc_source more).headD 0) = false
              ∧ isdigit ((wc_source more).headD 0) = false
              ∧ (wc_source more).headD 0 ≠ 43 ∧ (wc_source more).headD 0 ≠ 45) := by
          rcases hnext with h | h
          · exact Or.inl h
          · exact Or.inr (hsep _ h)
        have hvalid : ¬ ((wc_source more).headD 0 ≠ 0
            ∧ (!env.vim_ispathsep ((wc_source more).headD 0)) = true) := by
          rintro ⟨h1, h2⟩
          rcases hnext with h | h
          · rw [h] at h1; exact h1 rfl
          · rw [h] at h2; exact absurd h2 (by decide)
        rw [ff_wc_loop_star_star env f _ buf
          (by simp only [List.length_append] at hlen; omega)]
        by_cases hemp : ds = []
        · subst hemp
          simp only [List.nil_append]
          simp only [strtol_no_number _ hnext']
          simp only [List.drop_zero, ne_eq, not_true_eq_false, false_and, ↓reduceIte]
          rw [if_neg hvalid]
          simp only [wc_compiled, List.isEmpty_nil, ↓reduceIte, List.append_assoc] at hlen ⊢
          rw [ih f _ hmore (by omega) (by simpa using hlen)]
          simp
        · have hst := strtol_digits ds (wc_source more) hemp hds
            (by rcases hnext' with h | h
                · exact Or.inl h
                · exact Or.inr h.2.1)
          simp only [hst]
          have hdrop : (ds ++ wc_source more).drop ds.length = wc_source more := by simp
          simp only [hdrop]
          rw [if_neg hvalid, long_to_int_small _ hval]
          have hlen0 : ds.length ≠ 0 := by
            intro h; exact hemp (List.length_eq_zero.mp h)
          have hisE : ds.isEmpty = false := by
            cases ds with
            | nil => exact absurd rfl hemp
            | cons _ _ => rfl
          by_cases hz : digits_value ds = 0
          · simp only [hz, Nat.cast_zero, gt_iff_lt, lt_self_iff_false, false_and, and_false,
              ↓reduceIte, ne_eq, hlen0, not_false_eq_true, and_self]
            simp only [wc_compiled, hisE, Bool.false_eq_true, ↓reduceIte, hz,
              List.nil_append] at hlen ⊢
            exact ih f buf hmore (by omega) hlen
          · have hpos : (0 : Int) < (digits_value ds : Int) := by
              have : 0 < digits_value ds := Nat.pos_of_ne_zero hz
              exact_mod_cast this
            have hlt : ((digits_value ds : Nat) : Int) < 255 := by
              have : digits_value ds < 255 := by omega
              exact_mod_cast this
            simp only [ne_eq, hlen0, not_false_eq_true, gt_iff_lt, hpos, hlt, and_self,
              ↓reduceIte, Int.toNat_ofNat]
            simp only [wc_compiled, hisE, Bool.false_eq_true, ↓reduceIte, hz,
              List.append_assoc] at hlen ⊢
            rw [ih f _ hmore (by omega) (by simpa using hlen)]
            simp

/-- C3.  The loop of `vim_findfile_init` over the wildcard part copies the path from its first `*` on character by character, except that a `**` with a number from 1 to 254 becomes `**` and one byte of that value, a `**` without number becomes `**` and the byte 30, and a `**0` leaves nothing. -/
theorem ff_wc_loop_compiles (env : Env) (fix_part : Str) (items : List wc_item)
    (hsep : sep_not_numeric env) (hfix : STAR ∉ fix_part)
    (hstar : (wc_source items).head? = some STAR) (hok : wc_items_ok env items)
    (hlen : (wc_compiled items).length + 5 < env.MAXPATHL) :
    ff_wc_loop env (((fix_part ++ wc_source items).dropWhile (· != STAR)).length + 1)
      ((fix_part ++ wc_source items).dropWhile (· != STAR)) []
      = .done (wc_compiled items) := by
  have hb : (wc_source items).head?.all (fun x => !(x != STAR)) = true := by
    rw [hstar]; rfl
  have hd := (takeWhile_append_of_all (· != STAR) fix_part (wc_source items)
    (fun x hx => by
      have : x ≠ STAR := fun h => hfix (h ▸ hx)
      simpa using this) hb).2
  rw [hd]
  have := ff_wc_loop_items env hsep items ((wc_source items).length + 1) [] hok
    (Nat.lt_succ_self _) (by simpa using hlen)
  simpa using this

theorem ff_wc_loop_compiles_witness :
    ff_wc_loop (tree_env tree_a 4096 [])
      (((str "a/" ++ str "**3/x*/**/y/**0").dropWhile (· != STAR)).length + 1)
      ((str "a/" ++ str "**3/x*/**/y/**0").dropWhile (· != STAR)) []
      = .done ([STAR, STAR, 3] ++ str "/x*/" ++ [STAR, STAR, 30] ++ str "/y/") :=
  ff_wc_loop_compiles (tree_env tree_a 4096 []) (str "a/")
    [.star_star (str "3"), .char 47, .char 120, .char 42, .char 47, .star_star [],
      .char 47, .char 121, .char 47, .star_star (str "0")]
    (fun c h => by
      have hc : c = 47 := by simpa [tree_env] using h
      subst hc; decide)
    (by decide) (by decide)
    (by simp [wc_items_ok, wc_source, tree_env, digits_value, isdigit, str])
    (by decide)

theorem ff_wc_loop_cons (env : Env) (fuel c : Nat) (rest buf : Str) :
    ∃ buf3, ff_wc_loop env (fuel + 1) (c :: rest) buf =
      if buf.length + 5 ≥ env.MAXPATHL then .toolong buf
      else if starts_star_star (c :: rest) then
        if ((rest.drop 1).drop (strtol (rest.drop 1)).2).headD 0 ≠ 0
            ∧ (!env.vim_ispathsep (((rest.drop 1).drop (strtol (rest.drop 1)).2).headD 0))
              = true then .invalid
        else ff_wc_loop env fuel ((rest.drop 1).drop (strtol (rest.drop 1)).2) buf3
      else ff_wc_loop env fuel rest (buf ++ [c]) := by
  rw [ff_wc_loop]
  exact ⟨_, rfl⟩

/-- A `**` that is followed, after the number `strtol` reads, by a character
that is neither a path separator nor the end keeps the loop from coming to
its normal end. -/
theorem ff_wc_loop_bad_token (env : Env) (rest : Str)
    (hsep : env.vim_ispathsep STAR = false)
    (hbad : (rest.drop (strtol rest).2).headD 0 ≠ 0
      ∧ env.vim_ispathsep ((rest.drop (strtol rest).2).headD 0) = false) :
    ∀ (fuel : Nat) (pre buf : Str), (pre ++ STAR :: STAR :: rest).length < fuel →
      ∀ b, ff_wc_loop env fuel (pre ++ STAR :: STAR :: rest) buf ≠ .done b := by
  intro fuel
  induction fuel with
  | zero => intro pre buf h; simp at h
  | succ f ih =>
    intro pre buf hf b
    cases pre with
    | nil =>
      simp only [List.nil_append]
      obtain ⟨buf3, h⟩ := ff_wc_loop_cons env f STAR (STAR :: rest) buf
      rw [h]
      by_cases h1 : buf.length + 5 ≥ env.MAXPATHL
      · rw [if_pos h1]; simp
      · rw [if_neg h1, if_pos (show starts_star_star (STAR :: STAR :: rest) = true from rfl)]
        simp only [List.drop_succ_cons, List.drop_zero]
        rw [if_pos ⟨hbad.1, by rw [hbad.2]; rfl⟩]
        simp
    | cons c pre =>
      simp only [List.cons_append, List.length_cons] at hf ⊢
      obtain ⟨buf3, h⟩ := ff_wc_loop_cons env f c (pre ++ STAR :: STAR :: rest) buf
      rw [h]
      by_cases h1 : buf.length + 5 ≥ env.MAXPATHL
      · rw [if_pos h1]; simp
      · rw [if_neg h1]
        by_cases h2 : starts_star_star (c :: (pre ++ STAR :: STAR :: rest)) = true
        · rw [if_pos h2]
          cases pre with
          | nil =>
            simp only [List.nil_append, List.drop_succ_cons, List.drop_zero]
            have hu : (strtol (STAR :: rest)).2 = 0 := by
              have := strtol_used_le [] rest
              simpa using this
            rw [hu]
            simp only [List.drop_zero, List.headD_cons]
            rw [if_pos ⟨by decide, by rw [hsep]; rfl⟩]
            simp
          | cons c2 pre2 =>
            simp only [List.cons_append, List.drop_succ_cons, List.drop_zero]
            have hu := strtol_used_le pre2 (STAR :: rest)
            have hdrop :
                (pre2 ++ STAR :: STAR :: rest).drop (strtol (pre2 ++ STAR :: STAR :: rest)).2
                = pre2.drop (strtol (pre2 ++ STAR :: STAR :: rest)).2
                  ++ STAR :: STAR :: rest := by
              rw [List.drop_append_of_le_length hu]
            rw [hdrop]
            split_ifs
            · simp
            · apply ih
              simp only [List.length_append, List.length_cons, List.length_drop] at hf ⊢
              omega
        · rw [if_neg h2]
          exact ih pre _ (by omega) b

theorem ff_init_finish_msgs (env : Env) (search_ctx : ff_search_ctx_T) (filename : Str)
    (level : Int) (start_dir fix_path : Str) (wc_path : Option Str) (msgs : List ff_msg)
    (m : ff_msg) (hm : m ∈ msgs) :
    m ∈ (ff_init_finish env search_ctx filename level start_dir fix_path wc_path msgs).msgs := by
  unfold ff_init_finish
  dsimp only
  split_ifs <;> first
    | exact hm
    | exact List.mem_append_left _ hm
    | (cases wc_path <;> exact hm)

theorem dropWhile_star_token (pre rest : Str) :
    ∃ pre2, (pre ++ STAR :: STAR :: rest).dropWhile (· != STAR) = pre2 ++ STAR :: STAR :: rest := by
  induction pre with
  | nil => exact ⟨[], by simp [List.dropWhile_cons]⟩
  | cons c pre ih =>
    by_cases hc : c = STAR
    · exact ⟨c :: pre, by simp [List.dropWhile_cons, hc]⟩
    · obtain ⟨p2, h⟩ := ih
      exact ⟨p2, by simp only [List.cons_append, List.dropWhile_cons]; simpa [hc] using h⟩

theorem ff_init_split_bad_token (env : Env) (search_ctx : ff_search_ctx_T)
    (path filename : Str) (stopdirs : Option Str) (level : Int) (start_dir : Option Str)
    (pre rest : Str) (hsep : env.vim_ispathsep STAR = false)
    (hpath : path = pre ++ STAR :: STAR :: rest)
    (hbad : (rest.drop (strtol rest).2).headD 0 ≠ 0
      ∧ env.vim_ispathsep ((rest.drop (strtol rest).2).headD 0) = false) :
    (ff_init_split env search_ctx path filename stopdirs level start_dir).ctx = none
      ∨ ff_msg.e_pathtoolong ∈
        (ff_init_split env search_ctx path filename stopdirs level start_dir).msgs := by
  obtain ⟨pre2, hd⟩ := dropWhile_star_token pre rest
  have hmem : 42 ∈ path := by rw [hpath]; simp
  unfold ff_init_split
  simp only [hmem, ↓reduceIte]
  rw [hpath, hd]
  have hne := ff_wc_loop_bad_token env rest hsep hbad
    ((pre2 ++ STAR :: STAR :: rest).length + 1) pre2 [] (Nat.lt_succ_self _)
  cases hres : ff_wc_loop env ((pre2 ++ STAR :: STAR :: rest).length + 1)
      (pre2 ++ STAR :: STAR :: rest) [] with
  | done b => exact absurd hres (hne b)
  | invalid => left; rfl
  | toolong buf =>
    right
    cases start_dir with
    | none => exact ff_init_finish_msgs _ _ _ _ _ _ _ _ _ (by simp)
    | some sd => exact ff_init_finish_msgs _ _ _ _ _ _ _ _ _ (by simp)

/-- C4 (as amended).  If somewhere in the path a `**`, together with the number `strtol` reads after it (white space, a sign and digits), is followed by a character that is neither a path separator nor the end of the string, `vim_findfile_init` returns NULL, unless the loop over the wildcard part stopped before with "path too long". -/
theorem vim_findfile_init_bad_token (env : Env) (path filename : Str)
    (stopdirs : Option Str) (level : Int) (free_visited : Bool) (find_what : Int)
    (search_ctx_arg : Option ff_search_ctx_T) (tagfile : Bool) (rel_fname : Option Str)
    (pre rest : Str) (hsep : env.vim_ispathsep STAR = false)
    (hpath : path = pre ++ STAR :: STAR :: rest)
    (hbad : (rest.drop (strtol rest).2).headD 0 ≠ 0
      ∧ env.vim_ispathsep ((rest.drop (strtol rest).2).headD 0) = false) :
    (vim_findfile_init env path filename stopdirs level free_visited find_what
        search_ctx_arg tagfile rel_fname).ctx = none
      ∨ ff_msg.e_pathtoolong ∈
        (vim_findfile_init env path filename stopdirs level free_visited find_what
          search_ctx_arg tagfile rel_fname).msgs := by
  unfold vim_findfile_init
  dsimp only
  generalize ff_init_ctx env filename free_visited find_what search_ctx_arg tagfile = ctx
  by_cases h1 : path.headD 0 = 46
      ∧ (env.vim_ispathsep (path.getD 1 0) ∨ path.getD 1 0 = 0)
      ∧ (!tagfile ∨ !env.cpo_dottag)
      ∧ rel_fname.isSome
  · -- the path starts with "./"
    rw [if_pos h1]
    cases hfs : ff_init_rel_dir env (rel_fname.getD []) with
    | none => left; rfl
    | some sd =>
      dsimp only
      obtain ⟨hdot, hsec, -, -⟩ := h1
      cases pre with
      | nil => rw [hpath] at hdot; simp [STAR] at hdot
      | cons c pre1 =>
        cases pre1 with
        | nil =>
          exfalso
          rw [hpath] at hsec
          simp [hsep, STAR] at hsec
        | cons c1 pre2 =>
          by_cases hz : (path.drop 1).headD 0 ≠ 0
          · rw [if_pos hz]
            exact ff_init_split_bad_token env _ _ _ _ _ _ pre2 rest hsep
              (by rw [hpath]; rfl) hbad
          · rw [if_neg hz]
            exact ff_init_split_bad_token env _ _ _ _ _ _ (c1 :: pre2) rest hsep
              (by rw [hpath]; rfl) hbad
  · rw [if_neg h1]
    by_cases h2 : path.headD 0 = 0 ∨ !env.vim_isAbsName path
    · rw [if_pos h2]
      cases hcwd : env.mch_dirname with
      | none => left; rfl
      | some cwd =>
        exact ff_init_split_bad_token env _ _ _ _ _ _ pre rest hsep hpath hbad
    · rw [if_neg h2]
      exact ff_init_split_bad_token env _ _ _ _ _ _ pre rest hsep hpath hbad

theorem vim_findfile_init_bad_token_witness :
    (tree_env tree_a 4096 []).vim_ispathsep STAR = false
    ∧ str "a/**3x/b" = str "a/" ++ STAR :: STAR :: str "3x/b"
    ∧ (((str "3x/b").drop (strtol (str "3x/b")).2).headD 0 ≠ 0
      ∧ (tree_env tree_a 4096 []).vim_ispathsep
          (((str "3x/b").drop (strtol (str "3x/b")).2).headD 0) = false)
    ∧ ((vim_findfile_init (tree_env tree_a 4096 []) (str "a/**3x/b") (str "t") none 100
          false FINDFILE_FILE none false none).ctx = none
      ∨ ff_msg.e_pathtoolong ∈
        (vim_findfile_init (tree_env tree_a 4096 []) (str "a/**3x/b") (str "t") none 100
          false FINDFILE_FILE none false none).msgs) :=
  ⟨by decide, by decide, by decide,
    vim_findfile_init_bad_token (tree_env tree_a 4096 []) (str "a/**3x/b") (str "t") none 100
      false FINDFILE_FILE none false none (str "a/") (str "3x/b") (by decide) (by decide)
      (by decide)⟩

/-- C4 (counterexample).  In `a/** 3/b` the `**` is followed by a space, neither a path separator nor the end of the string, and `vim_findfile_init` hands back a context: `strtol` skips the space and reads 3. -/
theorem vim_findfile_init_space_counterexample :
    str "a/** 3/b" = str "a/" ++ STAR :: STAR :: str " 3/b"
    ∧ (str " 3/b").headD 0 ≠ 0
    ∧ (tree_env tree_a 4096 []).vim_ispathsep ((str " 3/b").headD 0) = false
    ∧ ((vim_findfile_init (tree_env tree_a 4096 []) (str "a/** 3/b") (str "t") none 100
          false FINDFILE_FILE none false none).ctx.map (·.ffsc_wc_path))
        = some (some ([STAR, STAR, 3] ++ str "/b")) := by
  decide

/-- The loop over a run of one ordinary character that is longer than the
room left: it stops with "path too long" when `len + 5` reaches
`MAXPATHL`. -/
theorem ff_wc_loop_run_toolong (env : Env) (c : Nat) (hc : c ≠ STAR) :
    ∀ (k n fuel : Nat) (buf : Str), buf.length + 5 + k = env.MAXPATHL → k < n → n < fuel →
      ff_wc_loop env fuel (List.replicate n c) buf = .toolong (buf ++ List.replicate k c) := by
  intro k
  induction k with
  | zero =>
    intro n fuel buf hb hn hf
    obtain ⟨m, rfl⟩ : ∃ m, n = m + 1 := ⟨n - 1, by omega⟩
    obtain ⟨f, rfl⟩ : ∃ f, fuel = f + 1 := ⟨fuel - 1, by omega⟩
    rw [List.replicate_succ, ff_wc_loop, if_pos (by omega)]
    simp
  | succ k ih =>
    intro n fuel buf hb hn hf
    obtain ⟨m, rfl⟩ : ∃ m, n = m + 1 := ⟨n - 1, by omega⟩
    obtain ⟨f, rfl⟩ : ∃ f, fuel = f + 1 := ⟨fuel - 1, by omega⟩
    rw [List.replicate_succ, ff_wc_loop_char env f c _ buf (by omega) (fun h => absurd h hc)]
    rw [ih m f (buf ++ [c]) (by simp; omega) (by omega) (by omega)]
    simp [List.replicate_succ]

theorem ff_init_split_toolong (L W : Str)
    (hloop : ff_wc_loop (tree_env tree_r 4096 []) ((42 :: L).length + 1) (42 :: L) []
      = .toolong W) (ctx : ff_search_ctx_T) :
    ff_init_split (tree_env tree_r 4096 []) ctx (47 :: 114 :: 47 :: 42 :: L)
      (str "tags") none 2 none =
      ff_init_finish (tree_env tree_r 4096 [])
        { ctx with ffsc_stopdirs_v := none, ffsc_level := 2 } (str "tags") 2 (str "/r/") []
        (some W) [.e_pathtoolong] := by
  unfold ff_init_split
  have h42 : 42 ∈ 47 :: 114 :: 47 :: 42 :: L := by simp
  have htw : (47 :: 114 :: 47 :: 42 :: L).takeWhile (· != 42) = str "/r/" := by
    simp [List.takeWhile_cons, str]
  have hdw : (47 :: 114 :: 47 :: 42 :: L).dropWhile (· != 42) = 42 :: L := by
    simp [List.dropWhile_cons]
  simp only [h42, ↓reduceIte, htw, hdw, hloop, Option.map_none']

theorem ff_init_finish_toolong (ctx : ff_search_ctx_T) (W : Str) :
    (ff_init_finish (tree_env tree_r 4096 [])
        { ctx with ffsc_stopdirs_v := none, ffsc_level := 2 } (str "tags") 2 (str "/r/") []
        (some W) [.e_pathtoolong]).msgs = [.e_pathtoolong]
    ∧ (ff_init_finish (tree_env tree_r 4096 [])
        { ctx with ffsc_stopdirs_v := none, ffsc_level := 2 } (str "tags") 2 (str "/r/") []
        (some W) [.e_pathtoolong]).ctx.map (·.ffsc_wc_path) = some (some W) := by
  constructor <;> rfl

theorem vim_findfile_init_toolong (L W : Str)
    (hloop : ff_wc_loop (tree_env tree_r 4096 []) ((42 :: L).length + 1) (42 :: L) []
      = .toolong W) :
    (vim_findfile_init (tree_env tree_r 4096 []) (47 :: 114 :: 47 :: 42 :: L)
        (str "tags") none 2 false FINDFILE_FILE none false none).msgs = [.e_pathtoolong]
    ∧ (vim_findfile_init (tree_env tree_r 4096 []) (47 :: 114 :: 47 :: 42 :: L)
        (str "tags") none 2 false FINDFILE_FILE none false none).ctx.map (·.ffsc_wc_path)
      = some (some W) := by
  unfold vim_findfile_init
  dsimp only
  rw [if_neg (by simp), if_neg (by simp [tree_env]), ff_init_split_toolong L W hloop]
  exact ff_init_finish_toolong _ W

theorem ff_wc_loop_toolong_run :
    ff_wc_loop (tree_env tree_r 4096 []) ((42 :: List.replicate 4100 120).length + 1)
      (42 :: List.replicate 4100 120) [] = .toolong (STAR :: List.replicate 4090 120) := by
  rw [List.length_cons, List.length_replicate,
    ff_wc_loop_char _ _ 42 _ [] (by decide) (by simp [List.head?_replicate])]
  exact ff_wc_loop_run_toolong (tree_env tree_r 4096 []) 120 (by decide) 4090 4100 4101 [42]
    (by decide) (by decide) (by decide)

/-- C5 (the code at the failing input).  With `MAXPATHL` 4096 and the path `/r/*` followed by 4100 times `x`, `vim_findfile_init` gives "path too long" and yet hands back a context, whose wildcard part is cut off after 4091 characters. -/
theorem vim_findfile_init_toolong_returns_ctx :
    (vim_findfile_init (tree_env tree_r 4096 []) (str "/r/*" ++ List.replicate 4100 120)
        (str "tags") none 2 false FINDFILE_FILE none false none).msgs = [.e_pathtoolong]
    ∧ (vim_findfile_init (tree_env tree_r 4096 []) (str "/r/*" ++ List.replicate 4100 120)
        (str "tags") none 2 false FINDFILE_FILE none false none).ctx.map (·.ffsc_wc_path)
      = some (some (STAR :: List.replicate 4090 120)) :=
  vim_findfile_init_toolong (List.replicate 4100 120) (STAR :: List.replicate 4090 120)
    ff_wc_loop_toolong_run

/-! ## `vim_findfile` and the visited list for files -/

theorem hdr_deref_store (l : List ff_visited_list_hdr_T) (p : Option Nat)
    (v : List ff_visited_T) :
    hdr_deref (hdr_store l p v) p
      = (hdr_deref l p).map (fun h => { h with ffvl_visited_list := v }) := by
  cases p with
  | none => rfl
  | some a =>
    unfold hdr_deref hdr_store
    by_cases h : a < l.length
    · simp only [h, ↓reduceIte, List.length_modify, List.getElem?_modify_eq]
      rfl
    · simp [h]

theorem ff_check_visited_no_identity (env : Env) (l : List ff_visited_T) (fname : Str)
    (wc : Option Str) (hid : ff_identity_of env fname = none) :
    ff_check_visited env l fname wc = (false, l) := by
  unfold ff_identity_of at hid
  unfold ff_check_visited
  by_cases hu : env.path_with_url fname = true
  · simp [hu] at hid
  · simp only [hu, Bool.false_eq_true, ↓reduceIte, Option.map_eq_none'] at hid
    simp [hu, hid]

theorem ff_check_visited_fail (env : Env) (l : List ff_visited_T) (fname : Str)
    (wc : Option Str) (h : (ff_check_visited env l fname wc).1 = false) :
    (ff_check_visited env l fname wc).2 = l := by
  cases hid : ff_identity_of env fname with
  | none => rw [ff_check_visited_no_identity env l fname wc hid]
  | some id =>
    have key := ff_check_visited_eq env l fname wc id hid
    by_cases ha : l.any (ff_same_visit env id wc) = true
    · rw [key, if_pos ha]
    · rw [key, if_neg ha] at h; simp at h

theorem ff_check_visited_ok (env : Env) (l : List ff_visited_T) (fname : Str)
    (wc : Option Str) (h : (ff_check_visited env l fname wc).1 = true) :
    ∃ id, ff_identity_of env fname = some id
      ∧ (ff_check_visited env l fname wc).2 = ff_entry_for id wc :: l
      ∧ l.any (ff_same_visit env id wc) = false := by
  cases hid : ff_identity_of env fname with
  | none =>
    rw [ff_check_visited_no_identity env l fname wc hid] at h
    simp at h
  | some id =>
    refine ⟨id, rfl, ?_⟩
    have key := ff_check_visited_eq env l fname wc id hid
    by_cases ha : l.any (ff_same_visit env id wc) = true
    · rw [key, if_pos ha] at h; simp at h
    · rw [key, if_neg ha]
      exact ⟨rfl, by simpa using ha⟩

theorem ff_try_suffixes_cons (env : Env) (search_ctx : ff_search_ctx_T) (i : Nat)
    (c : Str) (more : List Str) (vl : Option (List ff_visited_T)) :
    ff_try_suffixes env search_ctx i (c :: more) vl =
      if ff_file_wanted env search_ctx c then
        match vl with
        | none => .fault
        | some l =>
          if (ff_check_visited env l c (some [])).1 then
            .hit i c (ff_check_visited env l c (some [])).2
          else
            ff_try_suffixes env search_ctx i more
              (some (ff_check_visited env l c (some [])).2)
      else ff_try_suffixes env search_ctx i more vl := by
  cases vl <;> rfl

theorem ff_scan_entries_cons (env : Env) (search_ctx : ff_search_ctx_T) (entry : Str)
    (more : List Str) (i : Nat) (vl : Option (List ff_visited_T)) :
    ff_scan_entries env search_ctx (entry :: more) i vl =
      if !env.path_with_url entry && !env.mch_isdir entry then
        ff_scan_entries env search_ctx more (i + 1) vl
      else
        match ff_try_suffixes env search_ctx i (ff_candidates env search_ctx entry) vl with
        | .miss vl1 => ff_scan_entries env search_ctx more (i + 1) vl1
        | .hit j file_path vl1 => .hit j file_path vl1
        | .fault => .fault := by
  rfl

/-- What the loop over the suffixes does to the visited list. -/
theorem ff_try_suffixes_spec (env : Env) (search_ctx : ff_search_ctx_T) (i : Nat) :
    ∀ (cands : List Str) (vl : Option (List ff_visited_T)),
      match ff_try_suffixes env search_ctx i cands vl with
      | .hit j c l' => j = i ∧ c ∈ cands ∧ ff_file_wanted env search_ctx c = true
          ∧ ∃ l, vl = some l ∧ ff_check_visited env l c (some []) = (true, l')
      | .miss vl' => vl' = vl
      | .fault => vl = none := by
  intro cands
  induction cands with
  | nil => intro vl; simp [ff_try_suffixes]
  | cons c more ih =>
    intro vl
    rw [ff_try_suffixes_cons]
    by_cases hw : ff_file_wanted env search_ctx c = true
    · rw [if_pos hw]
      cases vl with
      | none => simp
      | some l =>
        dsimp only
        by_cases hc : (ff_check_visited env l c (some [])).1 = true
        · rw [if_pos hc]
          exact ⟨rfl, by simp, hw, l, rfl, by rw [← hc]⟩
        · rw [if_neg hc]
          have hfail := ff_check_visited_fail env l c (some []) (by simpa using hc)
          rw [hfail]
          have := ih (some l)
          revert this
          cases ff_try_suffixes env search_ctx i more (some l) with
          | hit j c' l' =>
            rintro ⟨h1, h2, h3, h4⟩
            exact ⟨h1, by simp [h2], h3, h4⟩
          | miss vl' => exact id
          | fault => exact id
    · rw [if_neg hw]
      have := ih vl
      revert this
      cases ff_try_suffixes env search_ctx i more vl with
      | hit j c' l' =>
        rintro ⟨h1, h2, h3, h4⟩
        exact ⟨h1, by simp [h2], h3, h4⟩
      | miss vl' => exact id
      | fault => exact id

/-- What the loop over the entries of a file array does to the visited
list. -/
theorem ff_scan_entries_spec (env : Env) (search_ctx : ff_search_ctx_T) :
    ∀ (entries : List Str) (i : Nat) (vl : Option (List ff_visited_T)),
      match ff_scan_entries env search_ctx entries i vl with
      | .hit _ c l' => ff_file_wanted env search_ctx c = true
          ∧ ∃ l, vl = some l ∧ ff_check_visited env l c (some []) = (true, l')
      | .miss vl' => vl' = vl
      | .fault => vl = none := by
  intro entries
  induction entries with
  | nil => intro i vl; simp [ff_scan_entries]
  | cons e more ih =>
    intro i vl
    rw [ff_scan_entries_cons]
    split_ifs with h1
    · exact ih (i + 1) vl
    · have := ff_try_suffixes_spec env search_ctx i (ff_candidates env search_ctx e) vl
      revert this
      cases ff_try_suffixes env search_ctx i (ff_candidates env search_ctx e) vl with
      | hit j c l' =>
        rintro ⟨_, _, h3, h4⟩
        exact ⟨h3, h4⟩
      | miss vl' =>
        intro h
        subst h
        exact ih (i + 1) vl'
      | fault => exact id

theorem ff_file_registry_push (search_ctx : ff_search_ctx_T) (f : ff_stack_T) :
    ff_file_registry (ff_push search_ctx f) = ff_file_registry search_ctx := rfl

theorem ff_file_registry_push_children (env : Env) (rest : Str) (level : Int) :
    ∀ (entries : List Str) (search_ctx : ff_search_ctx_T),
      ff_file_registry (ff_push_children env rest level entries search_ctx)
        = ff_file_registry search_ctx := by
  intro entries
  induction entries with
  | nil => intro c; rfl
  | cons e more ih =>
    intro c
    rw [ff_push_children]
    split_ifs
    · exact ih c
    · rw [ih]; rfl

theorem ff_file_registry_push_star_star (env : Env) (stackp : ff_stack_T) :
    ∀ (entries : List Str) (search_ctx : ff_search_ctx_T),
      ff_file_registry (ff_push_star_star env stackp entries search_ctx)
        = ff_file_registry search_ctx := by
  intro entries
  induction entries with
  | nil => intro c; rfl
  | cons e more ih =>
    intro c
    rw [ff_push_star_star]
    split_ifs
    · exact ih c
    · exact ih c
    · rw [ih]; rfl

theorem ff_file_registry_store (search_ctx : ff_search_ctx_T) (v : List ff_visited_T) :
    ff_file_registry { search_ctx with
        ffsc_visited_lists_list :=
          hdr_store search_ctx.ffsc_visited_lists_list search_ctx.ffsc_visited_list v }
      = (ff_file_registry search_ctx).map (fun _ => v) := by
  unfold ff_file_registry
  simp only [hdr_deref_store, Option.map_map]
  rfl

theorem ff_step_finish_keeps (env : Env) (search_ctx0 search_ctx : ff_search_ctx_T)
    (stackp : ff_stack_T) (h : ff_file_registry search_ctx = ff_file_registry search_ctx0) :
    ff_step_keeps env search_ctx0 (ff_step_finish env search_ctx stackp) := by
  unfold ff_step_finish
  split_ifs
  · simp only [ff_step_keeps, ff_file_registry_push_star_star, h]
  · exact h

theorem ff_step_frame_keeps (env : Env) (search_ctx : ff_search_ctx_T) (stackp : ff_stack_T) :
    ff_step_keeps env search_ctx (ff_step_frame env search_ctx stackp) := by
  unfold ff_step_frame
  by_cases hl : stackp.ffs_level ≤ 0
  · rw [if_pos hl]; rfl
  · rw [if_neg hl]
    dsimp only
    generalize (if stackp.ffs_filearray.isNone = true then ff_expand env search_ctx stackp
      else (stackp, [])) = ex
    by_cases hs : ex.1.ffs_stage = 0
    · rw [if_pos hs]
      by_cases hr : ex.2.headD 0 = 0
      · rw [if_pos hr]
        have hscan := ff_scan_entries_spec env search_ctx
          ((ex.1.ffs_filearray.getD []).drop ex.1.ffs_filearray_cur) ex.1.ffs_filearray_cur
          ((hdr_deref search_ctx.ffsc_visited_lists_list search_ctx.ffsc_visited_list).map
            (·.ffvl_visited_list))
        revert hscan
        cases ff_scan_entries env search_ctx
          ((ex.1.ffs_filearray.getD []).drop ex.1.ffs_filearray_cur) ex.1.ffs_filearray_cur
          ((hdr_deref search_ctx.ffsc_visited_lists_list search_ctx.ffsc_visited_list).map
            (·.ffvl_visited_list)) with
        | fault => intro _; trivial
        | hit i c l' =>
          rintro ⟨_, l, hl1, hl2⟩
          refine ⟨c, l, l', rfl, hl1, hl2, ?_⟩
          rw [ff_file_registry_push, ff_file_registry_store]
          have : ff_file_registry search_ctx = some l := hl1
          rw [this]; rfl
        | miss vl =>
          intro hvl
          dsimp only
          apply ff_step_finish_keeps
          cases vl with
          | none => rfl
          | some l =>
            dsimp only
            rw [ff_file_registry_store]
            have : ff_file_registry search_ctx = some l := hvl.symm
            rw [this]; rfl
      · rw [if_neg hr]
        apply ff_step_finish_keeps
        exact ff_file_registry_push_children _ _ _ _ _
    · rw [if_neg hs]
      exact ff_step_finish_keeps env search_ctx search_ctx _ rfl

theorem ff_step_keeps_of_eq (env : Env) (c0 c1 : ff_search_ctx_T) (r : ff_step)
    (h : ff_file_registry c1 = ff_file_registry c0) (hr : ff_step_keeps env c1 r) :
    ff_step_keeps env c0 r := by
  cases r with
  | again c => exact hr.trans h
  | found p c =>
    obtain ⟨x, l, l', h1, h2, h3, h4⟩ := hr
    exact ⟨x, l, l', h1, h ▸ h2, h3, h4⟩
  | fault => trivial

theorem ff_step_popped_keeps (env : Env) (search_ctx : ff_search_ctx_T) (stackp : ff_stack_T) :
    ff_step_keeps env search_ctx (ff_step_popped env search_ctx stackp) := by
  unfold ff_step_popped
  split_ifs with h1
  · cases hd : hdr_deref search_ctx.ffsc_dir_visited_lists_list
        search_ctx.ffsc_dir_visited_list with
    | none => trivial
    | some h =>
      dsimp only
      split_ifs
      · rfl
      · exact ff_step_keeps_of_eq env search_ctx _ _ rfl (ff_step_frame_keeps env _ stackp)
  · exact ff_step_frame_keeps env search_ctx stackp

theorem ff_upward_keeps (env : Env) (search_ctx : ff_search_ctx_T) (path_end : Int) :
    match ff_upward env search_ctx path_end with
    | .stop c => ff_file_registry c = ff_file_registry search_ctx
    | .seed c _ => ff_file_registry c = ff_file_registry search_ctx := by
  unfold ff_upward
  cases search_ctx.ffsc_start_dir with
  | none => rfl
  | some sd =>
    cases search_ctx.ffsc_stopdirs_v with
    | none => rfl
    | some sv =>
      dsimp only
      split_ifs <;> rfl

theorem ff_call_keeps_of_eq (env : Env) (c0 c1 : ff_search_ctx_T) (r : ff_result)
    (h : ff_file_registry c1 = ff_file_registry c0) (hr : ff_call_keeps env c1 r) :
    ff_call_keeps env c0 r := by
  cases r with
  | done p c =>
    cases p with
    | none => exact hr.trans h
    | some p =>
      obtain ⟨x, l, l', h1, h2, h3, h4⟩ := hr
      exact ⟨x, l, l', h1, h ▸ h2, h3, h4⟩
  | fault => trivial
  | out_of_fuel => trivial

theorem ff_pop_registry (search_ctx : ff_search_ctx_T) :
    ff_file_registry (ff_pop search_ctx).2 = ff_file_registry search_ctx := by
  unfold ff_pop
  cases search_ctx.ffsc_stack_ptr <;> rfl

theorem ff_search_loop_keeps (env : Env) (poll : Nat → Bool) :
    ∀ (fuel k : Nat) (search_ctx : ff_search_ctx_T) (path_end : Int),
      ff_call_keeps env search_ctx (ff_search_loop env poll fuel k search_ctx path_end) := by
  intro fuel
  induction fuel with
  | zero => intro k c pe; trivial
  | succ f ih =>
    intro k c pe
    rw [ff_search_loop]
    split_ifs with hp
    · rfl
    · have hpop := ff_pop_registry c
      revert hpop
      cases ff_pop c with
      | mk top c1 =>
        intro hpop
        simp only at hpop
        cases top with
        | none =>
          dsimp only
          have hup := ff_upward_keeps env c1 pe
          revert hup
          cases ff_upward env c1 pe with
          | stop c2 => intro hup; exact hup.trans hpop
          | seed c2 pe2 =>
            intro hup
            exact ff_call_keeps_of_eq env c c2 _ (hup.trans hpop) (ih (k + 1) c2 pe2)
        | some stackp =>
          dsimp only
          have hst := ff_step_popped_keeps env c1 stackp
          revert hst
          cases ff_step_popped env c1 stackp with
          | fault => intro _; trivial
          | found p c2 =>
            rintro ⟨x, l, l', h1, h2, h3, h4⟩
            exact ⟨x, l, l', h1, hpop ▸ h2, h3, h4⟩
          | again c2 =>
            intro hst
            exact ff_call_keeps_of_eq env c c2 _ (hst.trans hpop) (ih (k + 1) c2 pe)

theorem ff_same_visit_of_same_identity (env : Env) (id1 id2 : ff_identity)
    (h : ff_same_identity env id1 id2) :
    ff_same_visit env id2 (some []) (ff_entry_for id1 (some [])) = true := by
  cases id1 with
  | inode d1 i1 =>
    cases id2 with
    | inode d2 i2 =>
      obtain ⟨h1, h2⟩ := h
      simp [ff_same_visit, ff_entry_for, ff_wc_equal_refl, h1, h2]
    | name s2 => exact absurd h (by simp [ff_same_identity])
  | name s1 =>
    cases id2 with
    | inode d2 i2 => exact absurd h (by simp [ff_same_identity])
    | name s2 =>
      have h' : env.fnamecmp s1 s2 = 0 := h
      simp [ff_same_visit, ff_entry_for, ff_wc_equal_refl, h']

theorem ff_calls_no_duplicates (env : Env) :
    ∀ (calls : List ((Nat → Bool) × Nat)) (search_ctx : ff_search_ctx_T),
      ∃ cands : List (Str × ff_identity),
        (ff_calls env calls search_ctx).reduceOption
            = cands.map (fun c => ff_found_name env c.1)
        ∧ (∀ c ∈ cands, ff_identity_of env c.1 = some c.2)
        ∧ cands.Pairwise (fun c1 c2 => ¬ ff_same_identity env c1.2 c2.2)
        ∧ ∀ l, ff_file_registry search_ctx = some l →
            ∀ c ∈ cands, l.any (ff_same_visit env c.2 (some [])) = false := by
  intro calls
  induction calls with
  | nil => intro c; exact ⟨[], by simp [ff_calls]⟩
  | cons call more ih =>
    intro ctx
    rw [ff_calls]
    have hk : ff_call_keeps env ctx (vim_findfile env call.1 call.2 ctx) :=
      ff_search_loop_keeps env call.1 call.2 0 ctx _
    revert hk
    cases vim_findfile env call.1 call.2 ctx with
    | fault => intro _; exact ⟨[], by simp⟩
    | out_of_fuel => intro _; exact ⟨[], by simp⟩
    | done r ctx' =>
      cases r with
      | none =>
        intro hk
        obtain ⟨cands, h1, h2, h3, h4⟩ := ih ctx'
        refine ⟨cands, ?_, h2, h3, ?_⟩
        · simpa [List.reduceOption_cons_of_none] using h1
        · intro l hl
          exact h4 l (hk.trans hl)
      | some p =>
        rintro ⟨c, l, l', hp, hl, hchk, hl'⟩
        obtain ⟨id, hid, hentry, hnew⟩ := ff_check_visited_ok env l c (some [])
          (by rw [hchk])
        rw [hchk] at hentry
        simp only at hentry
        obtain ⟨cands, h1, h2, h3, h4⟩ := ih ctx'
        have h4' := h4 l' hl'
        refine ⟨(c, id) :: cands, ?_, ?_, ?_, ?_⟩
        · simp only [List.reduceOption_cons_of_some, List.map_cons, h1, hp]
        · intro x hx
          rcases List.mem_cons.mp hx with hx | hx
          · subst hx; exact hid
          · exact h2 x hx
        · refine List.Pairwise.cons ?_ h3
          intro x hx hsame
          have := h4' x hx
          rw [hentry, List.any_cons, ff_same_visit_of_same_identity env id x.2 hsame] at this
          simp at this
        · intro l0 hl0 x hx
          have hll : l0 = l := by rw [hl] at hl0; exact (Option.some.inj hl0).symm
          subst hll
          rcases List.mem_cons.mp hx with hx | hx
          · subst hx; exact hnew
          · have := h4' x hx
            rw [hentry, List.any_cons] at this
            simp only [Bool.or_eq_false_iff] at this
            exact this.2

/-- C1.  Over any sequence of `vim_findfile` calls on one context no two names returned come from candidates of the same identity: each name returned is the found name of a candidate whose identity resolves, and the identities of the candidates returned are different two by two (device and inode, or the URL string). -/
theorem vim_findfile_no_duplicates (env : Env) (calls : List ((Nat → Bool) × Nat))
    (search_ctx : ff_search_ctx_T) :
    ∃ cands : List (Str × ff_identity),
      (ff_calls env calls search_ctx).reduceOption
          = cands.map (fun c => ff_found_name env c.1)
      ∧ (∀ c ∈ cands, ff_identity_of env c.1 = some c.2)
      ∧ cands.Pairwise (fun c1 c2 => ¬ ff_same_identity env c1.2 c2.2) := by
  obtain ⟨cands, h1, h2, h3, _⟩ := ff_calls_no_duplicates env calls search_ctx
  exact ⟨cands, h1, h2, h3⟩

/-! ## A search with one wildcard at the end of the path -/

theorem ff_file_wanted_find_what (env : Env) (c1 c2 : ff_search_ctx_T) (p : Str)
    (h : c1.ffsc_find_what = c2.ffsc_find_what) :
    ff_file_wanted env c1 p = ff_file_wanted env c2 p := by
  unfold ff_file_wanted; rw [h]

/-- C20.  If the interrupt flag is set at the first poll of a call, `vim_findfile` returns NULL and leaves the context as it is: no frame is popped, no visited list is touched and no upward step is taken. -/
theorem vim_findfile_interrupted (env : Env) (poll : Nat → Bool) (fuel : Nat)
    (search_ctx : ff_search_ctx_T) (hpoll : poll 0 = true) :
    vim_findfile env poll (fuel + 1) search_ctx = .done none search_ctx := by
  unfold vim_findfile
  rw [ff_search_loop, if_pos hpoll]

theorem vim_findfile_interrupted_witness :
    (fun k => decide (k = 0)) 0 = true
    ∧ vim_findfile (tree_env tree_r 4096 []) (fun k => decide (k = 0)) 3
        (star_state (str "/r/") (str "tags") 2 FINDFILE_FILE false
          [star_frame (str "/r/") [str "/r/x/", str "/r/y/"] 2 1]
          (star_registry (tree_env tree_r 4096 []) (str "tags") [str "/r/x/", str "/r/y/"] 1)
          [])
      = .done none
        (star_state (str "/r/") (str "tags") 2 FINDFILE_FILE false
          [star_frame (str "/r/") [str "/r/x/", str "/r/y/"] 2 1]
          (star_registry (tree_env tree_r 4096 []) (str "tags") [str "/r/x/", str "/r/y/"] 1)
          []) :=
  ⟨by decide, vim_findfile_interrupted _ _ 2 _ (by decide)⟩

/-- C19 (the code at the failing input).  After `vim_findfile_init` with `free_visited` TRUE and no prior context the two pointers to the active visited lists are NULL, and the next call of `vim_findfile` uses the visited list for directories through its NULL pointer. -/
theorem vim_findfile_init_free_visited_fault :
    ((vim_findfile_init (tree_env tree_r 4096 []) (str "/r/*") (str "tags") none 2 true
        FINDFILE_FILE none false none).ctx.map
      (fun c => (c.ffsc_visited_list, c.ffsc_dir_visited_list, ff_file_registry c,
        ff_dir_registry c, vim_findfile (tree_env tree_r 4096 []) no_interrupt 5 c)))
      = some (none, none, none, none, .fault) := by
  rfl

/-- C15 (the code at the failing input).  The start directory `/a/b/` is not found in the stop list `/a/b`: the length is counted without the separator at the end, but the comparison is with the whole string. -/
theorem ff_path_in_stoplist_trailing_sep :
    ff_path_in_stoplist (tree_env tree_r 4096 []) (str "/a/b/") ((str "/a/b/").length : Int)
      [str "/a/b"] = false
    ∧ ff_stoplist_trim (tree_env tree_r 4096 []) (str "/a/b/") 5 5 = 4
    ∧ ff_path_in_stoplist (tree_env tree_r 4096 []) (str "/a/b") ((str "/a/b").length : Int)
      [str "/a/b"] = true := by
  decide

/-! ## What `vim_findfile_init` hands back -/

/-- The context `ff_init_finish` hands back: the one it got, with the
start directory, the fix part, the wildcard part and the file name stored
and one new frame on the stack. -/
theorem ff_init_finish_shape (env : Env) (c : ff_search_ctx_T) (filename : Str)
    (level : Int) (sd fix : Str) (wc : Option Str) (msgs : List ff_msg)
    (ctx : ff_search_ctx_T)
    (h : (ff_init_finish env c filename level sd fix wc msgs).ctx = some ctx) :
    ∃ (eb : Str) (wc' : Option Str),
      ctx = { c with
        ffsc_stack_ptr := ff_create_stack_element (some eb) wc' level 0 :: c.ffsc_stack_ptr,
        ffsc_file_to_search := some filename, ffsc_start_dir := some sd,
        ffsc_fix_path := some fix, ffsc_wc_path := wc' } := by
  unfold ff_init_finish at h
  by_cases h1 : sd.length + fix.length + 3 ≥ env.MAXPATHL
  · rw [if_pos h1] at h; simp at h
  · rw [if_neg h1] at h
    dsimp only at h
    by_cases h2 : env.mch_isdir (env.add_pathsep sd ++ fix) = true
    · rw [if_pos h2] at h
      simp only [Option.some.injEq] at h
      exact ⟨_, wc, h.symm⟩
    · rw [if_neg h2] at h
      cases wc with
      | none => simp at h
      | some w =>
        simp only [Option.some.injEq] at h
        exact ⟨_, _, h.symm⟩

theorem ff_init_split_shape (env : Env) (c : ff_search_ctx_T) (path filename : Str)
    (stopdirs : Option Str) (level : Int) (start_dir : Option Str) (ctx : ff_search_ctx_T)
    (h : (ff_init_split env c path filename stopdirs level start_dir).ctx = some ctx) :
    ∃ (eb sd fix : Str) (wc' : Option Str),
      ctx = { c with
        ffsc_stack_ptr := ff_create_stack_element (some eb) wc' level 0 :: c.ffsc_stack_ptr,
        ffsc_file_to_search := some filename, ffsc_start_dir := some sd,
        ffsc_fix_path := some fix, ffsc_wc_path := wc', ffsc_level := level,
        ffsc_stopdirs_v :=
          stopdirs.map (fun s => ff_stopdirs_split (s.dropWhile (· == 59)) []) } := by
  unfold ff_init_split at h
  dsimp only at h
  have key : ∀ sd fix wc msgs,
      (ff_init_finish env
        { c with
          ffsc_stopdirs_v :=
            stopdirs.map (fun s => ff_stopdirs_split (s.dropWhile (· == 59)) []),
          ffsc_level := level } filename level sd fix wc msgs).ctx = some ctx →
      ∃ (eb sd fix : Str) (wc' : Option Str),
      ctx = { c with
        ffsc_stack_ptr := ff_create_stack_element (some eb) wc' level 0 :: c.ffsc_stack_ptr,
        ffsc_file_to_search := some filename, ffsc_start_dir := some sd,
        ffsc_fix_path := some fix, ffsc_wc_path := wc', ffsc_level := level,
        ffsc_stopdirs_v :=
          stopdirs.map (fun s => ff_stopdirs_split (s.dropWhile (· == 59)) []) } := by
    intro sd fix wc msgs hh
    obtain ⟨eb, wc', he⟩ := ff_init_finish_shape env _ filename level sd fix wc msgs ctx hh
    exact ⟨eb, sd, fix, wc', he⟩
  by_cases hm : 42 ∈ path
  · rw [if_pos hm] at h
    cases hr : ff_wc_loop env ((path.dropWhile (· != 42)).length + 1)
        (path.dropWhile (· != 42)) [] with
    | invalid => rw [hr] at h; simp at h
    | toolong buf =>
      rw [hr] at h
      cases start_dir with
      | none => exact key _ _ _ _ h
      | some sd => exact key _ _ _ _ h
    | done buf =>
      rw [hr] at h
      cases start_dir with
      | none => exact key _ _ _ _ h
      | some sd => exact key _ _ _ _ h
  · rw [if_neg hm] at h
    cases start_dir with
    | none => exact key _ _ _ _ h
    | some sd => exact key _ _ _ _ h

/-- The context `vim_findfile_init` hands back: the context it began with
(`ff_init_ctx`), with the settings stored and one new frame on the stack. -/
theorem vim_findfile_init_shape (env : Env) (path filename : Str) (stopdirs : Option Str)
    (level : Int) (free_visited : Bool) (find_what : Int)
    (search_ctx_arg : Option ff_search_ctx_T) (tagfile : Bool) (rel_fname : Option Str)
    (ctx : ff_search_ctx_T)
    (h : (vim_findfile_init env path filename stopdirs level free_visited find_what
      search_ctx_arg tagfile rel_fname).ctx = some ctx) :
    ∃ (eb sd fix : Str) (wc' : Option Str),
      ctx = { ff_init_ctx env filename free_visited find_what search_ctx_arg tagfile with
        ffsc_stack_ptr :=
          ff_create_stack_element (some eb) wc' level 0 ::
            (ff_init_ctx env filename free_visited find_what search_ctx_arg
              tagfile).ffsc_stack_ptr,
        ffsc_file_to_search := some filename, ffsc_start_dir := some sd,
        ffsc_fix_path := some fix, ffsc_wc_path := wc', ffsc_level := level,
        ffsc_stopdirs_v :=
          stopdirs.map (fun s => ff_stopdirs_split (s.dropWhile (· == 59)) []) } := by
  unfold vim_findfile_init at h
  dsimp only at h
  by_cases h1 : path.headD 0 = 46
      ∧ (env.vim_ispathsep (path.getD 1 0) ∨ path.getD 1 0 = 0)
      ∧ (!tagfile ∨ !env.cpo_dottag)
      ∧ rel_fname.isSome
  · rw [if_pos h1] at h
    cases hr : ff_init_rel_dir env (rel_fname.getD []) with
    | none => rw [hr] at h; simp at h
    | some sd =>
      rw [hr] at h
      exact ff_init_split_shape env _ _ _ _ _ _ ctx h
  · rw [if_neg h1] at h
    by_cases h2 : path.headD 0 = 0 ∨ !env.vim_isAbsName path
    · rw [if_pos h2] at h
      cases hr : env.mch_dirname with
      | none => rw [hr] at h; simp at h
      | some sd =>
        rw [hr] at h
        exact ff_init_split_shape env _ _ _ _ _ _ ctx h
    · rw [if_neg h2] at h
      exact ff_init_split_shape env _ _ _ _ _ _ ctx h

theorem ff_init_ctx_stack (env : Env) (filename : Str) (free_visited : Bool)
    (find_what : Int) (search_ctx_arg : Option ff_search_ctx_T) (tagfile : Bool) :
    (ff_init_ctx env filename free_visited find_what search_ctx_arg tagfile).ffsc_stack_ptr
      = [] := by
  unfold ff_init_ctx
  dsimp only
  split_ifs <;> rfl

/-- C17.  After every successful `vim_findfile_init`, with a new context or with a reused one, the stack holds exactly one frame: level as given, no file array, cursor 0, stage 0, the flag for `**` expanded to empty 0, and the stored wildcard part as its wildcards. -/
theorem vim_findfile_init_one_seed (env : Env) (path filename : Str)
    (stopdirs : Option Str) (level : Int) (free_visited : Bool) (find_what : Int)
    (search_ctx_arg : Option ff_search_ctx_T) (tagfile : Bool) (rel_fname : Option Str)
    (ctx : ff_search_ctx_T)
    (h : (vim_findfile_init env path filename stopdirs level free_visited find_what
      search_ctx_arg tagfile rel_fname).ctx = some ctx) :
    ∃ fix_part : Str,
      ctx.ffsc_stack_ptr =
        [{ ffs_fix_path := fix_part, ffs_wc_path := ctx.ffsc_wc_path.getD [],
           ffs_filearray := none, ffs_filearray_cur := 0, ffs_stage := 0,
           ffs_level := level, ffs_star_star_empty := 0 }] := by
  obtain ⟨eb, sd, fix, wc', he⟩ := vim_findfile_init_shape env path filename stopdirs level
    free_visited find_what search_ctx_arg tagfile rel_fname ctx h
  refine ⟨eb, ?_⟩
  rw [he]
  simp only [ff_init_ctx_stack, ff_create_stack_element, Option.getD_some]

theorem vim_findfile_init_one_seed_witness :
    ∃ ctx : ff_search_ctx_T,
      (vim_findfile_init (tree_env tree_a 4096 []) (str "a/**2/b") (str "t") none 100 false
        FINDFILE_FILE
        (some (star_state (str "/r/") (str "tags") 2 FINDFILE_FILE false
          [star_frame (str "/r/") [str "/r/x/", str "/r/y/"] 2 1] [] []))
        false none).ctx = some ctx
      ∧ ctx.ffsc_wc_path = some ([STAR, STAR, 2] ++ str "/b")
      ∧ ∃ fix_part : Str,
        ctx.ffsc_stack_ptr =
          [{ ffs_fix_path := fix_part, ffs_wc_path := ctx.ffsc_wc_path.getD [],
             ffs_filearray := none, ffs_filearray_cur := 0, ffs_stage := 0,
             ffs_level := 100, ffs_star_star_empty := 0 }] :=
  ⟨_, rfl, rfl,
    vim_findfile_init_one_seed (tree_env tree_a 4096 []) (str "a/**2/b") (str "t") none 100
      false FINDFILE_FILE
      (some (star_state (str "/r/") (str "tags") 2 FINDFILE_FILE false
        [star_frame (str "/r/") [str "/r/x/", str "/r/y/"] 2 1] [] []))
      false none _ rfl⟩

theorem ff_find_visited_list_some (env : Env) (filename : Str) :
    ∀ (l : List ff_visited_list_hdr_T) (i : Nat), ff_find_visited_list env filename l = some i →
      ∃ h, l[i]? = some h ∧ env.fnamecmp filename h.ffvl_filename = 0 := by
  intro l
  induction l with
  | nil => intro i h; simp [ff_find_visited_list] at h
  | cons x l ih =>
    intro i h
    rw [ff_find_visited_list] at h
    by_cases hx : (env.fnamecmp filename x.ffvl_filename == 0) = true
    · rw [if_pos hx] at h
      simp only [Option.some.injEq] at h
      subst h
      exact ⟨x, by simp, by simpa using hx⟩
    · rw [if_neg hx] at h
      cases hf : ff_find_visited_list env filename l with
      | none => rw [hf] at h; simp at h
      | some j =>
        rw [hf] at h
        simp only [Option.map_some', Option.some.injEq] at h
        subst h
        obtain ⟨hh, h1, h2⟩ := ih j hf
        exact ⟨hh, by simpa using h1, h2⟩

theorem ff_find_visited_list_none (env : Env) (filename : Str) :
    ∀ (l : List ff_visited_list_hdr_T), ff_find_visited_list env filename l = none →
      ∀ h ∈ l, env.fnamecmp filename h.ffvl_filename ≠ 0 := by
  intro l
  induction l with
  | nil => intro _ h hh; simp at hh
  | cons x l ih =>
    intro h y hy
    rw [ff_find_visited_list] at h
    by_cases hx : (env.fnamecmp filename x.ffvl_filename == 0) = true
    · rw [if_pos hx] at h; simp at h
    · rw [if_neg hx] at h
      rcases List.mem_cons.mp hy with hy | hy
      · subst hy; simpa using hx
      · apply ih _ y hy
        cases hf : ff_find_visited_list env filename l with
        | none => rfl
        | some j => rw [hf] at h; simp at h

theorem ff_get_visited_list_kept (env : Env) (filename : Str)
    (l : List ff_visited_list_hdr_T) :
    ff_lists_kept env filename l (ff_get_visited_list env filename l).2
      (some (ff_get_visited_list env filename l).1) := by
  unfold ff_get_visited_list
  cases hf : ff_find_visited_list env filename l with
  | some i =>
    obtain ⟨h, h1, h2⟩ := ff_find_visited_list_some env filename l i hf
    have hi : i < l.length := by
      by_contra hge
      rw [List.getElem?_eq_none (by omega)] at h1
      simp at h1
    refine ⟨fun a _ => rfl, h, ?_, Or.inl ⟨?_, h2, rfl⟩⟩
    · simp only [hdr_deref]
      rw [if_pos (by omega)]
      have : l.length - 1 - (l.length - 1 - i) = i := by omega
      rw [this, h1]
    · exact List.mem_iff_getElem?.mpr ⟨i, h1⟩
  | none =>
    refine ⟨?_, _, ?_, Or.inr ⟨ff_find_visited_list_none env filename l hf, rfl, rfl⟩⟩
    · intro a ha
      simp only [hdr_deref, List.length_cons]
      rw [if_pos (by omega), if_pos ha]
      have : l.length + 1 - 1 - a = (l.length - 1 - a) + 1 := by omega
      rw [this, List.getElem?_cons_succ]
    · simp only [hdr_deref, List.length_cons]
      rw [if_pos (by omega)]
      have : l.length + 1 - 1 - l.length = 0 := by omega
      rw [this]
      simp

/-- C18.  `vim_findfile_init` with `free_visited` FALSE on a prior context keeps every visited list of that context, for files and for directories, and makes active the visited list stored for the file name, with its entries; a new empty list is made only when there is none for the name. -/
theorem vim_findfile_init_keeps_visited (env : Env) (path filename : Str)
    (stopdirs : Option Str) (level : Int) (find_what : Int) (prior : ff_search_ctx_T)
    (tagfile : Bool) (rel_fname : Option Str) (ctx : ff_search_ctx_T)
    (h : (vim_findfile_init env path filename stopdirs level false find_what (some prior)
      tagfile rel_fname).ctx = some ctx) :
    ff_lists_kept env filename prior.ffsc_visited_lists_list ctx.ffsc_visited_lists_list
      ctx.ffsc_visited_list
    ∧ ff_lists_kept env filename prior.ffsc_dir_visited_lists_list
      ctx.ffsc_dir_visited_lists_list ctx.ffsc_dir_visited_list := by
  obtain ⟨eb, sd, fix, wc', he⟩ := vim_findfile_init_shape env path filename stopdirs level
    false find_what (some prior) tagfile rel_fname ctx h
  rw [he]
  exact ⟨ff_get_visited_list_kept env filename prior.ffsc_visited_lists_list,
    ff_get_visited_list_kept env filename prior.ffsc_dir_visited_lists_list⟩

theorem vim_findfile_init_keeps_visited_witness :
    ∃ ctx : ff_search_ctx_T,
      (vim_findfile_init (tree_env tree_a 4096 []) (str "a/**2/b") (str "tags") none 100 false
        FINDFILE_FILE
        (some (star_state (str "/r/") (str "tags") 2 FINDFILE_FILE false
          [star_frame (str "/r/") [str "/r/x/", str "/r/y/"] 2 1]
          (star_registry (tree_env tree_r 4096 []) (str "tags") [str "/r/x/", str "/r/y/"] 1)
          []))
        false none).ctx = some ctx
      ∧ ff_file_registry ctx
        = some (star_registry (tree_env tree_r 4096 []) (str "tags")
            [str "/r/x/", str "/r/y/"] 1)
      ∧ ff_lists_kept (tree_env tree_a 4096 []) (str "tags")
          [{ ffvl_filename := str "tags",
             ffvl_visited_list := star_registry (tree_env tree_r 4096 []) (str "tags")
               [str "/r/x/", str "/r/y/"] 1 }]
          ctx.ffsc_visited_lists_list ctx.ffsc_visited_list :=
  ⟨_, rfl, rfl,
    (vim_findfile_init_keeps_visited (tree_env tree_a 4096 []) (str "a/**2/b") (str "tags")
      none 100 FINDFILE_FILE
      (star_state (str "/r/") (str "tags") 2 FINDFILE_FILE false
        [star_frame (str "/r/") [str "/r/x/", str "/r/y/"] 2 1]
        (star_registry (tree_env tree_r 4096 []) (str "tags") [str "/r/x/", str "/r/y/"] 1)
        [])
      false none _ rfl).1⟩

theorem ff_wc_equal_loop_env (env env' : Env) (h1 : env'.p_fic = env.p_fic)
    (h2 : env'.mb_tolower = env.mb_tolower) :
    ∀ (a b : Str) (p1 p2 : Nat),
      ff_wc_equal_loop env' a b p1 p2 = ff_wc_equal_loop env a b p1 p2 := by
  intro a
  induction a with
  | nil => intro b p1 p2; simp [ff_wc_equal_loop]
  | cons c a ih =>
    intro b p1 p2
    cases b with
    | nil => simp [ff_wc_equal_loop]
    | cons d b =>
      rw [ff_wc_equal_loop, ff_wc_equal_loop, h1, h2, ih]

theorem ff_wc_equal_env (env env' : Env) (h1 : env'.p_fic = env.p_fic)
    (h2 : env'.mb_tolower = env.mb_tolower) (a b : Option Str) :
    ff_wc_equal env' a b = ff_wc_equal env a b := by
  cases a <;> cases b <;> simp [ff_wc_equal, ff_wc_equal_loop_env env env' h1 h2]

/-- C11.  The identity of a local path is its device and inode, not its name: when `p` and `q` stat to the same device and inode, after `ff_check_visited` returned OK for `p` it returns FAIL for `q`.  For a URL the identity is the name itself: the result does not depend on `mch_stat`, and the entry made holds the name. -/
theorem ff_check_visited_identity (env : Env) (l : List ff_visited_T) (p q u : Str)
    (w : Option Str) (st : Nat × Nat)
    (hp : env.path_with_url p = false) (hq : env.path_with_url q = false)
    (hsp : env.mch_stat p = some st) (hsq : env.mch_stat q = some st)
    (hok : (ff_check_visited env l p w).1 = true)
    (hu : env.path_with_url u = true) (hlen : u.length < env.MAXPATHL) :
    (ff_check_visited env (ff_check_visited env l p w).2 q w).1 = false
    ∧ (∀ stat : Str → Option (Nat × Nat),
        ff_check_visited { env with mch_stat := stat } l u w = ff_check_visited env l u w)
    ∧ ((ff_check_visited env l u w).1 = true →
        (ff_check_visited env l u w).2
          = { ffv_wc_path := w, ffv_dev_valid := false, ffv_dev := 0, ffv_ino := 0,
              ffv_fname := u } :: l) := by
  have hidp : ff_identity_of env p = some (.inode st.1 st.2) := by
    simp [ff_identity_of, hp, hsp]
  have hidq : ff_identity_of env q = some (.inode st.1 st.2) := by
    simp [ff_identity_of, hq, hsq]
  have htake : u.take (env.MAXPATHL - 1) = u := List.take_of_length_le (by omega)
  refine ⟨?_, ?_, ?_⟩
  · obtain ⟨id, hid, hl, _⟩ := ff_check_visited_ok env l p w hok
    rw [hidp] at hid
    rw [hl, ff_check_visited_eq env _ q w _ hidq, ← Option.some.inj hid, if_pos]
    simp [ff_same_visit, ff_entry_for, ff_wc_equal_refl]
  · intro stat
    unfold ff_check_visited
    simp only [hu, ↓reduceIte]
    have hfind : ∀ l' : List ff_visited_T,
        ff_visited_find { env with mch_stat := stat } true (0, 0)
          (u.take (env.MAXPATHL - 1)) w l'
        = ff_visited_find env true (0, 0) (u.take (env.MAXPATHL - 1)) w l' := by
      intro l'
      induction l' with
      | nil => rfl
      | cons vp l' ih =>
        simp only [ff_visited_find, ih]
        rw [ff_wc_equal_env env { env with mch_stat := stat } rfl rfl]
    rw [hfind]
  · intro h
    obtain ⟨id, hid, hl, _⟩ := ff_check_visited_ok env l u w h
    have : ff_identity_of env u = some (.name u) := by
      simp [ff_identity_of, hu, htake]
    rw [this] at hid
    rw [hl, ← Option.some.inj hid]
    rfl


theorem ff_check_visited_identity_witness :
    link_env.path_with_url (str "/r/x/tags") = false
    ∧ link_env.path_with_url (str "/r/l/tags") = false
    ∧ link_env.mch_stat (str "/r/x/tags") = some (1, 10)
    ∧ link_env.mch_stat (str "/r/l/tags") = some (1, 10)
    ∧ (ff_check_visited link_env [] (str "/r/x/tags") (some [])).1 = true
    ∧ link_env.path_with_url (str "http://h/tags") = true
    ∧ (str "http://h/tags").length < link_env.MAXPATHL
    ∧ (ff_check_visited link_env
        (ff_check_visited link_env [] (str "/r/x/tags") (some [])).2
        (str "/r/l/tags") (some [])).1 = false :=
  ⟨by decide, by decide, by decide, by decide, by decide, by decide, by decide,
    (ff_check_visited_identity link_env [] (str "/r/x/tags") (str "/r/l/tags")
      (str "http://h/tags") (some []) (1, 10) (by decide) (by decide) (by decide) (by decide)
      (by decide) (by decide) (by decide)).1⟩

theorem ff_stoplist_trim_none (env : Env) (path : Str) (fuel : Nat)
    (hlast : env.vim_ispathsep (path.getD (path.length - 1) 0) = false) :
    ff_stoplist_trim env path fuel (path.length : Int) = path.length := by
  cases fuel with
  | zero => rfl
  | succ f =>
    rw [ff_stoplist_trim, if_neg]
    rintro ⟨_, h2⟩
    have : ((path.length : Int) - 1).toNat = path.length - 1 := by omega
    rw [this, hlast] at h2
    exact absurd h2 (by decide)

theorem getD_append_cons (path : Str) (c : Nat) (rest : Str) :
    (path ++ c :: rest).getD path.length 0 = c := by
  induction path with
  | nil => rfl
  | cons x p ih => simpa using ih

theorem ff_stoplist_any_iff (env : Env) (path : Str)
    (hcmp : ∀ a b, env.fnamecmp a b = 0 ↔ a = b)
    (hncmp : ∀ a b n, env.fnamencmp a b n = 0 ↔ a.take n = b.take n) :
    ∀ stops : List Str,
      ff_stoplist_any env path (path.length : Int) stops = true ↔
        ∃ s ∈ stops, s = path
          ∨ ∃ c rest, s = path ++ c :: rest ∧ env.vim_ispathsep c = true := by
  intro stops
  induction stops with
  | nil => simp [ff_stoplist_any]
  | cons s more ih =>
    rw [ff_stoplist_any]
    have hhead : (s.length > path.length ∧ env.fnamencmp s path path.length = 0
          ∧ env.vim_ispathsep (s.getD path.length 0) = true)
        ∨ (¬ s.length > path.length ∧ env.fnamecmp s path = 0)
        ↔ (s = path ∨ ∃ c rest, s = path ++ c :: rest ∧ env.vim_ispathsep c = true) := by
      constructor
      · rintro (⟨h1, h2, h3⟩ | ⟨h1, h2⟩)
        · right
          rw [hncmp, List.take_length] at h2
          have hs : s = path ++ s.drop path.length := by
            conv_lhs => rw [← List.take_append_drop path.length s, h2]
          cases hd : s.drop path.length with
          | nil =>
            have := congrArg List.length hd
            simp at this
            omega
          | cons c rest =>
            refine ⟨c, rest, by rw [← hd]; exact hs, ?_⟩
            rw [hs, hd, getD_append_cons] at h3
            exact h3
        · left; exact (hcmp _ _).mp h2
      · rintro (h | ⟨c, rest, h, hc⟩)
        · right
          subst h
          exact ⟨by omega, (hcmp _ _).mpr rfl⟩
        · left
          subst h
          refine ⟨by simp, ?_, ?_⟩
          · rw [hncmp]; simp
          · rw [getD_append_cons]; exact hc
    have hlen : ((s.length : Int) > (path.length : Int)) ↔ s.length > path.length := by
      omega
    have htn : (path.length : Int).toNat = path.length := by omega
    simp only [htn]
    constructor
    · intro h
      by_cases hgt : (s.length : Int) > (path.length : Int)
      · rw [if_pos hgt] at h
        by_cases hc : (env.fnamencmp s path path.length == 0
            && env.vim_ispathsep (s.getD path.length 0)) = true
        · simp only [Bool.and_eq_true, beq_iff_eq] at hc
          exact ⟨s, by simp, hhead.mp (Or.inl ⟨hlen.mp hgt, hc.1, hc.2⟩)⟩
        · rw [if_neg hc] at h
          obtain ⟨x, hx, hh⟩ := ih.mp h
          exact ⟨x, by simp [hx], hh⟩
      · rw [if_neg hgt] at h
        by_cases hc : (env.fnamecmp s path == 0) = true
        · simp only [beq_iff_eq] at hc
          exact ⟨s, by simp, hhead.mp (Or.inr ⟨fun h' => hgt (hlen.mpr h'), hc⟩)⟩
        · rw [if_neg hc] at h
          obtain ⟨x, hx, hh⟩ := ih.mp h
          exact ⟨x, by simp [hx], hh⟩
    · rintro ⟨x, hx, hh⟩
      rcases List.mem_cons.mp hx with hx | hx
      · subst hx
        rcases hhead.mpr hh with ⟨h1, h2, h3⟩ | ⟨h1, h2⟩
        · rw [if_pos (hlen.mpr h1), if_pos (by rw [h2, h3]; rfl)]
        · rw [if_neg (fun h' => h1 (hlen.mp h')), if_pos (by rw [h2]; rfl)]
      · have hmore := ih.mpr ⟨x, hx, hh⟩
        split_ifs <;> first | rfl | exact hmore

/-- C14 (as amended).  For a start directory without path separator at its end, `ff_path_in_stoplist` returns TRUE exactly when some stop entry is the start directory itself, or the start directory is a proper prefix of the stop entry that ends right before a path separator of the stop entry. -/
theorem ff_path_in_stoplist_iff (env : Env) (path : Str) (stops : List Str)
    (hcmp : ∀ a b, env.fnamecmp a b = 0 ↔ a = b)
    (hncmp : ∀ a b n, env.fnamencmp a b n = 0 ↔ a.take n = b.take n)
    (hne : path ≠ [])
    (hlast : env.vim_ispathsep (path.getD (path.length - 1) 0) = false) :
    ff_path_in_stoplist env path (path.length : Int) stops = true ↔
      ∃ s ∈ stops, s = path
        ∨ ∃ c rest, s = path ++ c :: rest ∧ env.vim_ispathsep c = true := by
  unfold ff_path_in_stoplist
  simp only [ff_stoplist_trim_none env path _ hlast]
  have : ¬ ((path.length : Int) = 0) := by
    have := List.length_pos.mpr hne
    omega
  rw [if_neg this]
  exact ff_stoplist_any_iff env path hcmp hncmp stops

theorem ff_path_in_stoplist_iff_witness :
    (∀ a b, (tree_env tree_r 4096 []).fnamecmp a b = 0 ↔ a = b)
    ∧ (∀ a b n, (tree_env tree_r 4096 []).fnamencmp a b n = 0 ↔ a.take n = b.take n)
    ∧ str "/home" ≠ []
    ∧ (tree_env tree_r 4096 []).vim_ispathsep
        ((str "/home").getD ((str "/home").length - 1) 0) = false
    ∧ (ff_path_in_stoplist (tree_env tree_r 4096 []) (str "/home")
        ((str "/home").length : Int) [str "/home/x"] = true ↔
      ∃ s ∈ [str "/home/x"], s = str "/home"
        ∨ ∃ c rest, s = str "/home" ++ c :: rest
          ∧ (tree_env tree_r 4096 []).vim_ispathsep c = true) :=
  ⟨fun a b => by simp [tree_env], fun a b n => by simp [tree_env], by decide, by decide,
    ff_path_in_stoplist_iff (tree_env tree_r 4096 []) (str "/home") [str "/home/x"]
      (fun a b => by simp [tree_env]) (fun a b n => by simp [tree_env]) (by decide)
      (by decide)⟩

/-- C14 (counterexample).  The stop entry `/home` is a proper prefix of the start directory `/home/x` that ends right before a path separator, and `ff_path_in_stoplist` returns FALSE; it is the start directory `/home` that the stop entry `/home/x` stops. -/
theorem ff_path_in_stoplist_prefix_counterexample :
    (str "/home/x").take (str "/home").length = str "/home"
    ∧ (tree_env tree_r 4096 []).vim_ispathsep ((str "/home/x").getD (str "/home").length 0)
        = true
    ∧ ff_path_in_stoplist (tree_env tree_r 4096 []) (str "/home/x")
        ((str "/home/x").length : Int) [str "/home"] = false
    ∧ ff_path_in_stoplist (tree_env tree_r 4096 []) (str "/home")
        ((str "/home").length : Int) [str "/home/x"] = true
    ∧ ff_path_in_stoplist (tree_env tree_r 4096 []) (str "/home")
        ((str "/home").length : Int) [str "/homer"] = false := by
  decide

theorem ff_push_children_settings (env : Env) (rest : Str) (level : Int) :
    ∀ (entries : List Str) (c : ff_search_ctx_T),
      ff_settings (ff_push_children env rest level entries c) = ff_settings c := by
  intro entries
  induction entries with
  | nil => intro c; rfl
  | cons e more ih =>
    intro c
    rw [ff_push_children]
    split_ifs
    · exact ih c
    · rw [ih]; rfl

theorem ff_push_star_star_settings (env : Env) (stackp : ff_stack_T) :
    ∀ (entries : List Str) (c : ff_search_ctx_T),
      ff_settings (ff_push_star_star env stackp entries c) = ff_settings c := by
  intro entries
  induction entries with
  | nil => intro c; rfl
  | cons e more ih =>
    intro c
    rw [ff_push_star_star]
    split_ifs
    · exact ih c
    · exact ih c
    · rw [ih]; rfl

/-- The context a turn of the downward loop leaves, if it leaves one. -/
theorem ff_step_finish_settings (env : Env) (c : ff_search_ctx_T) (stackp : ff_stack_T) :
    ∃ c', ff_step_finish env c stackp = .again c' ∧ ff_settings c' = ff_settings c := by
  unfold ff_step_finish
  split_ifs
  · exact ⟨_, rfl, ff_push_star_star_settings env stackp _ c⟩
  · exact ⟨_, rfl, rfl⟩

theorem ff_step_frame_settings (env : Env) (c : ff_search_ctx_T) (stackp : ff_stack_T) :
    match ff_step_frame env c stackp with
    | .again c' => ff_settings c' = ff_settings c
    | .found _ c' => ff_settings c' = ff_settings c
    | .fault => True := by
  unfold ff_step_frame
  by_cases hl : stackp.ffs_level ≤ 0
  · rw [if_pos hl]
  · rw [if_neg hl]
    dsimp only
    generalize (if stackp.ffs_filearray.isNone = true then ff_expand env c stackp
      else (stackp, [])) = ex
    by_cases hs : ex.1.ffs_stage = 0
    · rw [if_pos hs]
      by_cases hr : ex.2.headD 0 = 0
      · rw [if_pos hr]
        cases ff_scan_entries env c
          ((ex.1.ffs_filearray.getD []).drop ex.1.ffs_filearray_cur) ex.1.ffs_filearray_cur
          ((hdr_deref c.ffsc_visited_lists_list c.ffsc_visited_list).map
            (·.ffvl_visited_list)) with
        | fault => trivial
        | hit i p l' => rfl
        | miss vl =>
          dsimp only
          obtain ⟨c', h1, h2⟩ := ff_step_finish_settings env
            { c with
              ffsc_visited_lists_list :=
                match vl with
                | none => c.ffsc_visited_lists_list
                | some l => hdr_store c.ffsc_visited_lists_list c.ffsc_visited_list l }
            { ex.1 with ffs_filearray_cur := 0, ffs_stage := 1 }
          rw [h1]
          exact h2
      · rw [if_neg hr]
        obtain ⟨c', h1, h2⟩ := ff_step_finish_settings env
          (ff_push_children env ex.2 ex.1.ffs_level
            ((ex.1.ffs_filearray.getD []).drop ex.1.ffs_filearray_cur) c)
          { ex.1 with ffs_filearray_cur := 0, ffs_stage := 1 }
        rw [h1]
        exact h2.trans (ff_push_children_settings _ _ _ _ _)
    · rw [if_neg hs]
      obtain ⟨c', h1, h2⟩ := ff_step_finish_settings env c ex.1
      rw [h1]
      exact h2

theorem ff_step_popped_settings (env : Env) (c : ff_search_ctx_T) (stackp : ff_stack_T) :
    match ff_step_popped env c stackp with
    | .again c' => ff_settings c' = ff_settings c
    | .found _ c' => ff_settings c' = ff_settings c
    | .fault => True := by
  unfold ff_step_popped
  split_ifs with h1
  · cases hdr_deref c.ffsc_dir_visited_lists_list c.ffsc_dir_visited_list with
    | none => trivial
    | some h =>
      dsimp only
      split_ifs
      · rfl
      · have := ff_step_frame_settings env
          { c with
            ffsc_dir_visited_lists_list :=
              hdr_store c.ffsc_dir_visited_lists_list c.ffsc_dir_visited_list
                (ff_check_visited env h.ffvl_visited_list stackp.ffs_fix_path
                  (some stackp.ffs_wc_path)).2 } stackp
        revert this
        cases ff_step_frame env _ stackp with
        | again c' => exact id
        | found p c' => exact id
        | fault => exact id
  · exact ff_step_frame_settings env c stackp

theorem ff_upward_settings (env : Env) (c : ff_search_ctx_T) (path_end : Int) :
    match ff_upward env c path_end with
    | .stop c' => ff_settings c' = ff_settings c
    | .seed c' _ => ff_settings c' = ff_settings c := by
  unfold ff_upward
  cases c.ffsc_start_dir with
  | none => rfl
  | some sd =>
    cases hsv : c.ffsc_stopdirs_v with
    | none => rfl
    | some sv =>
      dsimp only
      split_ifs
      · rfl
      · simp [ff_settings, hsv]
      · simp [ff_settings, ff_push, hsv]

theorem ff_pop_settings (c : ff_search_ctx_T) : ff_settings (ff_pop c).2 = ff_settings c := by
  unfold ff_pop
  cases c.ffsc_stack_ptr <;> rfl

/-- A call of `vim_findfile` leaves the settings of the context as they
are. -/
theorem ff_search_loop_settings (env : Env) (poll : Nat → Bool) :
    ∀ (fuel k : Nat) (c : ff_search_ctx_T) (path_end : Int) (r : Option Str)
      (c' : ff_search_ctx_T),
      ff_search_loop env poll fuel k c path_end = .done r c' →
      ff_settings c' = ff_settings c := by
  intro fuel
  induction fuel with
  | zero => intro k c pe r c' h; simp [ff_search_loop] at h
  | succ f ih =>
    intro k c pe r c' h
    rw [ff_search_loop] at h
    by_cases hp : poll k = true
    · rw [if_pos hp] at h
      simp only [ff_result.done.injEq] at h
      rw [← h.2]
    · rw [if_neg hp] at h
      have hpop := ff_pop_settings c
      revert h hpop
      cases ff_pop c with
      | mk top c1 =>
        intro h hpop
        simp only at hpop
        cases top with
        | none =>
          dsimp only at h
          have hup := ff_upward_settings env c1 pe
          revert h hup
          cases ff_upward env c1 pe with
          | stop c2 =>
            intro h hup
            simp only [ff_result.done.injEq] at h
            rw [← h.2]
            exact hup.trans hpop
          | seed c2 pe2 =>
            intro h hup
            exact (ih _ _ _ _ _ h).trans (hup.trans hpop)
        | some stackp =>
          dsimp only at h
          have hst := ff_step_popped_settings env c1 stackp
          revert h hst
          cases ff_step_popped env c1 stackp with
          | fault => intro h; simp at h
          | found p c2 =>
            intro h hst
            simp only [ff_result.done.injEq] at h
            rw [← h.2]
            exact hst.trans hpop
          | again c2 =>
            intro h hst
            exact (ih _ _ _ _ _ h).trans (hst.trans hpop)

theorem ff_pop_some (c c1 : ff_search_ctx_T) (stackp : ff_stack_T)
    (h : ff_pop c = (some stackp, c1)) :
    c.ffsc_stack_ptr = stackp :: c1.ffsc_stack_ptr ∧ ff_settings c1 = ff_settings c := by
  unfold ff_pop at h
  cases hs : c.ffsc_stack_ptr with
  | nil => rw [hs] at h; simp at h
  | cons a l =>
    rw [hs] at h
    simp only [Prod.mk.injEq, Option.some.injEq] at h
    rw [← h.1, ← h.2]
    exact ⟨rfl, rfl⟩

theorem ff_pop_none (c c1 : ff_search_ctx_T) (h : ff_pop c = (none, c1)) :
    c.ffsc_stack_ptr = [] ∧ c1 = c := by
  unfold ff_pop at h
  cases hs : c.ffsc_stack_ptr with
  | nil =>
    rw [hs] at h
    simp only [Prod.mk.injEq, true_and] at h
    exact ⟨rfl, h.symm⟩
  | cons a l => rw [hs] at h; simp at h

/-- The settings are the same in every state the turns of `vim_findfile`
lead to. -/
theorem ff_reaches_settings (env : Env) (c0 c : ff_search_ctx_T)
    (h : ff_reaches env c0 c) : ff_settings c = ff_settings c0 := by
  induction h with
  | refl => rfl
  | again c c1 c2 stackp _ hpop hstep ih =>
    have h1 := ff_step_popped_settings env c1 stackp
    rw [hstep] at h1
    exact h1.trans ((ff_pop_some c c1 stackp hpop).2.trans ih)
  | found c c1 c2 stackp p _ hpop hstep ih =>
    have h1 := ff_step_popped_settings env c1 stackp
    rw [hstep] at h1
    exact h1.trans ((ff_pop_some c c1 stackp hpop).2.trans ih)
  | seed c c1 c2 pe pe2 _ hpop hup ih =>
    have h1 := ff_upward_settings env c1 pe
    rw [hup] at h1
    rw [(ff_pop_none c c1 hpop).2] at h1
    exact h1.trans ih
  | stop c c1 c2 pe _ hpop hup ih =>
    have h1 := ff_upward_settings env c1 pe
    rw [hup] at h1
    rw [(ff_pop_none c c1 hpop).2] at h1
    exact h1.trans ih

theorem ff_settings_stopdirs (c c' : ff_search_ctx_T) (h : ff_settings c = ff_settings c') :
    c.ffsc_stopdirs_v = c'.ffsc_stopdirs_v := by
  simp only [ff_settings, Prod.mk.injEq] at h
  exact h.2.2.2.2.2.2.1

theorem ff_settings_level (c c' : ff_search_ctx_T) (h : ff_settings c = ff_settings c') :
    c.ffsc_level = c'.ffsc_level := by
  simp only [ff_settings, Prod.mk.injEq] at h
  exact h.2.2.2.2.2.1

/-- C12.  If the context was initialised with `stopdirs == NULL`, then in every state the turns of `vim_findfile` lead to from it, by any number of calls, a turn that finds the stack empty returns NULL at once and leaves the context as it is (the start directory unchanged, no frame pushed): there is no upward search. -/
theorem vim_findfile_no_upward (env : Env) (path filename : Str) (level : Int)
    (free_visited : Bool) (find_what : Int) (search_ctx_arg : Option ff_search_ctx_T)
    (tagfile : Bool) (rel_fname : Option Str) (c0 c : ff_search_ctx_T)
    (hinit : (vim_findfile_init env path filename none level free_visited find_what
      search_ctx_arg tagfile rel_fname).ctx = some c0)
    (hreach : ff_reaches env c0 c)
    (hstack : c.ffsc_stack_ptr = [])
    (poll : Nat → Bool) (fuel k : Nat) (path_end : Int) :
    ff_search_loop env poll (fuel + 1) k c path_end = .done none c
      ∧ vim_findfile env poll (fuel + 1) c = .done none c := by
  have hsd0 : c0.ffsc_stopdirs_v = none := by
    obtain ⟨eb, sd, fix, wc', he⟩ := vim_findfile_init_shape env path filename none level
      free_visited find_what search_ctx_arg tagfile rel_fname c0 hinit
    rw [he]
    rfl
  have hsd : c.ffsc_stopdirs_v = none :=
    (ff_settings_stopdirs c c0 (ff_reaches_settings env c0 c hreach)).trans hsd0
  have key : ∀ k pe, ff_search_loop env poll (fuel + 1) k c pe = .done none c := by
    intro k pe
    rw [ff_search_loop]
    by_cases hp : poll k = true
    · rw [if_pos hp]
    · rw [if_neg hp]
      have hpop : ff_pop c = (none, c) := by
        unfold ff_pop
        rw [hstack]
      rw [hpop]
      dsimp only
      have hup : ff_upward env c pe = .stop c := by
        unfold ff_upward
        rw [hsd]
        cases c.ffsc_start_dir <;> rfl
      rw [hup]
  exact ⟨key k path_end, key 0 _⟩

theorem vim_findfile_no_upward_witness :
    ∃ c0 c : ff_search_ctx_T,
      (vim_findfile_init (tree_env tree_a 4096 []) (str "a") (str "t") none 0 false
        FINDFILE_FILE none false none).ctx = some c0
      ∧ ff_reaches (tree_env tree_a 4096 []) c0 c
      ∧ c.ffsc_stack_ptr = []
      ∧ ff_search_loop (tree_env tree_a 4096 []) no_interrupt 1 0 c 4 = .done none c
      ∧ vim_findfile (tree_env tree_a 4096 []) no_interrupt 1 c = .done none c :=
  ⟨_, _, rfl, ff_reaches.again _ _ _ _ ff_reaches.refl rfl rfl, rfl,
    vim_findfile_no_upward (tree_env tree_a 4096 []) (str "a") (str "t") 0 false
      FINDFILE_FILE none false none _ _ rfl
      (ff_reaches.again _ _ _ _ ff_reaches.refl rfl rfl) rfl no_interrupt 0 0 4⟩

theorem ff_push_children_mem (env : Env) (rest : Str) (level : Int) :
    ∀ (entries : List Str) (c : ff_search_ctx_T) (f : ff_stack_T),
      f ∈ (ff_push_children env rest level entries c).ffsc_stack_ptr →
      f ∈ c.ffsc_stack_ptr ∨ f.ffs_level = level - 1 := by
  intro entries
  induction entries with
  | nil => intro c f h; exact Or.inl h
  | cons e more ih =>
    intro c f h
    rw [ff_push_children] at h
    split_ifs at h
    · exact ih c f h
    · rcases ih _ f h with h1 | h1
      · simp only [ff_push, List.mem_cons] at h1
        rcases h1 with h1 | h1
        · right; rw [h1]; rfl
        · exact Or.inl h1
      · exact Or.inr h1

theorem ff_push_star_star_mem (env : Env) (stackp : ff_stack_T) :
    ∀ (entries : List Str) (c : ff_search_ctx_T) (f : ff_stack_T),
      f ∈ (ff_push_star_star env stackp entries c).ffsc_stack_ptr →
      f ∈ c.ffsc_stack_ptr ∨ f.ffs_level = stackp.ffs_level - 1 := by
  intro entries
  induction entries with
  | nil => intro c f h; exact Or.inl h
  | cons e more ih =>
    intro c f h
    rw [ff_push_star_star] at h
    split_ifs at h
    · exact ih c f h
    · exact ih c f h
    · rcases ih _ f h with h1 | h1
      · simp only [ff_push, List.mem_cons] at h1
        rcases h1 with h1 | h1
        · right; rw [h1]; rfl
        · exact Or.inl h1
      · exact Or.inr h1

theorem ff_expand_level (env : Env) (c : ff_search_ctx_T) (stackp : ff_stack_T) :
    (ff_expand env c stackp).1.ffs_level = stackp.ffs_level := by
  unfold ff_expand
  dsimp only
  split_ifs <;> rfl

theorem ff_step_finish_mem (env : Env) (c : ff_search_ctx_T) (stackp : ff_stack_T) :
    ∃ c', ff_step_finish env c stackp = .again c' ∧
      ∀ f ∈ c'.ffsc_stack_ptr, f ∈ c.ffsc_stack_ptr ∨ f.ffs_level = stackp.ffs_level - 1 := by
  unfold ff_step_finish
  split_ifs
  · exact ⟨_, rfl, fun f hf => ff_push_star_star_mem env stackp _ c f hf⟩
  · exact ⟨_, rfl, fun f hf => Or.inl hf⟩

/-- The frames on the stack after a turn of the downward loop: those that
were there, the frame popped (put back when a file is returned), and new
frames one level below the frame popped. -/
theorem ff_step_frame_mem (env : Env) (c : ff_search_ctx_T) (stackp : ff_stack_T) :
    match ff_step_frame env c stackp with
    | .again c' => ∀ f ∈ c'.ffsc_stack_ptr,
        f ∈ c.ffsc_stack_ptr ∨ f.ffs_level = stackp.ffs_level - 1
    | .found _ c' => ∀ f ∈ c'.ffsc_stack_ptr,
        f ∈ c.ffsc_stack_ptr ∨ f.ffs_level = stackp.ffs_level
    | .fault => True := by
  unfold ff_step_frame
  by_cases hl : stackp.ffs_level ≤ 0
  · rw [if_pos hl]
    exact fun f hf => Or.inl hf
  · rw [if_neg hl]
    dsimp only
    have hex : (if stackp.ffs_filearray.isNone = true then ff_expand env c stackp
        else (stackp, [])).1.ffs_level = stackp.ffs_level := by
      split_ifs
      · exact ff_expand_level env c stackp
      · rfl
    revert hex
    generalize (if stackp.ffs_filearray.isNone = true then ff_expand env c stackp
      else (stackp, [])) = ex
    intro hex
    by_cases hs : ex.1.ffs_stage = 0
    · rw [if_pos hs]
      by_cases hr : ex.2.headD 0 = 0
      · rw [if_pos hr]
        cases ff_scan_entries env c
          ((ex.1.ffs_filearray.getD []).drop ex.1.ffs_filearray_cur) ex.1.ffs_filearray_cur
          ((hdr_deref c.ffsc_visited_lists_list c.ffsc_visited_list).map
            (·.ffvl_visited_list)) with
        | fault => trivial
        | hit i p l' =>
          intro f hf
          simp only [ff_push, List.mem_cons] at hf
          rcases hf with hf | hf
          · right; rw [hf]; exact hex
          · exact Or.inl hf
        | miss vl =>
          dsimp only
          obtain ⟨c', h1, h2⟩ := ff_step_finish_mem env
            { c with
              ffsc_visited_lists_list :=
                match vl with
                | none => c.ffsc_visited_lists_list
                | some l => hdr_store c.ffsc_visited_lists_list c.ffsc_visited_list l }
            { ex.1 with ffs_filearray_cur := 0, ffs_stage := 1 }
          rw [h1]
          intro f hf
          rcases h2 f hf with h3 | h3
          · exact Or.inl h3
          · right; rw [h3]; exact congrArg (· - 1) hex
      · rw [if_neg hr]
        obtain ⟨c', h1, h2⟩ := ff_step_finish_mem env
          (ff_push_children env ex.2 ex.1.ffs_level
            ((ex.1.ffs_filearray.getD []).drop ex.1.ffs_filearray_cur) c)
          { ex.1 with ffs_filearray_cur := 0, ffs_stage := 1 }
        rw [h1]
        intro f hf
        rcases h2 f hf with h3 | h3
        · rcases ff_push_children_mem _ _ _ _ _ f h3 with h4 | h4
          · exact Or.inl h4
          · right; rw [h4, hex]
        · right; rw [h3]; exact congrArg (· - 1) hex
    · rw [if_neg hs]
      obtain ⟨c', h1, h2⟩ := ff_step_finish_mem env c ex.1
      rw [h1]
      intro f hf
      rcases h2 f hf with h3 | h3
      · exact Or.inl h3
      · right; rw [h3, hex]

theorem ff_step_popped_mem (env : Env) (c : ff_search_ctx_T) (stackp : ff_stack_T) :
    match ff_step_popped env c stackp with
    | .again c' => ∀ f ∈ c'.ffsc_stack_ptr,
        f ∈ c.ffsc_stack_ptr ∨ f.ffs_level = stackp.ffs_level - 1
    | .found _ c' => ∀ f ∈ c'.ffsc_stack_ptr,
        f ∈ c.ffsc_stack_ptr ∨ f.ffs_level = stackp.ffs_level
    | .fault => True := by
  unfold ff_step_popped
  split_ifs with h1
  · cases hdr_deref c.ffsc_dir_visited_lists_list c.ffsc_dir_visited_list with
    | none => trivial
    | some h =>
      dsimp only
      split_ifs
      · exact fun f hf => Or.inl hf
      · have := ff_step_frame_mem env
          { c with
            ffsc_dir_visited_lists_list :=
              hdr_store c.ffsc_dir_visited_lists_list c.ffsc_dir_visited_list
                (ff_check_visited env h.ffvl_visited_list stackp.ffs_fix_path
                  (some stackp.ffs_wc_path)).2 } stackp
        revert this
        cases ff_step_frame env _ stackp with
        | again c' => exact id
        | found p c' => exact id
        | fault => exact id
  · exact ff_step_frame_mem env c stackp

/-- The stack after a turn of the upward loop: one new frame at the level
of the context, or the stack as it was. -/
theorem ff_upward_stack (env : Env) (c : ff_search_ctx_T) (path_end : Int) :
    match ff_upward env c path_end with
    | .stop c' => c'.ffsc_stack_ptr = c.ffsc_stack_ptr
    | .seed c' _ => ∃ f, c'.ffsc_stack_ptr = f :: c.ffsc_stack_ptr
        ∧ f.ffs_level = c.ffsc_level
        ∧ f.ffs_wc_path = c.ffsc_wc_path.getD []
        ∧ (∃ sd, c'.ffsc_start_dir = some sd
            ∧ f.ffs_fix_path = env.add_pathsep sd ++ c.ffsc_fix_path.getD []) := by
  unfold ff_upward
  cases c.ffsc_start_dir with
  | none => rfl
  | some sd =>
    cases hsv : c.ffsc_stopdirs_v with
    | none => rfl
    | some sv =>
      dsimp only
      split_ifs
      · rfl
      · rfl
      · exact ⟨_, rfl, rfl, rfl, _, rfl, rfl⟩

/-- No frame is above the level of the context in any state the turns of
`vim_findfile` lead to. -/
theorem ff_reaches_levels (env : Env) (c0 c : ff_search_ctx_T)
    (h0 : ff_levels_le c0.ffsc_level c0.ffsc_stack_ptr)
    (h : ff_reaches env c0 c) : ff_levels_le c0.ffsc_level c.ffsc_stack_ptr := by
  induction h with
  | refl => exact h0
  | again c c1 c2 stackp hr hpop hstep ih =>
    have h1 := ff_step_popped_mem env c1 stackp
    rw [hstep] at h1
    have hp := (ff_pop_some c c1 stackp hpop).1
    intro f hf
    rcases h1 f hf with h2 | h2
    · exact ih f (by rw [hp]; exact List.mem_cons_of_mem _ h2)
    · have := ih stackp (by rw [hp]; exact List.mem_cons_self _ _)
      rw [h2]
      omega
  | found c c1 c2 stackp p hr hpop hstep ih =>
    have h1 := ff_step_popped_mem env c1 stackp
    rw [hstep] at h1
    have hp := (ff_pop_some c c1 stackp hpop).1
    intro f hf
    rcases h1 f hf with h2 | h2
    · exact ih f (by rw [hp]; exact List.mem_cons_of_mem _ h2)
    · have := ih stackp (by rw [hp]; exact List.mem_cons_self _ _)
      rw [h2]
      exact this
  | seed c c1 c2 pe pe2 hr hpop hup ih =>
    have h1 := ff_upward_stack env c1 pe
    rw [hup] at h1
    obtain ⟨f0, hs, hl, _⟩ := h1
    have hc := (ff_pop_none c c1 hpop).2
    intro f hf
    rw [hs] at hf
    rcases List.mem_cons.mp hf with h2 | h2
    · rw [h2, hl, hc, ff_settings_level c c0 (ff_reaches_settings env c0 c hr)]
    · rw [hc] at h2
      exact ih f h2
  | stop c c1 c2 pe hr hpop hup ih =>
    have h1 := ff_upward_stack env c1 pe
    rw [hup] at h1
    rw [h1, (ff_pop_none c c1 hpop).2]
    exact ih

theorem vim_findfile_init_levels (env : Env) (path filename : Str) (stopdirs : Option Str)
    (level : Int) (free_visited : Bool) (find_what : Int)
    (search_ctx_arg : Option ff_search_ctx_T) (tagfile : Bool) (rel_fname : Option Str)
    (c0 : ff_search_ctx_T)
    (hinit : (vim_findfile_init env path filename stopdirs level free_visited find_what
      search_ctx_arg tagfile rel_fname).ctx = some c0) :
    c0.ffsc_level = level ∧ ff_levels_le c0.ffsc_level c0.ffsc_stack_ptr := by
  obtain ⟨eb, sd, fix, wc', he⟩ := vim_findfile_init_shape env path filename stopdirs level
    free_visited find_what search_ctx_arg tagfile rel_fname c0 hinit
  rw [he]
  refine ⟨rfl, ?_⟩
  intro f hf
  simp only [ff_init_ctx_stack, List.mem_singleton] at hf
  rw [hf]
  exact le_refl _

/-- C16.  The level given to `vim_findfile_init` is a hard cap: in every state the turns of `vim_findfile` lead to, `ffsc_level` is that level and no frame on the stack is above it; a frame with level `<= 0` is given up before anything is expanded, whatever the environment and its wildcards; the frames pushed for children and for the descent of `**` are one level below the frame popped, and the frame pushed by an upward step has `ffsc_level`. -/
theorem vim_findfile_level_cap (env : Env) (path filename : Str) (stopdirs : Option Str)
    (level : Int) (free_visited : Bool) (find_what : Int)
    (search_ctx_arg : Option ff_search_ctx_T) (tagfile : Bool) (rel_fname : Option Str)
    (c0 c : ff_search_ctx_T)
    (hinit : (vim_findfile_init env path filename stopdirs level free_visited find_what
      search_ctx_arg tagfile rel_fname).ctx = some c0)
    (hreach : ff_reaches env c0 c) :
    c.ffsc_level = level
      ∧ (∀ f ∈ c.ffsc_stack_ptr, f.ffs_level ≤ level)
      ∧ (∀ (env2 : Env) (c2 : ff_search_ctx_T) (stackp : ff_stack_T),
          stackp.ffs_level ≤ 0 → ff_step_frame env2 c2 stackp = .again c2)
      ∧ (∀ (rest : Str) (lvl : Int) (entries : List Str) (c2 : ff_search_ctx_T)
          (f : ff_stack_T),
          f ∈ (ff_push_children env rest lvl entries c2).ffsc_stack_ptr →
          f ∈ c2.ffsc_stack_ptr ∨ f.ffs_level = lvl - 1)
      ∧ (∀ (stackp : ff_stack_T) (entries : List Str) (c2 : ff_search_ctx_T)
          (f : ff_stack_T),
          f ∈ (ff_push_star_star env stackp entries c2).ffsc_stack_ptr →
          f ∈ c2.ffsc_stack_ptr ∨ f.ffs_level = stackp.ffs_level - 1)
      ∧ (∀ (path_end path_end2 : Int) (c2 : ff_search_ctx_T),
          ff_upward env c path_end = .seed c2 path_end2 →
          ∃ f, c2.ffsc_stack_ptr = f :: c.ffsc_stack_ptr ∧ f.ffs_level = level) := by
  obtain ⟨hl0, hle0⟩ := vim_findfile_init_levels env path filename stopdirs level
    free_visited find_what search_ctx_arg tagfile rel_fname c0 hinit
  have hlev : c.ffsc_level = level :=
    (ff_settings_level c c0 (ff_reaches_settings env c0 c hreach)).trans hl0
  refine ⟨hlev, ?_, ?_, ?_, ?_, ?_⟩
  · have := ff_reaches_levels env c0 c hle0 hreach
    rw [hl0] at this
    exact this
  · intro env2 c2 stackp hle
    unfold ff_step_frame
    rw [if_pos hle]
  · exact fun rest lvl entries c2 f hf => ff_push_children_mem env rest lvl entries c2 f hf
  · exact fun stackp entries c2 f hf => ff_push_star_star_mem env stackp entries c2 f hf
  · intro pe pe2 c2 hup
    have h1 := ff_upward_stack env c pe
    rw [hup] at h1
    obtain ⟨f, hs, hl, _⟩ := h1
    exact ⟨f, hs, hl.trans hlev⟩

theorem vim_findfile_level_cap_witness :
    ∃ c0 : ff_search_ctx_T,
      (vim_findfile_init (tree_env tree_a 4096 []) (str "a/**2/b") (str "t") none 1 false
        FINDFILE_FILE none false none).ctx = some c0
      ∧ c0.ffsc_level = 1
      ∧ ∀ f ∈ c0.ffsc_stack_ptr, f.ffs_level ≤ 1 :=
  ⟨_, rfl,
    (vim_findfile_level_cap (tree_env tree_a 4096 []) (str "a/**2/b") (str "t") none 1 false
      FINDFILE_FILE none false none _ _ rfl ff_reaches.refl).1,
    (vim_findfile_level_cap (tree_env tree_a 4096 []) (str "a/**2/b") (str "t") none 1 false
      FINDFILE_FILE none false none _ _ rfl ff_reaches.refl).2.1⟩

/-- C28.  The frame pushed by an upward step has the new start directory, a separator and `ffsc_fix_path` as its fix part, `ffsc_wc_path` as its wildcards and `ffsc_level` as its level, and these three fields hold what `vim_findfile_init` stored: they are the same in every state the turns of `vim_findfile` lead to. -/
theorem ff_upward_seed_frame (env : Env) (path filename : Str) (stopdirs : Option Str)
    (level : Int) (free_visited : Bool) (find_what : Int)
    (search_ctx_arg : Option ff_search_ctx_T) (tagfile : Bool) (rel_fname : Option Str)
    (c0 c c2 : ff_search_ctx_T) (path_end path_end2 : Int)
    (hinit : (vim_findfile_init env path filename stopdirs level free_visited find_what
      search_ctx_arg tagfile rel_fname).ctx = some c0)
    (hreach : ff_reaches env c0 c)
    (hup : ff_upward env c path_end = .seed c2 path_end2) :
    c.ffsc_fix_path = c0.ffsc_fix_path ∧ c.ffsc_wc_path = c0.ffsc_wc_path
      ∧ c.ffsc_level = c0.ffsc_level ∧ c0.ffsc_level = level
      ∧ c2.ffsc_fix_path = c0.ffsc_fix_path ∧ c2.ffsc_wc_path = c0.ffsc_wc_path
      ∧ c2.ffsc_level = c0.ffsc_level
      ∧ ∃ (f : ff_stack_T) (sd : Str),
          c2.ffsc_stack_ptr = f :: c.ffsc_stack_ptr
          ∧ c2.ffsc_start_dir = some sd
          ∧ f.ffs_fix_path = env.add_pathsep sd ++ c0.ffsc_fix_path.getD []
          ∧ f.ffs_wc_path = c0.ffsc_wc_path.getD []
          ∧ f.ffs_level = level := by
  obtain ⟨hl0, _⟩ := vim_findfile_init_levels env path filename stopdirs level
    free_visited find_what search_ctx_arg tagfile rel_fname c0 hinit
  have hs := ff_reaches_settings env c0 c hreach
  have hs2 := ff_upward_settings env c path_end
  rw [hup] at hs2
  have hs3 := hs2.trans hs
  have h1 := ff_upward_stack env c path_end
  rw [hup] at h1
  obtain ⟨f, hst, hl, hw, sd, hsd, hf⟩ := h1
  simp only [ff_settings, Prod.mk.injEq] at hs hs3
  obtain ⟨-, -, -, hfix, hwc, hlev, -⟩ := hs
  obtain ⟨-, -, -, hfix3, hwc3, hlev3, -⟩ := hs3
  refine ⟨hfix, hwc, hlev, hl0, hfix3, hwc3, hlev3, f, sd, hst, hsd, ?_, ?_, ?_⟩
  · rw [hf, hfix]
  · rw [hw, hwc]
  · rw [hl, hlev, hl0]

theorem ff_upward_seed_frame_witness :
    ∃ (c0 c c2 : ff_search_ctx_T) (path_end2 : Int),
      (vim_findfile_init (tree_env tree_a 4096 []) (str "a") (str "t") (some []) 0 false
        FINDFILE_FILE none false none).ctx = some c0
      ∧ ff_reaches (tree_env tree_a 4096 []) c0 c
      ∧ ff_upward (tree_env tree_a 4096 []) c 4 = .seed c2 path_end2
      ∧ c2.ffsc_fix_path = c0.ffsc_fix_path
      ∧ ∃ (f : ff_stack_T) (sd : Str),
          c2.ffsc_stack_ptr = f :: c.ffsc_stack_ptr
          ∧ c2.ffsc_start_dir = some sd
          ∧ f.ffs_fix_path = (tree_env tree_a 4096 []).add_pathsep sd ++ c0.ffsc_fix_path.getD []
          ∧ f.ffs_wc_path = c0.ffsc_wc_path.getD []
          ∧ f.ffs_level = 0 :=
  ⟨_, _, _, _, rfl, ff_reaches.again _ _ _ _ ff_reaches.refl rfl rfl, rfl,
    (ff_upward_seed_frame (tree_env tree_a 4096 []) (str "a") (str "t") (some []) 0 false
      FINDFILE_FILE none false none _ _ _ 4 _ rfl
      (ff_reaches.again _ _ _ _ ff_reaches.refl rfl rfl) rfl).2.2.2.2.1,
    (ff_upward_seed_frame (tree_env tree_a 4096 []) (str "a") (str "t") (some []) 0 false
      FINDFILE_FILE none false none _ _ _ 4 _ rfl
      (ff_reaches.again _ _ _ _ ff_reaches.refl rfl rfl) rfl).2.2.2.2.2.2.2⟩

theorem takeWhile_ne_not_mem (p : Str) (x : Nat) : x ∉ p.takeWhile (· != x) := by
  intro h
  have := List.mem_takeWhile_imp h
  simp at this

theorem takeWhile_ne_of_not_mem (p : Str) (x : Nat) (h : x ∉ p) :
    p.takeWhile (· != x) = p := by
  rw [List.takeWhile_eq_self_iff]
  intro y hy
  simp only [bne_iff_ne, ne_eq]
  intro he
  exact h (he ▸ hy)

/-- What `ff_init_finish` stores as fix part and wildcard part: the fix part
it was given; the wildcard part it was given, after the end of the fix
part when the fix part is not a directory. -/
theorem ff_init_finish_parts (env : Env) (c : ff_search_ctx_T) (filename : Str)
    (level : Int) (sd fix : Str) (wc : Option Str) (msgs : List ff_msg)
    (ctx : ff_search_ctx_T)
    (h : (ff_init_finish env c filename level sd fix wc msgs).ctx = some ctx) :
    ctx.ffsc_fix_path = some fix ∧ ctx.ffsc_start_dir = some sd
      ∧ (ctx.ffsc_wc_path = wc
          ∨ ∃ w n, wc = some w ∧ ctx.ffsc_wc_path = some (fix.drop n ++ w)) := by
  unfold ff_init_finish at h
  by_cases h1 : sd.length + fix.length + 3 ≥ env.MAXPATHL
  · rw [if_pos h1] at h; simp at h
  · rw [if_neg h1] at h
    dsimp only at h
    by_cases h2 : env.mch_isdir (env.add_pathsep sd ++ fix) = true
    · rw [if_pos h2] at h
      simp only [Option.some.injEq] at h
      rw [← h]
      exact ⟨rfl, rfl, Or.inl rfl⟩
    · rw [if_neg h2] at h
      cases wc with
      | none => simp at h
      | some w =>
        simp only [Option.some.injEq] at h
        rw [← h]
        exact ⟨rfl, rfl, Or.inr ⟨w, _, rfl, rfl⟩⟩

/-- What `ff_init_split` stores: the path up to its first `*` as fix part
(as start directory, with an empty fix part, when there is no start
directory yet), and a wildcard part exactly when the path has a `*`. -/
theorem ff_init_split_parts (env : Env) (c : ff_search_ctx_T) (path filename : Str)
    (stopdirs : Option Str) (level : Int) (start_dir : Option Str) (ctx : ff_search_ctx_T)
    (h : (ff_init_split env c path filename stopdirs level start_dir).ctx = some ctx) :
    ((∃ sd, start_dir = some sd ∧ ctx.ffsc_start_dir = some sd
          ∧ ctx.ffsc_fix_path = some (path.takeWhile (· != 42)))
        ∨ (start_dir = none ∧ ctx.ffsc_start_dir = some (path.takeWhile (· != 42))
          ∧ ctx.ffsc_fix_path = some []))
      ∧ (42 ∉ path → ctx.ffsc_wc_path = none)
      ∧ (42 ∈ path → ∃ buf pre,
          (ff_wc_loop env ((path.dropWhile (· != 42)).length + 1)
              (path.dropWhile (· != 42)) [] = .done buf
            ∨ ff_wc_loop env ((path.dropWhile (· != 42)).length + 1)
              (path.dropWhile (· != 42)) [] = .toolong buf)
          ∧ ctx.ffsc_wc_path = some (pre ++ buf)
          ∧ pre <:+ path.takeWhile (· != 42)) := by
  unfold ff_init_split at h
  dsimp only at h
  have key : ∀ (sd fix : Str) (wc : Option Str) (msgs : List ff_msg),
      (ff_init_finish env
        { c with
          ffsc_stopdirs_v :=
            stopdirs.map (fun s => ff_stopdirs_split (s.dropWhile (· == 59)) []),
          ffsc_level := level } filename level sd fix wc msgs).ctx = some ctx →
      ctx.ffsc_fix_path = some fix ∧ ctx.ffsc_start_dir = some sd
        ∧ (ctx.ffsc_wc_path = wc
          ∨ ∃ w n, wc = some w ∧ ctx.ffsc_wc_path = some (fix.drop n ++ w)) :=
    fun sd fix wc msgs hh => ff_init_finish_parts env _ filename level sd fix wc msgs ctx hh
  have wcs : ∀ (fix : Str) (buf : Str),
      fix <:+ path.takeWhile (· != 42) →
      (ctx.ffsc_wc_path = some buf
          ∨ ∃ w n, some buf = some w ∧ ctx.ffsc_wc_path = some (fix.drop n ++ w)) →
      ∃ pre, ctx.ffsc_wc_path = some (pre ++ buf) ∧ pre <:+ path.takeWhile (· != 42) := by
    intro fix buf hfix hw
    rcases hw with hw | ⟨w, n, hw1, hw2⟩
    · exact ⟨[], hw, List.nil_suffix⟩
    · simp only [Option.some.injEq] at hw1
      rw [← hw1] at hw2
      exact ⟨fix.drop n, hw2, (List.drop_suffix n fix).trans hfix⟩
  by_cases hm : 42 ∈ path
  · rw [if_pos hm] at h
    cases hr : ff_wc_loop env ((path.dropWhile (· != 42)).length + 1)
        (path.dropWhile (· != 42)) [] with
    | invalid => rw [hr] at h; simp at h
    | toolong buf =>
      rw [hr] at h
      cases start_dir with
      | none =>
        obtain ⟨k1, k2, k3⟩ := key _ _ _ _ h
        refine ⟨Or.inr ⟨rfl, k2, k1⟩, fun hn => absurd hm hn, fun _ => ?_⟩
        obtain ⟨pre, hp1, hp2⟩ := wcs [] buf (List.nil_suffix) k3
        exact ⟨buf, pre, Or.inr rfl, hp1, hp2⟩
      | some sd =>
        obtain ⟨k1, k2, k3⟩ := key _ _ _ _ h
        refine ⟨Or.inl ⟨sd, rfl, k2, k1⟩, fun hn => absurd hm hn, fun _ => ?_⟩
        obtain ⟨pre, hp1, hp2⟩ := wcs _ buf (List.suffix_refl _) k3
        exact ⟨buf, pre, Or.inr rfl, hp1, hp2⟩
    | done buf =>
      rw [hr] at h
      cases start_dir with
      | none =>
        obtain ⟨k1, k2, k3⟩ := key _ _ _ _ h
        refine ⟨Or.inr ⟨rfl, k2, k1⟩, fun hn => absurd hm hn, fun _ => ?_⟩
        obtain ⟨pre, hp1, hp2⟩ := wcs [] buf (List.nil_suffix) k3
        exact ⟨buf, pre, Or.inl rfl, hp1, hp2⟩
      | some sd =>
        obtain ⟨k1, k2, k3⟩ := key _ _ _ _ h
        refine ⟨Or.inl ⟨sd, rfl, k2, k1⟩, fun hn => absurd hm hn, fun _ => ?_⟩
        obtain ⟨pre, hp1, hp2⟩ := wcs _ buf (List.suffix_refl _) k3
        exact ⟨buf, pre, Or.inl rfl, hp1, hp2⟩
  · rw [if_neg hm] at h
    have ht := takeWhile_ne_of_not_mem path 42 hm
    cases start_dir with
    | none =>
      obtain ⟨k1, k2, k3⟩ := key _ _ _ _ h
      refine ⟨Or.inr ⟨rfl, by rw [ht]; exact k2, k1⟩, fun _ => ?_, fun hn => absurd hn hm⟩
      rcases k3 with k3 | ⟨w, n, k3, _⟩
      · exact k3
      · simp at k3
    | some sd =>
      obtain ⟨k1, k2, k3⟩ := key _ _ _ _ h
      refine ⟨Or.inl ⟨sd, rfl, k2, by rw [ht]; exact k1⟩, fun _ => ?_, fun hn => absurd hn hm⟩
      rcases k3 with k3 | ⟨w, n, k3, _⟩
      · exact k3
      · simp at k3

/-- C21 (as amended).  After `vim_findfile_init` succeeds the stored fix part holds no `*`: the path (without a leading `./` that stands for the directory of the current file) is split at its first `*`; what is before goes to the fix part, or to the start directory with an empty fix part when the path is absolute, and the path from its first `*` on, compiled by the loop over the wildcard part, is the end of the stored wildcard part.  Without a `*` there is no wildcard part. -/
theorem vim_findfile_init_split_at_star (env : Env) (path filename : Str)
    (stopdirs : Option Str) (level : Int) (free_visited : Bool) (find_what : Int)
    (search_ctx_arg : Option ff_search_ctx_T) (tagfile : Bool) (rel_fname : Option Str)
    (ctx : ff_search_ctx_T)
    (h : (vim_findfile_init env path filename stopdirs level free_visited find_what
      search_ctx_arg tagfile rel_fname).ctx = some ctx) :
    ∃ (p fix : Str), (p = path ∨ p = path.drop 1 ∨ p = path.drop 2)
      ∧ ctx.ffsc_fix_path = some fix
      ∧ 42 ∉ fix
      ∧ (fix = p.takeWhile (· != 42)
          ∨ (fix = [] ∧ ctx.ffsc_start_dir = some (p.takeWhile (· != 42))))
      ∧ (42 ∉ p → ctx.ffsc_wc_path = none)
      ∧ (42 ∈ p → ∃ buf pre,
          (ff_wc_loop env ((p.dropWhile (· != 42)).length + 1)
              (p.dropWhile (· != 42)) [] = .done buf
            ∨ ff_wc_loop env ((p.dropWhile (· != 42)).length + 1)
              (p.dropWhile (· != 42)) [] = .toolong buf)
          ∧ ctx.ffsc_wc_path = some (pre ++ buf)
          ∧ pre <:+ p.takeWhile (· != 42)) := by
  have key : ∀ (c : ff_search_ctx_T) (p : Str) (sd : Option Str),
      (ff_init_split env c p filename stopdirs level sd).ctx = some ctx →
      ∃ fix : Str, ctx.ffsc_fix_path = some fix
      ∧ 42 ∉ fix
      ∧ (fix = p.takeWhile (· != 42)
          ∨ (fix = [] ∧ ctx.ffsc_start_dir = some (p.takeWhile (· != 42))))
      ∧ (42 ∉ p → ctx.ffsc_wc_path = none)
      ∧ (42 ∈ p → ∃ buf pre,
          (ff_wc_loop env ((p.dropWhile (· != 42)).length + 1)
              (p.dropWhile (· != 42)) [] = .done buf
            ∨ ff_wc_loop env ((p.dropWhile (· != 42)).length + 1)
              (p.dropWhile (· != 42)) [] = .toolong buf)
          ∧ ctx.ffsc_wc_path = some (pre ++ buf)
          ∧ pre <:+ p.takeWhile (· != 42)) := by
    intro c p sd hh
    obtain ⟨h1, h2, h3⟩ := ff_init_split_parts env c p filename stopdirs level sd ctx hh
    rcases h1 with ⟨s, _, _, hf⟩ | ⟨_, hs, hf⟩
    · exact ⟨_, hf, takeWhile_ne_not_mem p 42, Or.inl rfl, h2, h3⟩
    · exact ⟨_, hf, List.not_mem_nil _, Or.inr ⟨rfl, hs⟩, h2, h3⟩
  unfold vim_findfile_init at h
  dsimp only at h
  by_cases h1 : path.headD 0 = 46
      ∧ (env.vim_ispathsep (path.getD 1 0) ∨ path.getD 1 0 = 0)
      ∧ (!tagfile ∨ !env.cpo_dottag)
      ∧ rel_fname.isSome
  · rw [if_pos h1] at h
    cases hr : ff_init_rel_dir env (rel_fname.getD []) with
    | none => rw [hr] at h; simp at h
    | some sd =>
      rw [hr] at h
      by_cases h3 : (path.drop 1).headD 0 ≠ 0
      · rw [if_pos h3] at h
        obtain ⟨fix, k⟩ := key _ _ _ h
        exact ⟨_, fix, Or.inr (Or.inr rfl), k⟩
      · rw [if_neg h3] at h
        obtain ⟨fix, k⟩ := key _ _ _ h
        exact ⟨_, fix, Or.inr (Or.inl rfl), k⟩
  · rw [if_neg h1] at h
    by_cases h2 : path.headD 0 = 0 ∨ !env.vim_isAbsName path
    · rw [if_pos h2] at h
      cases hr : env.mch_dirname with
      | none => rw [hr] at h; simp at h
      | some sd =>
        rw [hr] at h
        obtain ⟨fix, k⟩ := key _ _ _ h
        exact ⟨_, fix, Or.inl rfl, k⟩
    · rw [if_neg h2] at h
      obtain ⟨fix, k⟩ := key _ _ _ h
      exact ⟨_, fix, Or.inl rfl, k⟩

theorem vim_findfile_init_split_at_star_witness :
    ∃ ctx : ff_search_ctx_T,
      (vim_findfile_init (tree_env tree_a 4096 []) (str "a/**2/b") (str "t") none 100 false
        FINDFILE_FILE none false none).ctx = some ctx
      ∧ ∃ (p fix : Str), (p = str "a/**2/b" ∨ p = (str "a/**2/b").drop 1
            ∨ p = (str "a/**2/b").drop 2)
        ∧ ctx.ffsc_fix_path = some fix
        ∧ 42 ∉ fix
        ∧ (fix = p.takeWhile (· != 42)
            ∨ (fix = [] ∧ ctx.ffsc_start_dir = some (p.takeWhile (· != 42))))
        ∧ (42 ∉ p → ctx.ffsc_wc_path = none)
        ∧ (42 ∈ p → ∃ buf pre,
            (ff_wc_loop (tree_env tree_a 4096 []) ((p.dropWhile (· != 42)).length + 1)
                (p.dropWhile (· != 42)) [] = .done buf
              ∨ ff_wc_loop (tree_env tree_a 4096 []) ((p.dropWhile (· != 42)).length + 1)
                (p.dropWhile (· != 42)) [] = .toolong buf)
            ∧ ctx.ffsc_wc_path = some (pre ++ buf)
            ∧ pre <:+ p.takeWhile (· != 42)) :=
  ⟨_, rfl, vim_findfile_init_split_at_star (tree_env tree_a 4096 []) (str "a/**2/b") (str "t")
    none 100 false FINDFILE_FILE none false none _ rfl⟩

/-- C21 (counterexample).  For the path `a?/*` `vim_findfile_init` succeeds and the stored fix part is `a?/`: the path is split at its first `*`, and a `?` before it stays in the fix part. -/
theorem vim_findfile_init_question_counterexample :
    ((vim_findfile_init (tree_env tree_a 4096 []) (str "a?/*") (str "t") none 100 false
        FINDFILE_FILE none false none).ctx.map
      (fun c => (c.ffsc_fix_path, c.ffsc_wc_path, decide (63 ∈ c.ffsc_fix_path.getD []))))
      = some (some (str "a?/"), some (str "/*"), true) := by
  decide

theorem ff_file_wanted_settings (env : Env) (c c' : ff_search_ctx_T) (p : Str)
    (h : ff_settings c = ff_settings c') : ff_file_wanted env c p = ff_file_wanted env c' p := by
  simp only [ff_settings, Prod.mk.injEq] at h
  unfold ff_file_wanted
  rw [h.2.2.2.2.2.2.2.1]

/-- A name a turn of the downward loop returns is the found name of a
candidate that passed the test "exists and has the wanted kind". -/
theorem ff_step_frame_wanted (env : Env) (c : ff_search_ctx_T) (stackp : ff_stack_T) :
    match ff_step_frame env c stackp with
    | .found p _ => ∃ cand, p = ff_found_name env cand ∧ ff_file_wanted env c cand = true
    | _ => True := by
  unfold ff_step_frame
  by_cases hl : stackp.ffs_level ≤ 0
  · rw [if_pos hl]; trivial
  · rw [if_neg hl]
    dsimp only
    generalize (if stackp.ffs_filearray.isNone = true then ff_expand env c stackp
      else (stackp, [])) = ex
    by_cases hs : ex.1.ffs_stage = 0
    · rw [if_pos hs]
      by_cases hr : ex.2.headD 0 = 0
      · rw [if_pos hr]
        have := ff_scan_entries_spec env c
          ((ex.1.ffs_filearray.getD []).drop ex.1.ffs_filearray_cur) ex.1.ffs_filearray_cur
          ((hdr_deref c.ffsc_visited_lists_list c.ffsc_visited_list).map
            (·.ffvl_visited_list))
        revert this
        cases ff_scan_entries env c
          ((ex.1.ffs_filearray.getD []).drop ex.1.ffs_filearray_cur) ex.1.ffs_filearray_cur
          ((hdr_deref c.ffsc_visited_lists_list c.ffsc_visited_list).map
            (·.ffvl_visited_list)) with
        | fault => intro _; trivial
        | hit i p l' =>
          rintro ⟨h1, _⟩
          exact ⟨p, rfl, h1⟩
        | miss vl =>
          intro hm
          clear hm
          dsimp only
          obtain ⟨c', h1, _⟩ := ff_step_finish_settings env
            { c with
              ffsc_visited_lists_list :=
                match vl with
                | none => c.ffsc_visited_lists_list
                | some l => hdr_store c.ffsc_visited_lists_list c.ffsc_visited_list l }
            { ex.1 with ffs_filearray_cur := 0, ffs_stage := 1 }
          rw [h1]
          trivial
      · rw [if_neg hr]
        obtain ⟨c', h1, _⟩ := ff_step_finish_settings env
          (ff_push_children env ex.2 ex.1.ffs_level
            ((ex.1.ffs_filearray.getD []).drop ex.1.ffs_filearray_cur) c)
          { ex.1 with ffs_filearray_cur := 0, ffs_stage := 1 }
        rw [h1]
        trivial
    · rw [if_neg hs]
      obtain ⟨c', h1, _⟩ := ff_step_finish_settings env c ex.1
      rw [h1]
      trivial

theorem ff_step_popped_wanted (env : Env) (c : ff_search_ctx_T) (stackp : ff_stack_T) :
    match ff_step_popped env c stackp with
    | .found p _ => ∃ cand, p = ff_found_name env cand ∧ ff_file_wanted env c cand = true
    | _ => True := by
  unfold ff_step_popped
  split_ifs with h1
  · cases hdr_deref c.ffsc_dir_visited_lists_list c.ffsc_dir_visited_list with
    | none => trivial
    | some h =>
      dsimp only
      split_ifs
      · trivial
      · have := ff_step_frame_wanted env
          { c with
            ffsc_dir_visited_lists_list :=
              hdr_store c.ffsc_dir_visited_lists_list c.ffsc_dir_visited_list
                (ff_check_visited env h.ffvl_visited_list stackp.ffs_fix_path
                  (some stackp.ffs_wc_path)).2 } stackp
        revert this
        cases ff_step_frame env _ stackp with
        | again c' => exact id
        | found p c' => exact id
        | fault => exact id
  · exact ff_step_frame_wanted env c stackp

theorem ff_search_loop_wanted (env : Env) (poll : Nat → Bool) :
    ∀ (fuel k : Nat) (c : ff_search_ctx_T) (path_end : Int) (p : Str)
      (c' : ff_search_ctx_T),
      ff_search_loop env poll fuel k c path_end = .done (some p) c' →
      ∃ cand, p = ff_found_name env cand ∧ ff_file_wanted env c cand = true := by
  intro fuel
  induction fuel with
  | zero => intro k c pe p c' h; simp [ff_search_loop] at h
  | succ f ih =>
    intro k c pe p c' h
    rw [ff_search_loop] at h
    by_cases hp : poll k = true
    · rw [if_pos hp] at h
      simp at h
    · rw [if_neg hp] at h
      have hpop := ff_pop_settings c
      revert h hpop
      cases ff_pop c with
      | mk top c1 =>
        intro h hpop
        simp only at hpop
        cases top with
        | none =>
          dsimp only at h
          have hup := ff_upward_settings env c1 pe
          revert h hup
          cases ff_upward env c1 pe with
          | stop c2 =>
            intro h hup
            simp at h
          | seed c2 pe2 =>
            intro h hup
            obtain ⟨cand, h1, h2⟩ := ih _ _ _ _ _ h
            have hfw := ff_file_wanted_settings env c c2 cand (hup.trans hpop).symm
            exact ⟨cand, h1, hfw.trans h2⟩
        | some stackp =>
          dsimp only at h
          have hst := ff_step_popped_settings env c1 stackp
          have hw := ff_step_popped_wanted env c1 stackp
          revert h hst hw
          cases ff_step_popped env c1 stackp with
          | fault => intro h; simp at h
          | found q c2 =>
            intro h hst hw
            simp only [ff_result.done.injEq, Option.some.injEq] at h
            obtain ⟨cand, h1, h2⟩ := hw
            have hfw := ff_file_wanted_settings env c c1 cand hpop.symm
            exact ⟨cand, by rw [← h.1]; exact h1, hfw.trans h2⟩
          | again c2 =>
            intro h hst hw
            obtain ⟨cand, h1, h2⟩ := ih _ _ _ _ _ h
            have hfw := ff_file_wanted_settings env c c2 cand (hst.trans hpop).symm
            exact ⟨cand, h1, hfw.trans h2⟩

/-- C22.  Every name `vim_findfile` returns is the found name of a candidate that is a URL, or that existed (`mch_getperm` did not fail) and had the kind asked for: any kind with FINDFILE_BOTH, a directory with FINDFILE_DIR, not a directory otherwise.  A candidate that is a URL passes the test whatever `mch_getperm` and `mch_isdir` say. -/
theorem vim_findfile_match_wanted (env : Env) (poll : Nat → Bool) (fuel : Nat)
    (c c' : ff_search_ctx_T) (p : Str)
    (h : vim_findfile env poll fuel c = .done (some p) c') :
    (∃ cand, p = ff_found_name env cand
        ∧ (env.path_with_url cand = true
          ∨ (env.mch_getperm cand ≥ 0
            ∧ (c.ffsc_find_what = FINDFILE_BOTH
              ∨ (c.ffsc_find_what = FINDFILE_DIR ∧ env.mch_isdir cand = true)
              ∨ (c.ffsc_find_what ≠ FINDFILE_DIR ∧ env.mch_isdir cand = false)))))
      ∧ ∀ (env2 : Env) (c2 : ff_search_ctx_T) (cand : Str),
          env2.path_with_url cand = true → ff_file_wanted env2 c2 cand = true := by
  constructor
  · obtain ⟨cand, h1, h2⟩ := ff_search_loop_wanted env poll fuel 0 c _ p c' h
    refine ⟨cand, h1, ?_⟩
    unfold ff_file_wanted at h2
    by_cases hu : env.path_with_url cand = true
    · exact Or.inl hu
    · right
      simp only [hu, Bool.false_or, Bool.and_eq_true, decide_eq_true_eq, Bool.or_eq_true,
        beq_iff_eq] at h2
      refine ⟨h2.1, ?_⟩
      rcases h2.2 with h3 | h3
      · exact Or.inl h3
      · right
        by_cases hd : c.ffsc_find_what = FINDFILE_DIR
        · left
          refine ⟨hd, ?_⟩
          rw [← h3]
          simp [hd]
        · right
          refine ⟨hd, ?_⟩
          rw [← h3]
          simp [hd]
  · intro env2 c2 cand hu
    unfold ff_file_wanted
    rw [hu]
    rfl

theorem vim_findfile_match_wanted_witness :
    ∃ (c' : ff_search_ctx_T) (p : Str),
      vim_findfile (tree_env tree_r 4096 []) no_interrupt 5
        ((vim_findfile_init (tree_env tree_r 4096 []) (str "/r/*") (str "tags") none 2 false
          FINDFILE_FILE none false none).ctx.getD ff_ctx_zero) = .done (some p) c'
      ∧ ∃ cand, p = ff_found_name (tree_env tree_r 4096 []) cand
        ∧ ((tree_env tree_r 4096 []).path_with_url cand = true
          ∨ ((tree_env tree_r 4096 []).mch_getperm cand ≥ 0
            ∧ (FINDFILE_FILE = FINDFILE_BOTH
              ∨ (FINDFILE_FILE = FINDFILE_DIR
                ∧ (tree_env tree_r 4096 []).mch_isdir cand = true)
              ∨ (FINDFILE_FILE ≠ FINDFILE_DIR
                ∧ (tree_env tree_r 4096 []).mch_isdir cand = false)))) :=
  ⟨_, _, rfl,
    (vim_findfile_match_wanted (tree_env tree_r 4096 []) no_interrupt 5
      ((vim_findfile_init (tree_env tree_r 4096 []) (str "/r/*") (str "tags") none 2 false
        FINDFILE_FILE none false none).ctx.getD ff_ctx_zero) _ _ rfl).1⟩

/-- The loop over the suffixes returns the first candidate that passes the
test "exists and has the wanted kind" and that `ff_check_visited` accepts. -/
theorem ff_try_suffixes_first (env : Env) (c : ff_search_ctx_T) (i : Nat)
    (cand : Str) (post : List Str) (l : List ff_visited_T) :
    ∀ pre : List Str,
      (∀ x ∈ pre, (ff_file_wanted env c x && (ff_check_visited env l x (some [])).1) = false) →
      ff_file_wanted env c cand = true →
      (ff_check_visited env l cand (some [])).1 = true →
      ff_try_suffixes env c i (pre ++ cand :: post) (some l)
        = .hit i cand (ff_check_visited env l cand (some [])).2 := by
  intro pre
  induction pre with
  | nil =>
    intro _ hw hc
    rw [List.nil_append, ff_try_suffixes_cons, if_pos hw]
    dsimp only
    rw [if_pos hc]
  | cons x more ih =>
    intro hpre hw hc
    rw [List.cons_append, ff_try_suffixes_cons]
    have hx := hpre x (List.mem_cons_self _ _)
    have hmore : ∀ y ∈ more,
        (ff_file_wanted env c y && (ff_check_visited env l y (some [])).1) = false :=
      fun y hy => hpre y (List.mem_cons_of_mem _ hy)
    by_cases hwx : ff_file_wanted env c x = true
    · rw [if_pos hwx]
      dsimp only
      rw [hwx, Bool.true_and] at hx
      rw [if_neg (by rw [hx]; simp), ff_check_visited_fail env l x (some []) hx]
      exact ih hmore hw hc
    · rw [if_neg hwx]
      exact ih hmore hw hc

/-- The loop over the suffixes finds nothing when no candidate passes. -/
theorem ff_try_suffixes_none (env : Env) (c : ff_search_ctx_T) (i : Nat)
    (l : List ff_visited_T) :
    ∀ cands : List Str,
      (∀ x ∈ cands,
        (ff_file_wanted env c x && (ff_check_visited env l x (some [])).1) = false) →
      ff_try_suffixes env c i cands (some l) = .miss (some l) := by
  intro cands
  induction cands with
  | nil => intro _; rfl
  | cons x more ih =>
    intro hpre
    rw [ff_try_suffixes_cons]
    have hx := hpre x (List.mem_cons_self _ _)
    have hmore : ∀ y ∈ more,
        (ff_file_wanted env c y && (ff_check_visited env l y (some [])).1) = false :=
      fun y hy => hpre y (List.mem_cons_of_mem _ hy)
    by_cases hwx : ff_file_wanted env c x = true
    · rw [if_pos hwx]
      dsimp only
      rw [hwx, Bool.true_and] at hx
      rw [if_neg (by rw [hx]; simp), ff_check_visited_fail env l x (some []) hx]
      exact ih hmore
    · rw [if_neg hwx]
      exact ih hmore

/-- C30.  In a frame without wildcards left, for an entry of the file array that is a directory: when searching for a tags file one name is tried, the entry with the file name; otherwise the names tried are the entry with the file name, then that name with each suffix of 'suffixesadd', in the order of the option; and the turn returns the found name of the first of them that exists with the wanted kind and that `ff_check_visited` accepts as not visited, leaving the frame on the stack with its cursor after the entry. -/
theorem vim_findfile_first_candidate (env : Env) (c : ff_search_ctx_T) (stackp : ff_stack_T)
    (arr : List Str) (entry cand : Str) (more pre post : List Str) (l : List ff_visited_T)
    (hlevel : 0 < stackp.ffs_level)
    (harr : stackp.ffs_filearray = some arr)
    (hstage : stackp.ffs_stage = 0)
    (hcur : arr.drop stackp.ffs_filearray_cur = entry :: more)
    (hentry : env.path_with_url entry = true ∨ env.mch_isdir entry = true)
    (hreg : ff_file_registry c = some l)
    (hcands : ff_candidates env c entry = pre ++ cand :: post)
    (hpre : ∀ x ∈ pre,
      (ff_file_wanted env c x && (ff_check_visited env l x (some [])).1) = false)
    (hwanted : ff_file_wanted env c cand = true)
    (hfresh : (ff_check_visited env l cand (some [])).1 = true) :
    (c.ffsc_tagfile = true →
        ff_candidates env c entry = [env.add_pathsep entry ++ c.ffsc_file_to_search.getD []])
      ∧ (c.ffsc_tagfile = false →
        ff_candidates env c entry =
          (env.add_pathsep entry ++ c.ffsc_file_to_search.getD []) ::
            (if env.b_p_sua.headD 0 = 0 then []
              else env.copy_option_parts env.b_p_sua
                ((env.MAXPATHL : Int)
                  - (env.add_pathsep entry ++ c.ffsc_file_to_search.getD []).length)).map
              (fun suf => env.add_pathsep entry ++ c.ffsc_file_to_search.getD [] ++ suf))
      ∧ ff_step_frame env c stackp =
        .found (ff_found_name env cand)
          (ff_push
            { c with
              ffsc_visited_lists_list :=
                hdr_store c.ffsc_visited_lists_list c.ffsc_visited_list
                  (ff_check_visited env l cand (some [])).2 }
            { stackp with ffs_filearray_cur := (stackp.ffs_filearray_cur + 1) % 256 }) := by
  refine ⟨?_, ?_, ?_⟩
  · intro ht
    unfold ff_candidates
    simp [ht]
  · intro ht
    unfold ff_candidates
    simp only [ht, Bool.false_eq_true, false_or]
  · have hscan : ff_scan_entries env c (entry :: more) stackp.ffs_filearray_cur (some l)
        = .hit stackp.ffs_filearray_cur cand (ff_check_visited env l cand (some [])).2 := by
      rw [ff_scan_entries_cons]
      have hne : (!env.path_with_url entry && !env.mch_isdir entry) = false := by
        rcases hentry with h | h <;> simp [h]
      rw [hne, hcands, ff_try_suffixes_first env c _ cand post l pre hpre hwanted hfresh]
      rfl
    unfold ff_step_frame
    rw [if_neg (not_le.mpr hlevel)]
    have hex : (if stackp.ffs_filearray.isNone = true then ff_expand env c stackp
        else (stackp, [])) = (stackp, []) := by
      rw [harr]
      rfl
    rw [hex]
    dsimp only
    rw [if_pos hstage, if_pos (by rfl : ([] : Str).headD 0 = 0), harr]
    unfold ff_file_registry at hreg
    rw [Option.getD_some, hcur, hreg, hscan]

theorem vim_findfile_first_candidate_witness :
    ff_step_frame (tree_env tree_r 4096 (str "s"))
        (star_state (str "/r/") (str "tag") 2 FINDFILE_FILE false []
          (star_registry (tree_env tree_r 4096 (str "s")) (str "tag") [] 0) [])
        (star_frame (str "/r/") [str "/r/x/", str "/r/y/"] 2 0)
      = .found (ff_found_name (tree_env tree_r 4096 (str "s")) (str "/r/x/tags"))
          (ff_push
            { star_state (str "/r/") (str "tag") 2 FINDFILE_FILE false []
                (star_registry (tree_env tree_r 4096 (str "s")) (str "tag") [] 0) [] with
              ffsc_visited_lists_list :=
                hdr_store
                  (star_state (str "/r/") (str "tag") 2 FINDFILE_FILE false []
                    (star_registry (tree_env tree_r 4096 (str "s")) (str "tag") [] 0)
                    []).ffsc_visited_lists_list
                  (star_state (str "/r/") (str "tag") 2 FINDFILE_FILE false []
                    (star_registry (tree_env tree_r 4096 (str "s")) (str "tag") [] 0)
                    []).ffsc_visited_list
                  (ff_check_visited (tree_env tree_r 4096 (str "s")) [] (str "/r/x/tags")
                    (some [])).2 }
            { star_frame (str "/r/") [str "/r/x/", str "/r/y/"] 2 0 with
              ffs_filearray_cur :=
                ((star_frame (str "/r/") [str "/r/x/", str "/r/y/"] 2 0).ffs_filearray_cur
                  + 1) % 256 }) :=
  (vim_findfile_first_candidate (tree_env tree_r 4096 (str "s"))
    (star_state (str "/r/") (str "tag") 2 FINDFILE_FILE false []
      (star_registry (tree_env tree_r 4096 (str "s")) (str "tag") [] 0) [])
    (star_frame (str "/r/") [str "/r/x/", str "/r/y/"] 2 0)
    [str "/r/x/", str "/r/y/"] (str "/r/x/") (str "/r/x/tags") [str "/r/y/"]
    [str "/r/x/tag"] [] [] (by decide) rfl rfl rfl (Or.inr (by decide)) rfl rfl
    (by decide) (by decide) (by decide)).2.2

/-- The loop of `vim_findfile_stopdir` has come to its end when it has as
many turns as the string has characters from `r_ptr` on, and one more. -/
theorem vim_findfile_stopdir_loop_ends :
    ∀ (fuel : Nat) (buf : Str) (r_ptr : Nat), buf.length < fuel + r_ptr →
      ¬ ((vim_findfile_stopdir_loop fuel buf r_ptr).1.getD
            (vim_findfile_stopdir_loop fuel buf r_ptr).2 0 ≠ 0
          ∧ (vim_findfile_stopdir_loop fuel buf r_ptr).1.getD
            (vim_findfile_stopdir_loop fuel buf r_ptr).2 0 ≠ 59) := by
  intro fuel
  induction fuel with
  | zero =>
    intro buf r h
    have hd : buf.getD r 0 = 0 := List.getD_eq_default _ _ (by omega)
    simp only [vim_findfile_stopdir_loop, hd]
    simp
  | succ f ih =>
    intro buf r h
    rw [vim_findfile_stopdir_loop]
    by_cases h1 : buf.getD r 0 ≠ 0 ∧ buf.getD r 0 ≠ 59
    · rw [if_pos h1]
      have hr : r < buf.length := by
        by_contra hn
        rw [List.getD_eq_default _ _ (by omega)] at h1
        exact h1.1 rfl
      by_cases h2 : buf.getD r 0 = 92 ∧ buf.getD (r + 1) 0 = 59
      · rw [if_pos h2]
        apply ih
        rw [List.length_eraseIdx]
        simp only [hr, if_true]
        omega
      · rw [if_neg h2]
        apply ih
        omega
    · rw [if_neg h1]
      exact h1

/-- C24 (the code at the failing input).  For `a\;;b` the first `;` that is not escaped is the second one, so `buf` should become `a;` and the result `b`; `vim_findfile_stopdir` steps over the character after an escaped `;` without looking at it, leaves `a;;b` in `buf` and returns NULL.  For `a\;b;c` it gives `a;b` and `c`. -/
theorem vim_findfile_stopdir_skips_after_escape :
    vim_findfile_stopdir (str "a\\;;b") = (str "a;;b", none)
    ∧ vim_findfile_stopdir (str "\\;\\;") = (str ";\\", some [])
    ∧ vim_findfile_stopdir (str "a\\;b;c") = (str "a;b", some (str "c"))
    ∧ vim_findfile_stopdir (str "a;b;c") = (str "a", some (str "b;c"))
    ∧ vim_findfile_stopdir (str "ab") = (str "ab", none) := by
  decide

theorem ff_visited_find_env (env env' : Env) (h1 : env'.p_fic = env.p_fic)
    (h2 : env'.mb_tolower = env.mb_tolower) (h3 : env'.fnamecmp = env.fnamecmp)
    (url : Bool) (st : Nat × Nat) (buf : Str) (wc : Option Str) :
    ∀ l : List ff_visited_T,
      ff_visited_find env' url st buf wc l = ff_visited_find env url st buf wc l := by
  intro l
  induction l with
  | nil => rfl
  | cons vp rest ih =>
    rw [ff_visited_find, ff_visited_find, ih, h3, ff_wc_equal_env env env' h1 h2]

/-- The result of `ff_check_visited` depends on the environment through
`path_with_url`, `mch_stat`, `fnamecmp`, `MAXPATHL` and 'fileignorecase'
only. -/
theorem ff_check_visited_env (env env' : Env) (h1 : env'.p_fic = env.p_fic)
    (h2 : env'.mb_tolower = env.mb_tolower) (h3 : env'.fnamecmp = env.fnamecmp)
    (h4 : env'.path_with_url = env.path_with_url) (h5 : env'.mch_stat = env.mch_stat)
    (h6 : env'.MAXPATHL = env.MAXPATHL)
    (l : List ff_visited_T) (fname : Str) (wc : Option Str) :
    ff_check_visited env' l fname wc = ff_check_visited env l fname wc := by
  unfold ff_check_visited
  simp only [h4, h5, h6, ff_visited_find_env env env' h1 h2 h3]

theorem list_modify_self {α : Type} (f : α → α) :
    ∀ (l : List α) (i : Nat), (∀ x, l[i]? = some x → f x = x) → l.modify f i = l := by
  intro l
  induction l with
  | nil => intro i _; cases i <;> rfl
  | cons a l ih =>
    intro i h
    cases i with
    | zero =>
      have := h a (by simp)
      simp [List.modify, this]
    | succ n =>
      have := ih n (fun x hx => h x (by simpa using hx))
      show a :: List.modify f n l = a :: l
      rw [this]

theorem hdr_store_self (l : List ff_visited_list_hdr_T) (p : Option Nat)
    (h : ff_visited_list_hdr_T) (hd : hdr_deref l p = some h) :
    hdr_store l p h.ffvl_visited_list = l := by
  cases p with
  | none => rfl
  | some a =>
    unfold hdr_deref at hd
    unfold hdr_store
    dsimp only at hd ⊢
    by_cases ha : a < l.length
    · rw [if_pos ha] at hd
      rw [if_pos ha]
      apply list_modify_self
      intro x hx
      rw [hd] at hx
      simp only [Option.some.injEq] at hx
      rw [← hx]
    · rw [if_neg ha] at hd
      simp at hd

/-- C25.  A frame popped without a file array, whose directory has its identity in the visited list for directories with a wildcard string equal in shape, is given up at once: the turn ends with the context as it was, no frame pushed, whatever `expand_wildcards` is (it is not called).  A frame popped with its file array is not checked against the visited list for directories: its turn is the one from "check depth" on. -/
theorem ff_step_popped_visited_dir (env : Env) (c : ff_search_ctx_T) (stackp : ff_stack_T)
    (hdr : ff_visited_list_hdr_T) (id : ff_identity)
    (hnone : stackp.ffs_filearray = none)
    (hreg : hdr_deref c.ffsc_dir_visited_lists_list c.ffsc_dir_visited_list = some hdr)
    (hid : ff_identity_of env stackp.ffs_fix_path = some id)
    (hvis : hdr.ffvl_visited_list.any (ff_same_visit env id (some stackp.ffs_wc_path)) = true) :
    (∀ g : List Str → List Str,
        ff_step_popped { env with expand_wildcards := g } c stackp = .again c)
      ∧ ∀ (env2 : Env) (c2 : ff_search_ctx_T) (stackp2 : ff_stack_T),
          stackp2.ffs_filearray.isSome = true →
          ff_step_popped env2 c2 stackp2 = ff_step_frame env2 c2 stackp2 := by
  constructor
  · intro g
    have hcv : ff_check_visited { env with expand_wildcards := g } hdr.ffvl_visited_list
        stackp.ffs_fix_path (some stackp.ffs_wc_path) = (false, hdr.ffvl_visited_list) := by
      rw [ff_check_visited_env env { env with expand_wildcards := g } rfl rfl rfl rfl rfl rfl,
        ff_check_visited_eq env _ _ _ id hid, if_pos hvis]
    unfold ff_step_popped
    rw [hnone]
    simp only [Option.isNone_none, if_true, hreg, hcv, Bool.not_false]
    rw [hdr_store_self _ _ _ hreg]
  · intro env2 c2 stackp2 hs
    unfold ff_step_popped
    rw [if_neg]
    cases hf : stackp2.ffs_filearray with
    | none => rw [hf] at hs; simp at hs
    | some a => simp

theorem ff_step_popped_visited_dir_witness :
    ff_step_popped { tree_env tree_r 4096 [] with expand_wildcards := fun _ => [str "/r/x/"] }
        (star_state (str "/r/") (str "tags") 2 FINDFILE_FILE false [] []
          [ff_entry_for (.inode 1 2) (some [STAR])])
        (ff_create_stack_element (some (str "/r/")) (some [STAR]) 2 0)
      = .again
        (star_state (str "/r/") (str "tags") 2 FINDFILE_FILE false [] []
          [ff_entry_for (.inode 1 2) (some [STAR])]) :=
  (ff_step_popped_visited_dir (tree_env tree_r 4096 [])
    (star_state (str "/r/") (str "tags") 2 FINDFILE_FILE false [] []
      [ff_entry_for (.inode 1 2) (some [STAR])])
    (ff_create_stack_element (some (str "/r/")) (some [STAR]) 2 0)
    { ffvl_filename := str "tags",
      ffvl_visited_list := [ff_entry_for (.inode 1 2) (some [STAR])] }
    (.inode 1 2) rfl rfl (by decide) (by decide)).1 (fun _ => [str "/r/x/"])

/-- C26.  When `vim_findfile` expands a frame without file array whose wildcards start with `**` and a counter byte `cnt > 0`: a `*` is appended to the pattern to expand, followed by the wildcards after the token up to the next path separator; the frame keeps the token with the counter `cnt - 1`, or loses the three bytes of the token when `cnt - 1` is 0; the fix part of the frame is handed to `expand_wildcards` as a second pattern exactly when the flag `ffs_star_star_empty` was 0, and the flag is 1 afterwards. -/
theorem ff_expand_star_star (env : Env) (c : ff_search_ctx_T) (stackp : ff_stack_T)
    (cnt : Nat) (tail : Str)
    (hwc : stackp.ffs_wc_path = STAR :: STAR :: cnt :: tail)
    (hcnt : 0 < cnt)
    (hflag : stackp.ffs_star_star_empty = 0 ∨ stackp.ffs_star_star_empty = 1) :
    (ff_expand env c stackp).1.ffs_wc_path
        = (if cnt - 1 = 0 then tail else STAR :: STAR :: (cnt - 1) :: tail)
      ∧ (ff_expand env c stackp).1.ffs_star_star_empty = 1
      ∧ (ff_expand env c stackp).1.ffs_filearray
        = some
          (if env.path_with_url
              (env.add_pathsep
                  ((if !env.vim_isAbsName stackp.ffs_fix_path ∧ c.ffsc_start_dir.isSome then
                      env.add_pathsep (c.ffsc_start_dir.getD [])
                    else []) ++ stackp.ffs_fix_path)
                ++ [STAR] ++ tail.takeWhile (fun ch => ch != 0 && !env.vim_ispathsep ch)) then
            [env.add_pathsep
                ((if !env.vim_isAbsName stackp.ffs_fix_path ∧ c.ffsc_start_dir.isSome then
                    env.add_pathsep (c.ffsc_start_dir.getD [])
                  else []) ++ stackp.ffs_fix_path)
              ++ [STAR] ++ tail.takeWhile (fun ch => ch != 0 && !env.vim_ispathsep ch)]
          else
            env.expand_wildcards
              ((env.add_pathsep
                  ((if !env.vim_isAbsName stackp.ffs_fix_path ∧ c.ffsc_start_dir.isSome then
                      env.add_pathsep (c.ffsc_start_dir.getD [])
                    else []) ++ stackp.ffs_fix_path)
                ++ [STAR] ++ tail.takeWhile (fun ch => ch != 0 && !env.vim_ispathsep ch))
                :: (if stackp.ffs_star_star_empty = 0 then [stackp.ffs_fix_path] else [])))
      ∧ (ff_expand env c stackp).2
        = (if env.vim_ispathsep
              ((tail.dropWhile (fun ch => ch != 0 && !env.vim_ispathsep ch)).headD 0) then
            (tail.dropWhile (fun ch => ch != 0 && !env.vim_ispathsep ch)).drop 1
          else tail.dropWhile (fun ch => ch != 0 && !env.vim_ispathsep ch))
      ∧ (ff_expand env c stackp).1.ffs_level = stackp.ffs_level
      ∧ (ff_expand env c stackp).1.ffs_fix_path = stackp.ffs_fix_path := by
  have hs : starts_star_star (STAR :: STAR :: cnt :: tail) = true := by
    simp [starts_star_star, STAR]
  have hh : (STAR :: STAR :: cnt :: tail).headD 0 ≠ 0 := by simp [STAR]
  have hp : (STAR :: STAR :: cnt :: tail).getD 2 0 = cnt := rfl
  have hc0 : cnt ≠ 0 := by omega
  refine ⟨?_, ?_, ?_, ?_, ?_, ?_⟩
  · unfold ff_expand
    simp only [hwc, hs, hh, hp, hcnt, hc0, ne_eq, not_false_eq_true, if_true, true_and,
      List.drop_succ_cons, List.drop_zero, if_false]
    split_ifs <;> simp_all [List.set]
  · unfold ff_expand
    simp only [hwc, hs, hh, hp, hcnt, hc0, ne_eq, not_false_eq_true, if_true, true_and,
      List.drop_succ_cons, List.drop_zero, if_false]
    rcases hflag with h | h <;> simp [h]
  · unfold ff_expand
    simp only [hwc, hs, hh, hp, hcnt, hc0, ne_eq, not_false_eq_true, if_true, true_and,
      List.drop_succ_cons, List.drop_zero, if_false]
    rcases hflag with h | h <;> simp [h]
  · unfold ff_expand
    simp only [hwc, hs, hh, hp, hcnt, hc0, ne_eq, not_false_eq_true, if_true, true_and,
      List.drop_succ_cons, List.drop_zero, if_false]
  · exact ff_expand_level env c stackp
  · unfold ff_expand
    simp only [hwc, hs, hh, hp, hcnt, hc0, ne_eq, not_false_eq_true, if_true, true_and,
      List.drop_succ_cons, List.drop_zero, if_false]

theorem ff_expand_star_star_witness :
    (ff_expand (tree_env tree_a 4096 [])
        (star_state (str "/cwd") (str "t") 100 FINDFILE_FILE false [] [] [])
        (ff_create_stack_element (some (str "/cwd/a/")) (some (STAR :: STAR :: 2 :: str "/b"))
          100 0)).1.ffs_wc_path
      = (if 2 - 1 = 0 then str "/b" else STAR :: STAR :: (2 - 1) :: str "/b") :=
  (ff_expand_star_star (tree_env tree_a 4096 [])
    (star_state (str "/cwd") (str "t") 100 FINDFILE_FILE false [] [] [])
    (ff_create_stack_element (some (str "/cwd/a/")) (some (STAR :: STAR :: 2 :: str "/b"))
      100 0)
    2 (str "/b") rfl (by decide) (Or.inl rfl)).1

/-- The frames `ff_push_star_star` pushes, the last entry on top. -/
theorem ff_push_star_star_eq (env : Env) (stackp : ff_stack_T) :
    ∀ (entries : List Str) (c : ff_search_ctx_T),
      ff_push_star_star env stackp entries c =
        { c with
          ffsc_stack_ptr :=
            ((entries.filter
              (fun e => !(env.fnamecmp e stackp.ffs_fix_path == 0) && env.mch_isdir e)).map
              (fun e => ff_create_stack_element (some e) (some stackp.ffs_wc_path)
                (stackp.ffs_level - 1) 1)).reverse ++ c.ffsc_stack_ptr } := by
  intro entries
  induction entries with
  | nil => intro c; rfl
  | cons e more ih =>
    intro c
    rw [ff_push_star_star]
    by_cases h1 : (env.fnamecmp e stackp.ffs_fix_path == 0) = true
    · rw [if_pos h1, ih, List.filter_cons_of_neg (by simp [h1])]
    · rw [if_neg h1]
      by_cases h2 : env.mch_isdir e = true
      · rw [if_neg (by simp [h2]), ih, List.filter_cons_of_pos (by simp [h1, h2])]
        simp [ff_push]
      · rw [if_pos (by simp [h2]), ih, List.filter_cons_of_neg (by simp [h2])]

/-- C27.  At the end of a turn on a frame whose wildcards still start with `**`, `vim_findfile` pushes one frame for every entry of the file array, from the cursor on and in the order of the array, that is a directory and that `fnamecmp` finds different from the fix part of the frame: the entry as fix part, the wildcards of the frame as they are now, the level of the frame less one, the flag `ffs_star_star_empty` 1 and no file array.  No frame is pushed for an entry that is the directory of the frame itself. -/
theorem ff_step_finish_star_star (env : Env) (c : ff_search_ctx_T) (stackp : ff_stack_T)
    (h : starts_star_star stackp.ffs_wc_path = true) :
    ff_step_finish env c stackp =
      .again
        { c with
          ffsc_stack_ptr :=
            ((((stackp.ffs_filearray.getD []).drop stackp.ffs_filearray_cur).filter
              (fun e => !(env.fnamecmp e stackp.ffs_fix_path == 0) && env.mch_isdir e)).map
              (fun e =>
                ({ ffs_fix_path := e, ffs_wc_path := stackp.ffs_wc_path,
                   ffs_filearray := none, ffs_filearray_cur := 0, ffs_stage := 0,
                   ffs_level := stackp.ffs_level - 1,
                   ffs_star_star_empty := 1 } : ff_stack_T))).reverse
              ++ c.ffsc_stack_ptr } := by
  unfold ff_step_finish
  rw [if_pos h, ff_push_star_star_eq]
  rfl

theorem ff_step_finish_star_star_witness :
    ff_step_finish (tree_env tree_a 4096 [])
        (star_state (str "/cwd") (str "t") 100 FINDFILE_FILE false [] [] [])
        { ffs_fix_path := str "/cwd/a/", ffs_wc_path := STAR :: STAR :: 1 :: str "/b",
          ffs_filearray := some [str "/cwd/a/", str "/cwd/a/b/", str "/cwd/a/x/"],
          ffs_filearray_cur := 0, ffs_stage := 1, ffs_level := 100,
          ffs_star_star_empty := 1 }
      = .again
        (star_state (str "/cwd") (str "t") 100 FINDFILE_FILE false
          [{ ffs_fix_path := str "/cwd/a/x/", ffs_wc_path := STAR :: STAR :: 1 :: str "/b",
             ffs_filearray := none, ffs_filearray_cur := 0, ffs_stage := 0, ffs_level := 99,
             ffs_star_star_empty := 1 },
           { ffs_fix_path := str "/cwd/a/b/", ffs_wc_path := STAR :: STAR :: 1 :: str "/b",
             ffs_filearray := none, ffs_filearray_cur := 0, ffs_stage := 0, ffs_level := 99,
             ffs_star_star_empty := 1 }] [] []) :=
  ff_step_finish_star_star (tree_env tree_a 4096 [])
    (star_state (str "/cwd") (str "t") 100 FINDFILE_FILE false [] [] [])
    { ffs_fix_path := str "/cwd/a/", ffs_wc_path := STAR :: STAR :: 1 :: str "/b",
      ffs_filearray := some [str "/cwd/a/", str "/cwd/a/b/", str "/cwd/a/x/"],
      ffs_filearray_cur := 0, ffs_stage := 1, ffs_level := 100,
      ffs_star_star_empty := 1 } rfl

/-- C34.  For a name that is not a URL and for which `mch_stat` fails, `ff_check_visited` returns FAIL and leaves the visited list as it is, whatever the list and the wildcard string. -/
theorem ff_check_visited_stat_fails (env : Env) (l : List ff_visited_T) (fname : Str)
    (wc_path : Option Str) (hurl : env.path_with_url fname = false)
    (hstat : env.mch_stat fname = none) :
    ff_check_visited env l fname wc_path = (false, l) := by
  unfold ff_check_visited
  rw [hurl, hstat]
  rfl

theorem ff_check_visited_stat_fails_witness :
    ff_check_visited (tree_env tree_r 4096 []) [ff_entry_for (.inode 1 2) (some [STAR])]
      (str "/nowhere") (some [STAR]) = (false, [ff_entry_for (.inode 1 2) (some [STAR])]) :=
  ff_check_visited_stat_fails (tree_env tree_r 4096 [])
    [ff_entry_for (.inode 1 2) (some [STAR])] (str "/nowhere") (some [STAR]) rfl (by decide)

/-- When `ff_wc_equal` is TRUE for two strings. -/
theorem ff_wc_equal_spec (env : Env) (s1 s2 : Str) :
    ff_wc_equal env (some s1) (some s2) = true ↔
      s1.length = s2.length ∧
        ∀ i, i < s1.length →
          ff_same_char env (s1.getD i 0) (s2.getD i 0)
            ∨ (2 ≤ i ∧ s1.getD (i - 1) 0 = STAR ∧ s1.getD (i - 2) 0 = STAR) := by
  unfold ff_wc_equal
  by_cases hlen : s1.length = s2.length
  · simp only [hlen, ne_eq, not_true_eq_false, ↓reduceIte, true_and]
    rw [ff_wc_equal_loop_iff env s1 s2 0 0 hlen]
    constructor
    · intro h i hi
      rcases h i (hlen ▸ hi) with h | ⟨h2, h1⟩
      · exact Or.inl h
      · right
        match i, h2, h1 with
        | 0, h2, _ => simp [STAR] at h2
        | 1, h2, _ => simp [STAR] at h2
        | j + 2, h2, h1 =>
          refine ⟨by omega, ?_, ?_⟩
          · simpa [List.getD_cons_succ] using h1
          · simpa [List.getD_cons_succ] using h2
    · intro h i hi
      rcases h i (hlen ▸ hi) with h | ⟨hi2, h1, h2⟩
      · exact Or.inl h
      · right
        obtain ⟨j, rfl⟩ : ∃ j, i = j + 2 := ⟨i - 2, by omega⟩
        refine ⟨?_, ?_⟩
        · simpa [List.getD_cons_succ] using h2
        · simpa [List.getD_cons_succ] using h1
  · simp [hlen]

theorem ff_same_char_symm (env : Env) (a b : Nat) (h : ff_same_char env a b) :
    ff_same_char env b a := by
  unfold ff_same_char at h ⊢
  split_ifs at h ⊢ <;> exact h.symm

/-- One direction of the symmetry of `ff_wc_equal`, for a first string
without three `*` in a row. -/
theorem ff_wc_equal_swap (env : Env) (s1 s2 : Str) (h3 : no_three_stars s1)
    (hfold : env.p_fic = true → ∀ c, env.mb_tolower c = env.mb_tolower STAR → c = STAR)
    (h : ff_wc_equal env (some s1) (some s2) = true) :
    ff_wc_equal env (some s2) (some s1) = true := by
  rw [ff_wc_equal_spec] at h ⊢
  obtain ⟨hlen, hpos⟩ := h
  have hstar : ∀ c, ff_same_char env STAR c → c = STAR := by
    intro c hc
    unfold ff_same_char at hc
    by_cases hf : env.p_fic = true
    · rw [if_pos hf] at hc
      exact hfold hf c hc.symm
    · rw [if_neg hf] at hc
      exact hc.symm
  refine ⟨hlen.symm, ?_⟩
  intro i hi
  rw [← hlen] at hi
  rcases hpos i hi with hs | ⟨hi2, ha, hb⟩
  · exact Or.inl (ff_same_char_symm env _ _ hs)
  · right
    refine ⟨hi2, ?_, ?_⟩
    · rcases hpos (i - 1) (by omega) with hs | ⟨hj, hc, hd⟩
      · rw [ha] at hs
        exact hstar _ hs
      · exfalso
        apply h3 (i - 3)
        refine ⟨?_, ?_, ?_⟩
        · rw [show i - 3 = i - 1 - 2 by omega]; exact hd
        · rw [show i - 3 + 1 = i - 2 by omega]; exact hb
        · rw [show i - 3 + 2 = i - 1 by omega]; exact ha
    · rcases hpos (i - 2) (by omega) with hs | ⟨hj, hc, hd⟩
      · rw [hb] at hs
        exact hstar _ hs
      · exfalso
        apply h3 (i - 4)
        refine ⟨?_, ?_, ?_⟩
        · rw [show i - 4 = i - 2 - 2 by omega]; exact hd
        · rw [show i - 4 + 1 = i - 2 - 1 by omega]; exact hc
        · rw [show i - 4 + 2 = i - 2 by omega]; exact hb

/-- C36 (as amended).  `ff_wc_equal` is symmetric on strings without three `*` in a row (and on NULL): for such `s1` and `s2`, `ff_wc_equal(s1, s2) = ff_wc_equal(s2, s1)`.  With 'fileignorecase' the folding to lower case is taken to leave `*` alone. -/
theorem ff_wc_equal_symm (env : Env) (s1 s2 : Option Str)
    (h1 : ∀ a, s1 = some a → no_three_stars a)
    (h2 : ∀ b, s2 = some b → no_three_stars b)
    (hfold : env.p_fic = true → ∀ c, env.mb_tolower c = env.mb_tolower STAR → c = STAR) :
    ff_wc_equal env s1 s2 = ff_wc_equal env s2 s1 := by
  cases s1 with
  | none => cases s2 <;> rfl
  | some a =>
    cases s2 with
    | none => rfl
    | some b =>
      have ha := h1 a rfl
      have hb := h2 b rfl
      by_cases hab : ff_wc_equal env (some a) (some b) = true
      · rw [hab, ff_wc_equal_swap env a b ha hfold hab]
      · by_cases hba : ff_wc_equal env (some b) (some a) = true
        · exact absurd (ff_wc_equal_swap env b a hb hfold hba) hab
        · rw [Bool.not_eq_true] at hab hba
          rw [hab, hba]

theorem ff_wc_equal_symm_witness :
    ff_wc_equal (tree_env tree_r 4096 []) (some (STAR :: STAR :: 5 :: str "/b"))
        (some (STAR :: STAR :: 9 :: str "/b"))
      = ff_wc_equal (tree_env tree_r 4096 []) (some (STAR :: STAR :: 9 :: str "/b"))
        (some (STAR :: STAR :: 5 :: str "/b")) :=
  ff_wc_equal_symm (tree_env tree_r 4096 []) (some (STAR :: STAR :: 5 :: str "/b"))
    (some (STAR :: STAR :: 9 :: str "/b"))
    (fun a ha i h => by
      simp only [Option.some.injEq] at ha
      subst ha
      match i, h with
      | 0, h => exact absurd h.2.2 (by decide)
      | 1, h => exact absurd h.2.1 (by decide)
      | 2, h => exact absurd h.1 (by decide)
      | 3, h => exact absurd h.1 (by decide)
      | 4, h => exact absurd h.1 (by decide)
      | j + 5, h => exact absurd h.1 (by simp [List.getD, STAR, str]))
    (fun a ha i h => by
      simp only [Option.some.injEq] at ha
      subst ha
      match i, h with
      | 0, h => exact absurd h.2.2 (by decide)
      | 1, h => exact absurd h.2.1 (by decide)
      | 2, h => exact absurd h.1 (by decide)
      | 3, h => exact absurd h.1 (by decide)
      | 4, h => exact absurd h.1 (by decide)
      | j + 5, h => exact absurd h.1 (by simp [List.getD, STAR, str]))
    (fun h => by simp [tree_env] at h)

/-- C36 (counterexample).  `ff_wc_equal("***a", "**xb")` is TRUE and `ff_wc_equal("**xb", "***a")` is FALSE: a difference is let pass when the two characters before it in the first string are `*`, whatever the second string has there. -/
theorem ff_wc_equal_not_symmetric :
    ff_wc_equal (tree_env tree_r 4096 []) (some (str "***a")) (some (str "**xb")) = true
    ∧ ff_wc_equal (tree_env tree_r 4096 []) (some (str "**xb")) (some (str "***a")) = false := by
  decide

/-- `vim_findfile_init` is `ff_init_split` on the start directory and the
path that `ff_init_start` gives. -/
theorem vim_findfile_init_eq (env : Env) (path filename : Str) (stopdirs : Option Str)
    (level : Int) (free_visited : Bool) (find_what : Int)
    (search_ctx_arg : Option ff_search_ctx_T) (tagfile : Bool) (rel_fname : Option Str) :
    vim_findfile_init env path filename stopdirs level free_visited find_what search_ctx_arg
        tagfile rel_fname =
      match ff_init_start env path tagfile rel_fname with
      | none => { ctx := none, msgs := [] }
      | some (sd, p) =>
        ff_init_split env
          (ff_init_ctx env filename free_visited find_what search_ctx_arg tagfile)
          p filename stopdirs level sd := by
  unfold vim_findfile_init ff_init_start
  dsimp only
  by_cases h1 : path.headD 0 = 46
      ∧ (env.vim_ispathsep (path.getD 1 0) ∨ path.getD 1 0 = 0)
      ∧ (!tagfile ∨ !env.cpo_dottag)
      ∧ rel_fname.isSome
  · rw [if_pos h1, if_pos h1]
    cases ff_init_rel_dir env (rel_fname.getD []) <;> rfl
  · rw [if_neg h1, if_neg h1]
    by_cases h2 : path.headD 0 = 0 ∨ !env.vim_isAbsName path
    · rw [if_pos h2, if_pos h2]
      cases env.mch_dirname <;> rfl
    · rw [if_neg h2, if_neg h2]

/-- C33.  For a path without `*` (after the start directory was taken): when the start directory with the path is not a directory, `vim_findfile_init` returns NULL, no context; when it is a directory (and short enough for the buffer), `vim_findfile_init` succeeds, the stored wildcard part is NULL and the one frame on the stack has empty wildcards. -/
theorem vim_findfile_init_no_wildcard (env : Env) (path filename : Str)
    (stopdirs : Option Str) (level : Int) (free_visited : Bool) (find_what : Int)
    (search_ctx_arg : Option ff_search_ctx_T) (tagfile : Bool) (rel_fname : Option Str)
    (sd : Option Str) (p : Str)
    (hstart : ff_init_start env path tagfile rel_fname = some (sd, p))
    (hstar : 42 ∉ p) :
    (env.mch_isdir (env.add_pathsep (sd.getD p) ++ (if sd.isSome then p else [])) = false →
        (vim_findfile_init env path filename stopdirs level free_visited find_what
          search_ctx_arg tagfile rel_fname).ctx = none)
      ∧ (env.mch_isdir (env.add_pathsep (sd.getD p) ++ (if sd.isSome then p else [])) = true →
        (sd.getD p).length + (if sd.isSome then p else []).length + 3 < env.MAXPATHL →
        ∃ ctx, (vim_findfile_init env path filename stopdirs level free_visited find_what
            search_ctx_arg tagfile rel_fname).ctx = some ctx
          ∧ ctx.ffsc_wc_path = none
          ∧ ctx.ffsc_stack_ptr =
            [{ ffs_fix_path :=
                 env.add_pathsep
                   (env.add_pathsep (sd.getD p) ++ (if sd.isSome then p else [])),
               ffs_wc_path := [], ffs_filearray := none, ffs_filearray_cur := 0,
               ffs_stage := 0, ffs_level := level, ffs_star_star_empty := 0 }]) := by
  rw [vim_findfile_init_eq, hstart]
  dsimp only
  unfold ff_init_split
  dsimp only
  rw [if_neg hstar]
  cases sd with
  | none =>
    dsimp only
    unfold ff_init_finish
    simp only [Option.getD_none, Option.isSome_none, Bool.false_eq_true, if_false,
      List.length_nil, add_zero]
    constructor
    · intro hd
      split_ifs with ha hb
      · rfl
      · rw [hd] at hb
        exact absurd hb (by simp)
      · rfl
    · intro hd hlen
      rw [if_neg (by omega), if_pos hd]
      refine ⟨_, rfl, rfl, ?_⟩
      simp [ff_push, ff_create_stack_element, ff_init_ctx_stack]
  | some s =>
    dsimp only
    unfold ff_init_finish
    simp only [Option.getD_some, Option.isSome_some, if_true]
    constructor
    · intro hd
      split_ifs with ha hb
      · rfl
      · rw [hd] at hb
        exact absurd hb (by simp)
      · rfl
    · intro hd hlen
      rw [if_neg (by omega), if_pos hd]
      refine ⟨_, rfl, rfl, ?_⟩
      simp [ff_push, ff_create_stack_element, ff_init_ctx_stack]

theorem vim_findfile_init_no_wildcard_witness :
    (vim_findfile_init (tree_env tree_a 4096 []) (str "a/q") (str "t") none 100 false
        FINDFILE_FILE none false none).ctx = none
    ∧ ∃ ctx, (vim_findfile_init (tree_env tree_a 4096 []) (str "a/b") (str "t") none 100 false
          FINDFILE_FILE none false none).ctx = some ctx
        ∧ ctx.ffsc_wc_path = none :=
  ⟨(vim_findfile_init_no_wildcard (tree_env tree_a 4096 []) (str "a/q") (str "t") none 100
      false FINDFILE_FILE none false none (some (str "/cwd")) (str "a/q") (by decide)
      (by decide)).1 (by decide),
    ((vim_findfile_init_no_wildcard (tree_env tree_a 4096 []) (str "a/b") (str "t") none 100
      false FINDFILE_FILE none false none (some (str "/cwd")) (str "a/b") (by decide)
      (by decide)).2 (by decide) (by decide)).imp (fun _ h => ⟨h.1, h.2.1⟩)⟩

theorem ff_stopdirs_split_ne_nil : ∀ (rest cur : Str), ff_stopdirs_split rest cur ≠ [] := by
  intro rest
  induction rest with
  | nil => intro cur; simp [ff_stopdirs_split]
  | cons c rest ih =>
    intro cur
    rw [ff_stopdirs_split]
    split_ifs
    · simp
    · exact ih _

theorem intercalate_cons_of_ne_nil (sep a : Str) (l : List Str) (h : l ≠ []) :
    sep.intercalate (a :: l) = a ++ sep ++ sep.intercalate l := by
  cases l with
  | nil => exact absurd rfl h
  | cons b l => simp [List.intercalate, List.intersperse]

/-- The split of the stop directories: one entry more than there are `;`,
no `;` in an entry, and the entries joined with `;` are the string. -/
theorem ff_stopdirs_split_spec :
    ∀ (rest cur : Str), 59 ∉ cur →
      (ff_stopdirs_split rest cur).length = rest.count 59 + 1
        ∧ (∀ e ∈ ff_stopdirs_split rest cur, 59 ∉ e)
        ∧ [59].intercalate (ff_stopdirs_split rest cur) = cur ++ rest := by
  intro rest
  induction rest with
  | nil =>
    intro cur hc
    simp [ff_stopdirs_split, List.intercalate, hc]
  | cons c rest ih =>
    intro cur hc
    rw [ff_stopdirs_split]
    by_cases h : c = 59
    · rw [if_pos h]
      obtain ⟨h1, h2, h3⟩ := ih [] (List.not_mem_nil _)
      refine ⟨?_, ?_, ?_⟩
      · rw [List.length_cons, h1, h, List.count_cons_self]
      · intro e he
        rcases List.mem_cons.mp he with he | he
        · rw [he]; exact hc
        · exact h2 e he
      · rw [intercalate_cons_of_ne_nil _ _ _ (ff_stopdirs_split_ne_nil rest []), h3, h]
        simp
    · rw [if_neg h]
      obtain ⟨h1, h2, h3⟩ := ih (cur ++ [c]) (by
        simp only [List.mem_append, List.mem_singleton, not_or]
        exact ⟨hc, fun hh => h hh.symm⟩)
      refine ⟨?_, h2, ?_⟩
      · rw [h1, List.count_cons_of_ne (fun hh => h hh.symm)]
      · rw [h3]
        simp

/-- C38.  For a `stopdirs` string `s` that is not NULL, the stop list `vim_findfile_init` stores is made from `s` without its leading `;`: it has one entry more than that string has `;`, no entry holds a `;`, and the entries joined with `;` give that string back.  For `""` and for `";"` the list is the one entry `""`. -/
theorem vim_findfile_init_stopdirs (env : Env) (path filename s : Str)
    (level : Int) (free_visited : Bool) (find_what : Int)
    (search_ctx_arg : Option ff_search_ctx_T) (tagfile : Bool) (rel_fname : Option Str)
    (ctx : ff_search_ctx_T)
    (h : (vim_findfile_init env path filename (some s) level free_visited find_what
      search_ctx_arg tagfile rel_fname).ctx = some ctx) :
    (∃ stops : List Str, ctx.ffsc_stopdirs_v = some stops
        ∧ stops.length = (s.dropWhile (· == 59)).count 59 + 1
        ∧ (∀ e ∈ stops, 59 ∉ e)
        ∧ [59].intercalate stops = s.dropWhile (· == 59))
      ∧ ff_stopdirs_split (([] : Str).dropWhile (· == 59)) [] = [[]]
      ∧ ff_stopdirs_split ((str ";").dropWhile (· == 59)) [] = [[]] := by
  obtain ⟨eb, sd, fix, wc', he⟩ := vim_findfile_init_shape env path filename (some s) level
    free_visited find_what search_ctx_arg tagfile rel_fname ctx h
  refine ⟨⟨ff_stopdirs_split (s.dropWhile (· == 59)) [], ?_, ?_⟩, by decide, by decide⟩
  · rw [he]
    rfl
  · have := ff_stopdirs_split_spec (s.dropWhile (· == 59)) [] (List.not_mem_nil _)
    simpa using this

theorem vim_findfile_init_stopdirs_witness :
    ∃ ctx : ff_search_ctx_T,
      (vim_findfile_init (tree_env tree_a 4096 []) (str "a") (str "t") (some (str ";/cwd;/x"))
        1 false FINDFILE_FILE none false none).ctx = some ctx
      ∧ ∃ stops : List Str, ctx.ffsc_stopdirs_v = some stops
        ∧ stops.length = ((str ";/cwd;/x").dropWhile (· == 59)).count 59 + 1
        ∧ (∀ e ∈ stops, 59 ∉ e)
        ∧ [59].intercalate stops = (str ";/cwd;/x").dropWhile (· == 59) :=
  ⟨_, rfl, (vim_findfile_init_stopdirs (tree_env tree_a 4096 []) (str "a") (str "t")
    (str ";/cwd;/x") 1 false FINDFILE_FILE none false none _ rfl).1⟩

/-- C39 (the code at the failing input).  The number of `**4294967296` is larger than 254, and the token is dropped, as for `**0`: the value `strtol` returns is stored in an `int` and comes out as 0.  For `**4294967297` the byte is 1.  For `**255` and `**300` the byte is the default, 30. -/
theorem ff_wc_loop_wide_number :
    ff_wc_loop (tree_env tree_a 4096 []) 20 (str "**4294967296/b") [] = .done (str "/b")
    ∧ ff_wc_loop (tree_env tree_a 4096 []) 20 (str "**4294967297/b") []
      = .done (STAR :: STAR :: 1 :: str "/b")
    ∧ ff_wc_loop (tree_env tree_a 4096 []) 20 (str "**255/b") []
      = .done (STAR :: STAR :: 30 :: str "/b")
    ∧ ff_wc_loop (tree_env tree_a 4096 []) 20 (str "**300/b") []
      = .done (STAR :: STAR :: 30 :: str "/b")
    ∧ ((vim_findfile_init (tree_env tree_a 4096 []) (str "a/**4294967296/b") (str "t") none
          100 false FINDFILE_FILE none false none).ctx.map (·.ffsc_wc_path))
        = some (some (str "/b")) := by
  decide

/-- What `mouse_has` returns: the flag `a` stands for the characters of
`MOUSE_A`, the flag `MOUSE_HELP` for every character but `MOUSE_RETURN` in
a help buffer, and every other character of 'mouse' for itself. -/
theorem mouse_has_loop_iff (m : mouse_env) (c : Nat) :
    ∀ s : Str, mouse_has_loop m c s = true ↔
      (97 ∈ s ∧ c ∈ m.MOUSE_A)
        ∨ (m.MOUSE_HELP ∈ s ∧ m.MOUSE_HELP ≠ 97 ∧ c ≠ m.MOUSE_RETURN ∧ m.b_help = true)
        ∨ (c ∈ s ∧ c ≠ 97 ∧ c ≠ m.MOUSE_HELP) := by
  intro s
  induction s with
  | nil => simp [mouse_has_loop]
  | cons p rest ih =>
    rw [mouse_has_loop]
    by_cases h1 : p = 97
    · subst h1
      by_cases h2 : c ∈ m.MOUSE_A
      · simp [h2]
      · simp only [h2, if_true, if_false, ih, and_false, false_or, List.mem_cons]
        constructor
        · rintro (h | h)
          · exact Or.inl ⟨Or.inr h.1, h.2⟩
          · exact Or.inr ⟨Or.inr h.1, h.2⟩
        · rintro (h | h)
          · rcases h.1 with h3 | h3
            · exact absurd h3 h.2.1
            · exact Or.inl ⟨h3, h.2⟩
          · rcases h.1 with h3 | h3
            · exact absurd h3 h.2.1
            · exact Or.inr ⟨h3, h.2⟩
    · rw [if_neg h1]
      by_cases h2 : p = m.MOUSE_HELP
      · subst h2
        by_cases h4 : c ≠ m.MOUSE_RETURN ∧ m.b_help = true
        · simp [h4, h1]
        · rw [if_pos rfl, if_neg h4, ih]
          simp only [List.mem_cons]
          constructor
          · rintro (h | h | h)
            · exact Or.inl ⟨Or.inr h.1, h.2⟩
            · exact Or.inr (Or.inl ⟨Or.inr h.1, h.2⟩)
            · exact Or.inr (Or.inr ⟨Or.inr h.1, h.2⟩)
          · rintro (h | h | h)
            · rcases h.1 with h3 | h3
              · exact absurd h3.symm h1
              · exact Or.inl ⟨h3, h.2⟩
            · exact absurd ⟨h.2.2.1, h.2.2.2⟩ h4
            · rcases h.1 with h3 | h3
              · exact absurd h3 h.2.2
              · exact Or.inr (Or.inr ⟨h3, h.2⟩)
      · rw [if_neg h2]
        by_cases h3 : c = p
        · subst h3
          simp [h1, h2]
        · rw [if_neg h3, ih]
          simp only [List.mem_cons]
          constructor
          · rintro (h | h | h)
            · exact Or.inl ⟨Or.inr h.1, h.2⟩
            · exact Or.inr (Or.inl ⟨Or.inr h.1, h.2⟩)
            · exact Or.inr (Or.inr ⟨Or.inr h.1, h.2⟩)
          · rintro (h | h | h)
            · rcases h.1 with h4 | h4
              · exact absurd h4.symm h1
              · exact Or.inl ⟨h4, h.2⟩
            · rcases h.1 with h4 | h4
              · exact absurd h4.symm h2
              · exact Or.inr (Or.inl ⟨h4, h.2⟩)
            · rcases h.1 with h4 | h4
              · exact absurd h4 h3
              · exact Or.inr (Or.inr ⟨h4, h.2⟩)

/-- C32 (as amended).  `mouse_has(c)` returns true exactly when `a` occurs in 'mouse' and `c` is one of the `MOUSE_A` characters, or `MOUSE_HELP` (the character `h`, another one than `a`) occurs in 'mouse' while the current buffer is a help buffer and `c` is not `MOUSE_RETURN`, or `c` occurs in 'mouse' and is not one of the two flag characters `a` and `MOUSE_HELP`. -/
theorem mouse_has_iff (m : mouse_env) (c : Nat) :
    mouse_has m c = true ↔
      (97 ∈ m.p_mouse ∧ c ∈ m.MOUSE_A)
        ∨ (m.MOUSE_HELP ∈ m.p_mouse ∧ m.MOUSE_HELP ≠ 97 ∧ c ≠ m.MOUSE_RETURN
          ∧ m.b_help = true)
        ∨ (c ∈ m.p_mouse ∧ c ≠ 97 ∧ c ≠ m.MOUSE_HELP) :=
  mouse_has_loop_iff m c m.p_mouse

/-- C32 (counterexample).  With 'mouse' set to `h`, outside a help buffer, `h` occurs in 'mouse' and `mouse_has('h')` is false; with 'mouse' set to `a`, `a` occurs in 'mouse' and `mouse_has('a')` is false: the characters `a` and `h` of 'mouse' are flags and are not compared with `c`. -/
theorem mouse_has_flag_counterexample :
    104 ∈ str "h"
    ∧ mouse_has { MOUSE_A := str "nvich", MOUSE_HELP := 104, MOUSE_RETURN := 114,
                  p_mouse := str "h", b_help := false } 104 = false
    ∧ 97 ∈ str "a"
    ∧ mouse_has { MOUSE_A := str "nvich", MOUSE_HELP := 104, MOUSE_RETURN := 114,
                  p_mouse := str "a", b_help := false } 97 = false := by
  decide

/-- A frame without file array whose directory is in the visited list for
directories with a wildcard string equal in shape is given up: the turn
leaves the context as it was. -/
theorem ff_step_popped_known (env : Env) (c : ff_search_ctx_T) (stackp : ff_stack_T)
    (hdr : ff_visited_list_hdr_T) (id : ff_identity)
    (hnone : stackp.ffs_filearray = none)
    (hreg : hdr_deref c.ffsc_dir_visited_lists_list c.ffsc_dir_visited_list = some hdr)
    (hid : ff_identity_of env stackp.ffs_fix_path = some id)
    (hvis : hdr.ffvl_visited_list.any (ff_same_visit env id (some stackp.ffs_wc_path)) = true) :
    ff_step_popped env c stackp = .again c := by
  have hcv : ff_check_visited env hdr.ffvl_visited_list
      stackp.ffs_fix_path (some stackp.ffs_wc_path) = (false, hdr.ffvl_visited_list) := by
    rw [ff_check_visited_eq env _ _ _ id hid, if_pos hvis]
  unfold ff_step_popped
  rw [hnone]
  simp only [Option.isNone_none, if_true, hreg, hcv, Bool.not_false]
  rw [hdr_store_self _ _ _ hreg]

/-- C35.  The check of the visited list for directories comes before the check of the depth: a frame without file array and with level `<= 0`, whose directory has a device and inode that are not yet in the list with a wildcard string equal in shape, is put in the list and then given up; and a later frame for a directory with the same device and inode and with wildcards equal in shape to those recorded is given up as visited, whatever its level. -/
theorem ff_step_popped_records_before_depth (env : Env) (c : ff_search_ctx_T)
    (stackp stackp2 : ff_stack_T) (hdr : ff_visited_list_hdr_T) (dev ino : Nat)
    (hnone : stackp.ffs_filearray = none)
    (hlevel : stackp.ffs_level ≤ 0)
    (hreg : hdr_deref c.ffsc_dir_visited_lists_list c.ffsc_dir_visited_list = some hdr)
    (hid : ff_identity_of env stackp.ffs_fix_path = some (.inode dev ino))
    (hfresh : hdr.ffvl_visited_list.any
      (ff_same_visit env (.inode dev ino) (some stackp.ffs_wc_path)) = false)
    (hnone2 : stackp2.ffs_filearray = none)
    (hid2 : ff_identity_of env stackp2.ffs_fix_path = some (.inode dev ino))
    (hwc : ff_wc_equal env (some stackp.ffs_wc_path) (some stackp2.ffs_wc_path) = true) :
    ff_step_popped env c stackp =
        .again { c with
          ffsc_dir_visited_lists_list :=
            hdr_store c.ffsc_dir_visited_lists_list c.ffsc_dir_visited_list
              (ff_entry_for (.inode dev ino) (some stackp.ffs_wc_path)
                :: hdr.ffvl_visited_list) }
      ∧ ff_step_popped env
          { c with
            ffsc_dir_visited_lists_list :=
              hdr_store c.ffsc_dir_visited_lists_list c.ffsc_dir_visited_list
                (ff_entry_for (.inode dev ino) (some stackp.ffs_wc_path)
                  :: hdr.ffvl_visited_list) }
          stackp2 =
        .again { c with
          ffsc_dir_visited_lists_list :=
            hdr_store c.ffsc_dir_visited_lists_list c.ffsc_dir_visited_list
              (ff_entry_for (.inode dev ino) (some stackp.ffs_wc_path)
                :: hdr.ffvl_visited_list) } := by
  constructor
  · have hcv : ff_check_visited env hdr.ffvl_visited_list stackp.ffs_fix_path
        (some stackp.ffs_wc_path)
        = (true, ff_entry_for (.inode dev ino) (some stackp.ffs_wc_path)
            :: hdr.ffvl_visited_list) := by
      rw [ff_check_visited_eq env _ _ _ _ hid, hfresh]
      rfl
    unfold ff_step_popped
    rw [hnone]
    simp only [Option.isNone_none, if_true, hreg, hcv, Bool.not_true, Bool.false_eq_true,
      if_false]
    unfold ff_step_frame
    rw [if_pos hlevel]
  · apply ff_step_popped_known env _ stackp2
      { hdr with
        ffvl_visited_list :=
          ff_entry_for (.inode dev ino) (some stackp.ffs_wc_path) :: hdr.ffvl_visited_list }
      (.inode dev ino) hnone2
    · show hdr_deref (hdr_store c.ffsc_dir_visited_lists_list c.ffsc_dir_visited_list _)
        c.ffsc_dir_visited_list = _
      rw [hdr_deref_store, hreg]
      rfl
    · exact hid2
    · simp only [List.any_cons, Bool.or_eq_true]
      left
      simp [ff_same_visit, ff_entry_for, hwc]

theorem ff_step_popped_records_before_depth_witness :
    ff_step_popped (tree_env tree_r 4096 [])
        (star_state (str "/r/") (str "tags") 2 FINDFILE_FILE false [] [] [])
        (ff_create_stack_element (some (str "/r/")) (some [STAR]) 0 0)
      = .again
        { star_state (str "/r/") (str "tags") 2 FINDFILE_FILE false [] [] [] with
          ffsc_dir_visited_lists_list :=
            hdr_store
              (star_state (str "/r/") (str "tags") 2 FINDFILE_FILE false [] []
                []).ffsc_dir_visited_lists_list
              (star_state (str "/r/") (str "tags") 2 FINDFILE_FILE false [] []
                []).ffsc_dir_visited_list
              (ff_entry_for (.inode 1 2)
                  (some (ff_create_stack_element (some (str "/r/")) (some [STAR]) 0
                    0).ffs_wc_path)
                :: ({ ffvl_filename := str "tags", ffvl_visited_list := [] }
                  : ff_visited_list_hdr_T).ffvl_visited_list) } :=
  (ff_step_popped_records_before_depth (tree_env tree_r 4096 [])
    (star_state (str "/r/") (str "tags") 2 FINDFILE_FILE false [] [] [])
    (ff_create_stack_element (some (str "/r/")) (some [STAR]) 0 0)
    (ff_create_stack_element (some (str "/r")) (some [STAR]) 5 0)
    { ffvl_filename := str "tags", ffvl_visited_list := [] } 1 2
    rfl (by decide) rfl (by decide) (by decide) rfl (by decide) (by decide)).1

theorem ff_push_children_fresh (env : Env) (rest : Str) (level : Int) :
    ∀ (entries : List Str) (c : ff_search_ctx_T) (f : ff_stack_T),
      f ∈ (ff_push_children env rest level entries c).ffsc_stack_ptr →
      f ∈ c.ffsc_stack_ptr ∨ ff_frame_fresh f := by
  intro entries
  induction entries with
  | nil => intro c f h; exact Or.inl h
  | cons e more ih =>
    intro c f h
    rw [ff_push_children] at h
    split_ifs at h
    · exact ih c f h
    · rcases ih _ f h with h1 | h1
      · simp only [ff_push, List.mem_cons] at h1
        rcases h1 with h1 | h1
        · right; rw [h1]; exact ⟨rfl, rfl, rfl⟩
        · exact Or.inl h1
      · exact Or.inr h1

theorem ff_push_star_star_fresh (env : Env) (stackp : ff_stack_T) :
    ∀ (entries : List Str) (c : ff_search_ctx_T) (f : ff_stack_T),
      f ∈ (ff_push_star_star env stackp entries c).ffsc_stack_ptr →
      f ∈ c.ffsc_stack_ptr ∨ ff_frame_fresh f := by
  intro entries
  induction entries with
  | nil => intro c f h; exact Or.inl h
  | cons e more ih =>
    intro c f h
    rw [ff_push_star_star] at h
    split_ifs at h
    · exact ih c f h
    · exact ih c f h
    · rcases ih _ f h with h1 | h1
      · simp only [ff_push, List.mem_cons] at h1
        rcases h1 with h1 | h1
        · right; rw [h1]; exact ⟨rfl, rfl, rfl⟩
        · exact Or.inl h1
      · exact Or.inr h1

theorem ff_step_finish_fresh (env : Env) (c : ff_search_ctx_T) (stackp : ff_stack_T) :
    ∃ c', ff_step_finish env c stackp = .again c' ∧
      ∀ f ∈ c'.ffsc_stack_ptr, f ∈ c.ffsc_stack_ptr ∨ ff_frame_fresh f := by
  unfold ff_step_finish
  split_ifs
  · exact ⟨_, rfl, fun f hf => ff_push_star_star_fresh env stackp _ c f hf⟩
  · exact ⟨_, rfl, fun f hf => Or.inl hf⟩

/-- The stack after a turn of the downward loop: when the loop goes on,
the frames that were there and new frames as `ff_create_stack_element`
makes them; when a file is returned, the frame popped on top, in stage
0. -/
theorem ff_step_frame_fresh (env : Env) (c : ff_search_ctx_T) (stackp : ff_stack_T) :
    match ff_step_frame env c stackp with
    | .again c' => ∀ f ∈ c'.ffsc_stack_ptr, f ∈ c.ffsc_stack_ptr ∨ ff_frame_fresh f
    | .found _ c' => ∃ g, c'.ffsc_stack_ptr = g :: c.ffsc_stack_ptr ∧ g.ffs_stage = 0
        ∧ g.ffs_filearray.isSome = true
    | .fault => True := by
  unfold ff_step_frame
  by_cases hl : stackp.ffs_level ≤ 0
  · rw [if_pos hl]
    exact fun f hf => Or.inl hf
  · rw [if_neg hl]
    dsimp only
    have hex : (if stackp.ffs_filearray.isNone = true then ff_expand env c stackp
        else (stackp, [])).1.ffs_filearray.isSome = true := by
      by_cases hn : stackp.ffs_filearray.isNone = true
      · rw [if_pos hn]
        unfold ff_expand
        dsimp only
        split_ifs <;> rfl
      · rw [if_neg hn]
        cases hf : stackp.ffs_filearray with
        | none => rw [hf] at hn; simp at hn
        | some a => rfl
    revert hex
    generalize (if stackp.ffs_filearray.isNone = true then ff_expand env c stackp
      else (stackp, [])) = ex
    intro hex
    by_cases hs : ex.1.ffs_stage = 0
    · rw [if_pos hs]
      by_cases hr : ex.2.headD 0 = 0
      · rw [if_pos hr]
        cases ff_scan_entries env c
          ((ex.1.ffs_filearray.getD []).drop ex.1.ffs_filearray_cur) ex.1.ffs_filearray_cur
          ((hdr_deref c.ffsc_visited_lists_list c.ffsc_visited_list).map
            (·.ffvl_visited_list)) with
        | fault => trivial
        | hit i p l' => exact ⟨_, rfl, hs, hex⟩
        | miss vl =>
          dsimp only
          obtain ⟨c', h1, h2⟩ := ff_step_finish_fresh env
            { c with
              ffsc_visited_lists_list :=
                match vl with
                | none => c.ffsc_visited_lists_list
                | some l => hdr_store c.ffsc_visited_lists_list c.ffsc_visited_list l }
            { ex.1 with ffs_filearray_cur := 0, ffs_stage := 1 }
          rw [h1]
          exact h2
      · rw [if_neg hr]
        obtain ⟨c', h1, h2⟩ := ff_step_finish_fresh env
          (ff_push_children env ex.2 ex.1.ffs_level
            ((ex.1.ffs_filearray.getD []).drop ex.1.ffs_filearray_cur) c)
          { ex.1 with ffs_filearray_cur := 0, ffs_stage := 1 }
        rw [h1]
        intro f hf
        rcases h2 f hf with h3 | h3
        · exact ff_push_children_fresh _ _ _ _ _ f h3
        · exact Or.inr h3
    · rw [if_neg hs]
      obtain ⟨c', h1, h2⟩ := ff_step_finish_fresh env c ex.1
      rw [h1]
      exact h2

theorem ff_step_popped_fresh (env : Env) (c : ff_search_ctx_T) (stackp : ff_stack_T) :
    match ff_step_popped env c stackp with
    | .again c' => ∀ f ∈ c'.ffsc_stack_ptr, f ∈ c.ffsc_stack_ptr ∨ ff_frame_fresh f
    | .found _ c' => ∃ g, c'.ffsc_stack_ptr = g :: c.ffsc_stack_ptr ∧ g.ffs_stage = 0
        ∧ g.ffs_filearray.isSome = true
    | .fault => True := by
  unfold ff_step_popped
  split_ifs with h1
  · cases hdr_deref c.ffsc_dir_visited_lists_list c.ffsc_dir_visited_list with
    | none => trivial
    | some h =>
      dsimp only
      split_ifs
      · exact fun f hf => Or.inl hf
      · have := ff_step_frame_fresh env
          { c with
            ffsc_dir_visited_lists_list :=
              hdr_store c.ffsc_dir_visited_lists_list c.ffsc_dir_visited_list
                (ff_check_visited env h.ffvl_visited_list stackp.ffs_fix_path
                  (some stackp.ffs_wc_path)).2 } stackp
        revert this
        cases ff_step_frame env _ stackp with
        | again c' => exact id
        | found p c' => exact id
        | fault => exact id
  · exact ff_step_frame_fresh env c stackp

/-- In every state the turns of `vim_findfile` lead to from a stack of
frames as `ff_create_stack_element` makes them, only the frame on top can
be another one, and it is in stage 0. -/
theorem ff_reaches_fresh (env : Env) (c0 c : ff_search_ctx_T)
    (h0 : ∀ f ∈ c0.ffsc_stack_ptr, ff_frame_fresh f)
    (h : ff_reaches env c0 c) :
    (∀ f ∈ c.ffsc_stack_ptr, f.ffs_stage = 0)
      ∧ ∀ f ∈ c.ffsc_stack_ptr.tail, ff_frame_fresh f := by
  induction h with
  | refl =>
    exact ⟨fun f hf => (h0 f hf).2.2, fun f hf => h0 f (List.mem_of_mem_tail hf)⟩
  | again c c1 c2 stackp hr hpop hstep ih =>
    have h1 := ff_step_popped_fresh env c1 stackp
    rw [hstep] at h1
    have hp := (ff_pop_some c c1 stackp hpop).1
    have htail : ∀ f ∈ c1.ffsc_stack_ptr, ff_frame_fresh f := by
      intro f hf
      apply ih.2
      rw [hp]
      exact hf
    have hall : ∀ f ∈ c2.ffsc_stack_ptr, ff_frame_fresh f := by
      intro f hf
      rcases h1 f hf with h2 | h2
      · exact htail f h2
      · exact h2
    exact ⟨fun f hf => (hall f hf).2.2, fun f hf => hall f (List.mem_of_mem_tail hf)⟩
  | found c c1 c2 stackp p hr hpop hstep ih =>
    have h1 := ff_step_popped_fresh env c1 stackp
    rw [hstep] at h1
    obtain ⟨g, hg, hs, _⟩ := h1
    have hp := (ff_pop_some c c1 stackp hpop).1
    have htail : ∀ f ∈ c1.ffsc_stack_ptr, ff_frame_fresh f := by
      intro f hf
      apply ih.2
      rw [hp]
      exact hf
    rw [hg]
    refine ⟨?_, fun f hf => htail f hf⟩
    intro f hf
    rcases List.mem_cons.mp hf with h2 | h2
    · rw [h2]; exact hs
    · exact (htail f h2).2.2
  | seed c c1 c2 pe pe2 hr hpop hup ih =>
    have h1 := ff_upward_stack env c1 pe
    rw [hup] at h1
    obtain ⟨f0, hs, _, _, _⟩ := h1
    have hc := ff_pop_none c c1 hpop
    have hf0 : ff_frame_fresh f0 := by
      have h2 := ff_upward_settings env c1 pe
      unfold ff_upward at hup
      revert hup
      cases c1.ffsc_start_dir with
      | none => intro hup; simp at hup
      | some sd =>
        cases c1.ffsc_stopdirs_v with
        | none => intro hup; simp at hup
        | some sv =>
          dsimp only
          intro hup
          split_ifs at hup
          simp only [ff_up.seed.injEq] at hup
          rw [← hup.1] at hs
          simp only [ff_push, List.cons.injEq] at hs
          rw [← hs.1]
          exact ⟨rfl, rfl, rfl⟩
    rw [hs, hc.2, hc.1]
    refine ⟨?_, ?_⟩
    · intro f hf
      simp only [List.mem_singleton] at hf
      rw [hf]; exact hf0.2.2
    · intro f hf
      simp at hf
  | stop c c1 c2 pe hr hpop hup ih =>
    have h1 := ff_upward_stack env c1 pe
    rw [hup] at h1
    have hc := ff_pop_none c c1 hpop
    rw [h1, hc.2, hc.1]
    exact ⟨fun f hf => by simp at hf, fun f hf => by simp at hf⟩

/-- C40.  After `vim_findfile_init` and after every turn of `vim_findfile` (so at every return of a call), every frame on the stack is in stage 0, and every frame below the top one has no file array and the cursor 0: only the frame on top, put back when a file was returned, can have its file array. -/
theorem vim_findfile_stack_shape (env : Env) (path filename : Str) (stopdirs : Option Str)
    (level : Int) (free_visited : Bool) (find_what : Int)
    (search_ctx_arg : Option ff_search_ctx_T) (tagfile : Bool) (rel_fname : Option Str)
    (c0 c : ff_search_ctx_T)
    (hinit : (vim_findfile_init env path filename stopdirs level free_visited find_what
      search_ctx_arg tagfile rel_fname).ctx = some c0)
    (hreach : ff_reaches env c0 c) :
    (∀ f ∈ c.ffsc_stack_ptr, f.ffs_stage = 0)
      ∧ ∀ f ∈ c.ffsc_stack_ptr.tail, f.ffs_filearray = none ∧ f.ffs_filearray_cur = 0 := by
  have h0 : ∀ f ∈ c0.ffsc_stack_ptr, ff_frame_fresh f := by
    obtain ⟨eb, sd, fix, wc', he⟩ := vim_findfile_init_shape env path filename stopdirs level
      free_visited find_what search_ctx_arg tagfile rel_fname c0 hinit
    rw [he]
    intro f hf
    simp only [ff_init_ctx_stack, List.mem_singleton] at hf
    rw [hf]
    exact ⟨rfl, rfl, rfl⟩
  obtain ⟨h1, h2⟩ := ff_reaches_fresh env c0 c h0 hreach
  exact ⟨h1, fun f hf => ⟨(h2 f hf).1, (h2 f hf).2.1⟩⟩

theorem vim_findfile_stack_shape_witness :
    ∃ c0 c : ff_search_ctx_T,
      (vim_findfile_init (tree_env tree_r 4096 []) (str "/r/*") (str "tags") none 2 false
        FINDFILE_FILE none false none).ctx = some c0
      ∧ ff_reaches (tree_env tree_r 4096 []) c0 c
      ∧ c.ffsc_stack_ptr.length = 1
      ∧ (∀ f ∈ c.ffsc_stack_ptr, f.ffs_stage = 0)
      ∧ ∀ f ∈ c.ffsc_stack_ptr.tail, f.ffs_filearray = none ∧ f.ffs_filearray_cur = 0 :=
  ⟨_, _, rfl, ff_reaches.found _ _ _ _ _ ff_reaches.refl rfl rfl, rfl,
    vim_findfile_stack_shape (tree_env tree_r 4096 []) (str "/r/*") (str "tags") none 2 false
      FINDFILE_FILE none false none _ _ rfl
      (ff_reaches.found _ _ _ _ _ ff_reaches.refl rfl rfl)⟩

set_option maxRecDepth 100000 in
/-- C31 (the code at the failing input).  When `/r/*` lists 256 directories and the file is in the last one, at index 255, the first call of `vim_findfile` returns it and puts the frame back with the cursor 0, not 256: `ffs_filearray_cur` is a `char_u`.  The frame has all its 256 entries to go through again. -/
theorem vim_findfile_cursor_wraps :
    (match vim_findfile wide_env no_interrupt 3
        ((vim_findfile_init wide_env (str "/r/*") (str "t") none 2 false FINDFILE_FILE none
          false none).ctx.getD ff_ctx_zero) with
      | .done file_path c =>
        (file_path, c.ffsc_stack_ptr.map
          (fun f => (f.ffs_filearray_cur, (f.ffs_filearray.getD []).length)))
      | _ => (none, []))
      = (some (str "/r/PP/t"), [(0, 256)]) := by
  decide

/-- The loop that steps back over path separators: it ends at 0 or at a
character that is not a path separator. -/
theorem ff_cut_seps_spec (env : Env) (sd : Str) :
    ∀ (fuel : Nat) (pe : Int), 0 ≤ pe → pe ≤ fuel →
      0 ≤ ff_cut_seps env sd fuel pe ∧ ff_cut_seps env sd fuel pe ≤ pe
        ∧ (ff_cut_seps env sd fuel pe = 0
          ∨ env.vim_ispathsep (sd.getD (ff_cut_seps env sd fuel pe).toNat 0) = false) := by
  intro fuel
  induction fuel with
  | zero =>
    intro pe h0 h1
    have : pe = 0 := by omega
    subst this
    simp [ff_cut_seps]
  | succ f ih =>
    intro pe h0 h1
    rw [ff_cut_seps]
    by_cases h : pe > 0 ∧ env.vim_ispathsep (sd.getD pe.toNat 0) = true
    · rw [if_pos h]
      obtain ⟨a, b, c⟩ := ih (pe - 1) (by omega) (by push_cast at h1; omega)
      exact ⟨a, by omega, c⟩
    · rw [if_neg h]
      refine ⟨h0, le_refl _, ?_⟩
      by_cases hp : pe > 0
      · right
        simpa [hp] using h
      · left; omega

/-- The loop that steps back over a name: it ends at 0 or right after a
path separator, and it does step back when there is a character of a name
before the position. -/
theorem ff_cut_name_spec (env : Env) (sd : Str) :
    ∀ (fuel : Nat) (pe : Int), 0 ≤ pe → pe ≤ fuel →
      0 ≤ ff_cut_name env sd fuel pe ∧ ff_cut_name env sd fuel pe ≤ pe
        ∧ (ff_cut_name env sd fuel pe = 0
          ∨ env.vim_ispathsep (sd.getD (ff_cut_name env sd fuel pe - 1).toNat 0) = true)
        ∧ (0 < pe → env.vim_ispathsep (sd.getD (pe - 1).toNat 0) = false →
          ff_cut_name env sd fuel pe < pe) := by
  intro fuel
  induction fuel with
  | zero =>
    intro pe h0 h1
    have : pe = 0 := by omega
    subst this
    simp [ff_cut_name]
  | succ f ih =>
    intro pe h0 h1
    rw [ff_cut_name]
    by_cases h : pe > 0 ∧ (!env.vim_ispathsep (sd.getD (pe - 1).toNat 0)) = true
    · rw [if_pos h]
      obtain ⟨a, b, c, _⟩ := ih (pe - 1) (by omega) (by push_cast at h1; omega)
      exact ⟨a, by omega, c, fun _ _ => by omega⟩
    · rw [if_neg h]
      refine ⟨h0, le_refl _, ?_, ?_⟩
      · by_cases hp : pe > 0
        · right
          simpa [hp] using h
        · left; omega
      · intro hp hs
        exact absurd ⟨hp, by rw [hs]; rfl⟩ h

/-- C29 (counterexample).  From the start directory `/a/b/`, not empty and not in the stop list, the first upward step of a call (`path_end` at the end of the string) strips nothing: the new start directory is `/a/b/` again, and a frame for it is pushed. -/
theorem ff_upward_trailing_sep_counterexample :
    ff_path_in_stoplist (tree_env tree_r 4096 []) (str "/a/b/") 5 [[]] = false
    ∧ (match ff_upward (tree_env tree_r 4096 [])
          { star_state (str "/a/b/") (str "tags") 2 FINDFILE_FILE false [] [] [] with
            ffsc_stopdirs_v := some [[]] } 5 with
        | .seed c path_end =>
          (c.ffsc_start_dir, c.ffsc_stack_ptr.map (·.ffs_fix_path), path_end)
        | .stop _ => (none, [], 0))
      = (some (str "/a/b/"), [str "/a/b/"], 4) := by
  decide

/-- The frames `ff_push_children` pushes, the last entry on top. -/
theorem ff_push_children_eq (env : Env) (rest : Str) (level : Int) :
    ∀ (entries : List Str) (c : ff_search_ctx_T),
      ff_push_children env rest level entries c =
        { c with
          ffsc_stack_ptr :=
            ((entries.filter env.mch_isdir).map
              (fun e => ff_create_stack_element (some e) (some rest) (level - 1) 0)).reverse
              ++ c.ffsc_stack_ptr } := by
  intro entries
  induction entries with
  | nil => intro c; rfl
  | cons e more ih =>
    intro c
    rw [ff_push_children]
    by_cases h : env.mch_isdir e = true
    · rw [if_neg (by simp [h]), ih, List.filter_cons_of_pos h]
      simp [ff_push]
    · rw [if_pos (by simp [h]), ih, List.filter_cons_of_neg h]

/-- The stack after a turn of the downward loop that goes on: new frames,
one level below the frame popped, on top of the stack as it was; none when
the frame popped has a level `<= 0`. -/
theorem ff_step_finish_new (env : Env) (c : ff_search_ctx_T) (stackp : ff_stack_T) :
    ∃ c' new, ff_step_finish env c stackp = .again c'
      ∧ c'.ffsc_stack_ptr = new ++ c.ffsc_stack_ptr
      ∧ ∀ g ∈ new, g.ffs_level = stackp.ffs_level - 1 := by
  unfold ff_step_finish
  split_ifs
  · refine ⟨_, ((((stackp.ffs_filearray.getD []).drop stackp.ffs_filearray_cur).filter
        (fun e => !(env.fnamecmp e stackp.ffs_fix_path == 0) && env.mch_isdir e)).map
        (fun e => ff_create_stack_element (some e) (some stackp.ffs_wc_path)
          (stackp.ffs_level - 1) 1)).reverse, rfl, ?_, ?_⟩
    · rw [ff_push_star_star_eq]
    · intro g hg
      simp only [List.mem_reverse, List.mem_map] at hg
      obtain ⟨e, _, he⟩ := hg
      rw [← he]
      rfl
  · exact ⟨_, [], rfl, rfl, fun g hg => absurd hg (List.not_mem_nil _)⟩

theorem ff_step_frame_new (env : Env) (c : ff_search_ctx_T) (stackp : ff_stack_T) :
    match ff_step_frame env c stackp with
    | .again c' => ∃ new, c'.ffsc_stack_ptr = new ++ c.ffsc_stack_ptr
        ∧ (∀ g ∈ new, g.ffs_level = stackp.ffs_level - 1)
        ∧ (stackp.ffs_level ≤ 0 → new = [])
    | _ => True := by
  unfold ff_step_frame
  by_cases hl : stackp.ffs_level ≤ 0
  · rw [if_pos hl]
    exact ⟨[], rfl, fun g hg => absurd hg (List.not_mem_nil _), fun _ => rfl⟩
  · rw [if_neg hl]
    dsimp only
    have hex : (if stackp.ffs_filearray.isNone = true then ff_expand env c stackp
        else (stackp, [])).1.ffs_level = stackp.ffs_level := by
      split_ifs
      · exact ff_expand_level env c stackp
      · rfl
    revert hex
    generalize (if stackp.ffs_filearray.isNone = true then ff_expand env c stackp
      else (stackp, [])) = ex
    intro hex
    by_cases hs : ex.1.ffs_stage = 0
    · rw [if_pos hs]
      by_cases hr : ex.2.headD 0 = 0
      · rw [if_pos hr]
        cases ff_scan_entries env c
          ((ex.1.ffs_filearray.getD []).drop ex.1.ffs_filearray_cur) ex.1.ffs_filearray_cur
          ((hdr_deref c.ffsc_visited_lists_list c.ffsc_visited_list).map
            (·.ffvl_visited_list)) with
        | fault => trivial
        | hit i p l' => trivial
        | miss vl =>
          dsimp only
          obtain ⟨c', new, h1, h2, h3⟩ := ff_step_finish_new env
            { c with
              ffsc_visited_lists_list :=
                match vl with
                | none => c.ffsc_visited_lists_list
                | some l => hdr_store c.ffsc_visited_lists_list c.ffsc_visited_list l }
            { ex.1 with ffs_filearray_cur := 0, ffs_stage := 1 }
          rw [h1]
          refine ⟨new, h2, fun g hg => ?_, fun h => absurd h hl⟩
          rw [h3 g hg]
          exact congrArg (· - 1) hex
      · rw [if_neg hr]
        obtain ⟨c', new, h1, h2, h3⟩ := ff_step_finish_new env
          (ff_push_children env ex.2 ex.1.ffs_level
            ((ex.1.ffs_filearray.getD []).drop ex.1.ffs_filearray_cur) c)
          { ex.1 with ffs_filearray_cur := 0, ffs_stage := 1 }
        rw [h1]
        refine ⟨new ++ ((((ex.1.ffs_filearray.getD []).drop ex.1.ffs_filearray_cur).filter
          env.mch_isdir).map
          (fun e => ff_create_stack_element (some e) (some ex.2) (ex.1.ffs_level - 1)
            0)).reverse, ?_, ?_, fun h => absurd h hl⟩
        · rw [h2, ff_push_children_eq, List.append_assoc]
        · intro g hg
          rcases List.mem_append.mp hg with hg | hg
          · rw [h3 g hg]
            exact congrArg (· - 1) hex
          · simp only [List.mem_reverse, List.mem_map] at hg
            obtain ⟨e, _, he⟩ := hg
            rw [← he, ← hex]
            rfl
    · rw [if_neg hs]
      obtain ⟨c', new, h1, h2, h3⟩ := ff_step_finish_new env c ex.1
      rw [h1]
      refine ⟨new, h2, fun g hg => ?_, fun h => absurd h hl⟩
      rw [h3 g hg, hex]

theorem ff_step_popped_new (env : Env) (c : ff_search_ctx_T) (stackp : ff_stack_T) :
    match ff_step_popped env c stackp with
    | .again c' => ∃ new, c'.ffsc_stack_ptr = new ++ c.ffsc_stack_ptr
        ∧ (∀ g ∈ new, g.ffs_level = stackp.ffs_level - 1)
        ∧ (stackp.ffs_level ≤ 0 → new = [])
    | _ => True := by
  unfold ff_step_popped
  split_ifs with h1
  · cases hdr_deref c.ffsc_dir_visited_lists_list c.ffsc_dir_visited_list with
    | none => trivial
    | some h =>
      dsimp only
      split_ifs
      · exact ⟨[], rfl, fun g hg => absurd hg (List.not_mem_nil _), fun _ => rfl⟩
      · have := ff_step_frame_new env
          { c with
            ffsc_dir_visited_lists_list :=
              hdr_store c.ffsc_dir_visited_lists_list c.ffsc_dir_visited_list
                (ff_check_visited env h.ffvl_visited_list stackp.ffs_fix_path
                  (some stackp.ffs_wc_path)).2 } stackp
        revert this
        cases ff_step_frame env _ stackp with
        | again c' => exact id
        | found p c' => exact id
        | fault => exact id
  · exact ff_step_frame_new env c stackp

/-- An upward step that pushes a frame moves `path_end` towards the start
of the start directory, and not before it. -/
theorem ff_upward_path_end (env : Env) (c c2 : ff_search_ctx_T) (path_end path_end2 : Int)
    (h : ff_upward env c path_end = .seed c2 path_end2) :
    0 ≤ path_end2 ∧ path_end2 < path_end := by
  unfold ff_upward at h
  revert h
  cases c.ffsc_start_dir with
  | none => intro h; simp at h
  | some sd =>
    cases c.ffsc_stopdirs_v with
    | none => intro h; simp at h
    | some sv =>
      dsimp only
      intro h
      split_ifs at h with h1 h2
      simp only [ff_up.seed.injEq] at h
      rw [← h.2]
      by_cases hp : 0 ≤ path_end
      · obtain ⟨q0, q1, _⟩ := ff_cut_seps_spec env sd path_end.toNat path_end hp
          (by rw [Int.toNat_of_nonneg hp])
        obtain ⟨n0, n1, _, _⟩ := ff_cut_name_spec env sd
          (ff_cut_seps env sd path_end.toNat path_end).toNat
          (ff_cut_seps env sd path_end.toNat path_end) q0 (by rw [Int.toNat_of_nonneg q0])
        constructor
        · by_contra hneg
          apply h2
          have : (ff_cut_name env sd (ff_cut_seps env sd path_end.toNat path_end).toNat
              (ff_cut_seps env sd path_end.toNat path_end)).toNat = 0 := by omega
          rw [this]
          rfl
        · omega
      · exfalso
        apply h2
        have h0 : path_end.toNat = 0 := by omega
        rw [h0]
        simp only [ff_cut_seps, Int.toNat_of_nonneg, ff_cut_name]
        have : path_end.toNat = 0 := h0
        rw [this]
        simp only [ff_cut_name, this]
        rfl

theorem ff_search_loop_succ (env : Env) (poll : Nat → Bool) (fuel k : Nat)
    (c : ff_search_ctx_T) (pe : Int) :
    ff_search_loop env poll (fuel + 1) k c pe =
      if poll k then .done none c
      else
        match ff_pop c with
        | (none, c1) =>
          match ff_upward env c1 pe with
          | .stop c2 => .done none c2
          | .seed c2 pe2 => ff_search_loop env poll fuel (k + 1) c2 pe2
        | (some stackp, c1) =>
          match ff_step_popped env c1 stackp with
          | .fault => .fault
          | .found file_path c2 => .done (some file_path) c2
          | .again c2 => ff_search_loop env poll fuel (k + 1) c2 pe := by
  rfl

/-- More turns than needed do not change what a call returns. -/
theorem ff_search_loop_mono (env : Env) (poll : Nat → Bool) :
    ∀ (fuel k : Nat) (c : ff_search_ctx_T) (pe : Int),
      ff_search_loop env poll fuel k c pe ≠ .out_of_fuel →
      ff_search_loop env poll (fuel + 1) k c pe = ff_search_loop env poll fuel k c pe := by
  intro fuel
  induction fuel with
  | zero => intro k c pe h; exact absurd rfl h
  | succ f ih =>
    intro k c pe h
    rw [ff_search_loop_succ env poll (f + 1), ff_search_loop_succ env poll f]
    rw [ff_search_loop_succ env poll f] at h
    by_cases hp : poll k = true
    · rw [if_pos hp, if_pos hp]
    · rw [if_neg hp, if_neg hp]
      rw [if_neg hp] at h
      revert h
      cases ff_pop c with
      | mk top c1 =>
        cases top with
        | none =>
          dsimp only
          cases ff_upward env c1 pe with
          | stop c2 => intro _; rfl
          | seed c2 pe2 => exact fun h => ih _ _ _ h
        | some stackp =>
          dsimp only
          cases ff_step_popped env c1 stackp with
          | fault => intro _; rfl
          | found p c2 => intro _; rfl
          | again c2 => exact fun h => ih _ _ _ h

theorem ff_search_loop_mono_le (env : Env) (poll : Nat → Bool) (fuel k : Nat)
    (c : ff_search_ctx_T) (pe : Int)
    (h : ff_search_loop env poll fuel k c pe ≠ .out_of_fuel) :
    ∀ m, ff_search_loop env poll (fuel + m) k c pe = ff_search_loop env poll fuel k c pe := by
  intro m
  induction m with
  | zero => rfl
  | succ m ih =>
    rw [← Nat.add_assoc, ff_search_loop_mono env poll (fuel + m) k c pe (by rw [ih]; exact h),
      ih]

theorem ff_returns_again (env : Env) (poll : Nat → Bool) (k : Nat)
    (c c1 c2 : ff_search_ctx_T) (stackp : ff_stack_T) (pe : Int)
    (hpop : ff_pop c = (some stackp, c1))
    (hstep : ff_step_popped env c1 stackp = .again c2)
    (h : ff_returns env poll (k + 1) c2 pe) : ff_returns env poll k c pe := by
  obtain ⟨fuel, hf⟩ := h
  refine ⟨fuel + 1, ?_⟩
  rw [ff_search_loop_succ]
  split_ifs
  · simp
  · rw [hpop]
    dsimp only
    rw [hstep]
    exact hf

theorem ff_returns_not_again (env : Env) (poll : Nat → Bool) (k : Nat)
    (c c1 : ff_search_ctx_T) (stackp : ff_stack_T) (pe : Int)
    (hpop : ff_pop c = (some stackp, c1))
    (hstep : ∀ c2, ff_step_popped env c1 stackp ≠ .again c2) : ff_returns env poll k c pe := by
  refine ⟨1, ?_⟩
  rw [ff_search_loop_succ]
  split_ifs
  · simp
  · rw [hpop]
    dsimp only
    revert hstep
    cases ff_step_popped env c1 stackp with
    | fault => intro _; simp
    | found p c2 => intro _; simp
    | again c2 => intro h; exact absurd rfl (h c2)

/-- The downward loop works off the frames on top of the stack: from a
stack `fs ++ rest`, with the frames of `fs` at a level of at most `n`, the
call returns if it returns from every state with the stack `rest`. -/
theorem ff_returns_down (env : Env) (poll : Nat → Bool) (pe : Int) :
    ∀ (n : Nat) (fs rest : List ff_stack_T), (∀ f ∈ fs, f.ffs_level ≤ n) →
      (∀ k' c', c'.ffsc_stack_ptr = rest → ff_returns env poll k' c' pe) →
      ∀ (k : Nat) (c : ff_search_ctx_T), c.ffsc_stack_ptr = fs ++ rest →
        ff_returns env poll k c pe := by
  intro n
  induction n with
  | zero =>
    intro fs
    induction fs with
    | nil => intro rest _ hk k c hc; exact hk k c (by simpa using hc)
    | cons f fs ih =>
      intro rest hlev hk k c hc
      have hpop : ff_pop c = (some f, { c with ffsc_stack_ptr := fs ++ rest }) := by
        unfold ff_pop
        rw [hc]
        rfl
      have hnew := ff_step_popped_new env { c with ffsc_stack_ptr := fs ++ rest } f
      cases hstep : ff_step_popped env { c with ffsc_stack_ptr := fs ++ rest } f with
      | fault => exact ff_returns_not_again env poll k c _ f pe hpop (by rw [hstep]; simp)
      | found p c2 => exact ff_returns_not_again env poll k c _ f pe hpop (by rw [hstep]; simp)
      | again c2 =>
        rw [hstep] at hnew
        obtain ⟨new, h1, _, h3⟩ := hnew
        have hl : f.ffs_level ≤ 0 := by
          have := hlev f (List.mem_cons_self _ _)
          simpa using this
        rw [h3 hl, List.nil_append] at h1
        exact ff_returns_again env poll k c _ c2 f pe hpop hstep
          (ih rest (fun g hg => hlev g (List.mem_cons_of_mem _ hg)) hk (k + 1) c2 h1)
  | succ m ihm =>
    intro fs
    induction fs with
    | nil => intro rest _ hk k c hc; exact hk k c (by simpa using hc)
    | cons f fs ih =>
      intro rest hlev hk k c hc
      have hpop : ff_pop c = (some f, { c with ffsc_stack_ptr := fs ++ rest }) := by
        unfold ff_pop
        rw [hc]
        rfl
      have hnew := ff_step_popped_new env { c with ffsc_stack_ptr := fs ++ rest } f
      cases hstep : ff_step_popped env { c with ffsc_stack_ptr := fs ++ rest } f with
      | fault => exact ff_returns_not_again env poll k c _ f pe hpop (by rw [hstep]; simp)
      | found p c2 => exact ff_returns_not_again env poll k c _ f pe hpop (by rw [hstep]; simp)
      | again c2 =>
        rw [hstep] at hnew
        obtain ⟨new, h1, h2, _⟩ := hnew
        apply ff_returns_again env poll k c _ c2 f pe hpop hstep
        apply ihm new (fs ++ rest) _ _ (k + 1) c2 h1
        · intro g hg
          have := hlev f (List.mem_cons_self _ _)
          rw [h2 g hg]
          push_cast at this ⊢
          omega
        · intro k' c' hc'
          exact ih rest (fun g hg => hlev g (List.mem_cons_of_mem _ hg)) hk k' c' hc'

theorem ff_levels_bounded : ∀ fs : List ff_stack_T, ∃ n : Nat, ∀ f ∈ fs, f.ffs_level ≤ n := by
  intro fs
  induction fs with
  | nil => exact ⟨0, fun f hf => absurd hf (List.not_mem_nil _)⟩
  | cons f fs ih =>
    obtain ⟨n, hn⟩ := ih
    refine ⟨max n f.ffs_level.toNat, ?_⟩
    intro g hg
    rcases List.mem_cons.mp hg with h | h
    · rw [h]
      have := Int.self_le_toNat f.ffs_level
      have h2 : (f.ffs_level.toNat : Int) ≤ (max n f.ffs_level.toNat : Nat) := by
        exact_mod_cast le_max_right _ _
      omega
    · have := hn g h
      have h2 : (n : Int) ≤ (max n f.ffs_level.toNat : Nat) := by
        exact_mod_cast le_max_left _ _
      omega

/-- Every state of the loops of `vim_findfile` comes to an end. -/
theorem ff_returns_all (env : Env) (poll : Nat → Bool) :
    ∀ (m : Nat) (pe : Int), pe.toNat ≤ m → ∀ (k : Nat) (c : ff_search_ctx_T),
      ff_returns env poll k c pe := by
  intro m
  induction m with
  | zero =>
    intro pe hpe k c
    obtain ⟨n, hn⟩ := ff_levels_bounded c.ffsc_stack_ptr
    apply ff_returns_down env poll pe n c.ffsc_stack_ptr [] hn _ k c (by simp)
    intro k' c' hc'
    refine ⟨1, ?_⟩
    rw [ff_search_loop_succ]
    split_ifs
    · simp
    · have hpop : ff_pop c' = (none, c') := by
        unfold ff_pop
        rw [hc']
      rw [hpop]
      dsimp only
      cases hup : ff_upward env c' pe with
      | stop c2 => simp
      | seed c2 pe2 =>
        have := ff_upward_path_end env c' c2 pe pe2 hup
        omega
  | succ m ih =>
    intro pe hpe k c
    obtain ⟨n, hn⟩ := ff_levels_bounded c.ffsc_stack_ptr
    apply ff_returns_down env poll pe n c.ffsc_stack_ptr [] hn _ k c (by simp)
    intro k' c' hc'
    have hpop : ff_pop c' = (none, c') := by
      unfold ff_pop
      rw [hc']
    cases hup : ff_upward env c' pe with
    | stop c2 =>
      refine ⟨1, ?_⟩
      rw [ff_search_loop_succ]
      split_ifs
      · simp
      · rw [hpop]
        dsimp only
        rw [hup]
        simp
    | seed c2 pe2 =>
      have hlt := ff_upward_path_end env c' c2 pe pe2 hup
      obtain ⟨fuel, hf⟩ := ih pe2 (by omega) (k' + 1) c2
      refine ⟨fuel + 1, ?_⟩
      rw [ff_search_loop_succ]
      split_ifs
      · simp
      · rw [hpop]
        dsimp only
        rw [hup]
        exact hf

/-- C37.  Every call of `vim_findfile` comes to an end: for every environment, interrupt flag and context there is a number of turns from which on the call returns, always the same result.  On the way, a turn of the downward loop that goes on leaves on the stack new frames one level below the frame popped, none for a frame with level `<= 0`, and an upward step that pushes a frame moves `path_end` strictly towards the start of the start directory, never before it. -/
theorem vim_findfile_terminates (env : Env) (poll : Nat → Bool) (c : ff_search_ctx_T) :
    (∃ fuel r, r ≠ ff_result.out_of_fuel
        ∧ ∀ m, vim_findfile env poll (fuel + m) c = r)
      ∧ (∀ (c1 c2 : ff_search_ctx_T) (stackp : ff_stack_T),
          ff_step_popped env c1 stackp = .again c2 →
          ∃ new, c2.ffsc_stack_ptr = new ++ c1.ffsc_stack_ptr
            ∧ (∀ g ∈ new, g.ffs_level = stackp.ffs_level - 1)
            ∧ (stackp.ffs_level ≤ 0 → new = []))
      ∧ (∀ (c1 c2 : ff_search_ctx_T) (path_end path_end2 : Int),
          ff_upward env c1 path_end = .seed c2 path_end2 →
          0 ≤ path_end2 ∧ path_end2 < path_end) := by
  refine ⟨?_, ?_, ?_⟩
  · obtain ⟨fuel, hf⟩ := ff_returns_all env poll _ ((c.ffsc_start_dir.getD []).length : Int)
      (le_refl _) 0 c
    refine ⟨fuel, _, hf, fun m => ?_⟩
    unfold vim_findfile
    exact ff_search_loop_mono_le env poll fuel 0 c _ hf m
  · intro c1 c2 stackp h
    have := ff_step_popped_new env c1 stackp
    rw [h] at this
    exact this
  · exact fun c1 c2 pe pe2 h => ff_upward_path_end env c1 c2 pe pe2 h

theorem ff_cut_seps_stay (env : Env) (sd : Str) (fuel : Nat) (pe : Int)
    (h : ¬ (pe > 0 ∧ env.vim_ispathsep (sd.getD pe.toNat 0) = true)) :
    ff_cut_seps env sd fuel pe = pe := by
  cases fuel with
  | zero => rfl
  | succ f => rw [ff_cut_seps, if_neg h]

/-- The loop that steps back over path separators, from the last one of a
run of separators that follows a character of a name: it ends at that
character. -/
theorem ff_cut_seps_run (env : Env) (hsep : ∀ ch, env.vim_ispathsep ch = (ch == 47))
    (A : Str) (x : Nat) (hx : x ≠ 47) :
    ∀ (t rest : Str) (fuel : Nat), (∀ ch ∈ t, ch = 47) → t.length ≤ fuel →
      ff_cut_seps env (A ++ x :: (t ++ rest)) fuel ((A.length + t.length : Nat) : Int)
        = (A.length : Int) := by
  intro t
  induction t using List.reverseRecOn with
  | nil =>
    intro rest fuel _ _
    rw [List.length_nil, Nat.add_zero]
    apply ff_cut_seps_stay
    rintro ⟨_, h2⟩
    rw [Int.toNat_natCast, List.nil_append, getD_append_cons, hsep] at h2
    simp [hx] at h2
  | append_singleton t y ih =>
    intro rest fuel ht hf
    have hy : y = 47 := ht y (by simp)
    subst hy
    rw [List.length_append, List.length_singleton] at hf
    obtain ⟨f, rfl⟩ : ∃ f, fuel = f + 1 := ⟨fuel - 1, by omega⟩
    have hlen : A.length + (t ++ [47]).length = (A ++ x :: t).length := by simp
    have hl : A ++ x :: (t ++ [47] ++ rest) = (A ++ x :: t) ++ 47 :: rest := by simp
    rw [ff_cut_seps, if_pos]
    · have h4 : ((A.length + (t ++ [47]).length : Nat) : Int) - 1
          = ((A.length + t.length : Nat) : Int) := by
        simp only [List.length_append, List.length_singleton]
        push_cast
        omega
      have hl2 : A ++ x :: (t ++ [47] ++ rest) = A ++ x :: (t ++ (47 :: rest)) := by simp
      rw [h4, hl2]
      exact ih (47 :: rest) f (fun ch hch => ht ch (by simp [hch])) (by omega)
    · refine ⟨by simp only [List.length_append, List.length_singleton]; push_cast; omega, ?_⟩
      rw [Int.toNat_natCast, hlen, hl, getD_append_cons, hsep]
      rfl

/-- The loop that steps back over a name, from the end of a name that
starts the string or follows a path separator: it ends at the start of the
name. -/
theorem ff_cut_name_to (env : Env) (hsep : ∀ ch, env.vim_ispathsep ch = (ch == 47))
    (P : Str) (hP : P = [] ∨ P.getLast? = some 47) :
    ∀ (d rest : Str) (fuel : Nat), (∀ ch ∈ d, ch ≠ 47) → d.length ≤ fuel →
      ff_cut_name env (P ++ (d ++ rest)) fuel ((P.length + d.length : Nat) : Int)
        = (P.length : Int) := by
  intro d
  induction d using List.reverseRecOn with
  | nil =>
    intro rest fuel _ _
    rw [List.length_nil, Nat.add_zero]
    cases fuel with
    | zero => rfl
    | succ f =>
      rw [ff_cut_name, if_neg]
      rintro ⟨h1, h2⟩
      rcases hP with hP | hP
      · subst hP
        simp at h1
      · obtain ⟨Q, rfl⟩ : ∃ Q, P = Q ++ [47] := by
          cases hq : P.reverse with
          | nil =>
            have : P = [] := by simpa using hq
            subst this
            simp at hP
          | cons y r =>
            have hPe : P = r.reverse ++ [y] := by
              have := congrArg List.reverse hq
              simpa using this
            rw [hPe] at hP
            have hy : y = 47 := by simpa using hP
            exact ⟨r.reverse, by rw [hPe, hy]⟩
        have h3 : (((Q ++ [47]).length : Int) - 1).toNat = Q.length := by simp
        have hl : Q ++ [47] ++ ([] ++ rest) = Q ++ 47 :: rest := by simp
        rw [h3, hl, getD_append_cons, hsep] at h2
        simp at h2
  | append_singleton d x ih =>
    intro rest fuel hd hf
    rw [List.length_append, List.length_singleton] at hf
    obtain ⟨f, rfl⟩ : ∃ f, fuel = f + 1 := ⟨fuel - 1, by omega⟩
    have hxd : x ≠ 47 := hd x (by simp)
    have h3 : (((P.length + (d ++ [x]).length : Nat) : Int) - 1).toNat = (P ++ d).length := by
      simp
      omega
    have hl : P ++ (d ++ [x] ++ rest) = (P ++ d) ++ x :: rest := by simp
    rw [ff_cut_name, if_pos]
    · have h4 : ((P.length + (d ++ [x]).length : Nat) : Int) - 1
          = ((P.length + d.length : Nat) : Int) := by
        simp only [List.length_append, List.length_singleton]
        push_cast
        omega
      have hl2 : P ++ (d ++ [x] ++ rest) = P ++ (d ++ (x :: rest)) := by simp
      rw [h4, hl2]
      exact ih (x :: rest) f (fun ch hch => hd ch (by simp [hch])) (by omega)
    · refine ⟨by simp only [List.length_append, List.length_singleton]; push_cast; omega, ?_⟩
      rw [h3, hl, getD_append_cons, hsep]
      simp [hxd]

/-- The loop that steps back over path separators, in a string that starts
with a run of separators, from a separator of the run: it ends at 0. -/
theorem ff_cut_seps_all (env : Env) (hsep : ∀ ch, env.vim_ispathsep ch = (ch == 47)) :
    ∀ (t rest : Str) (fuel : Nat), (∀ ch ∈ t, ch = 47) → t.length ≤ fuel →
      ff_cut_seps env (t ++ 47 :: rest) fuel ((t.length : Nat) : Int) = 0 := by
  intro t
  induction t using List.reverseRecOn with
  | nil =>
    intro rest fuel _ _
    exact ff_cut_seps_stay env _ fuel _ (by simp)
  | append_singleton t y ih =>
    intro rest fuel ht hf
    have hy : y = 47 := ht y (by simp)
    subst hy
    rw [List.length_append, List.length_singleton] at hf
    obtain ⟨f, rfl⟩ : ∃ f, fuel = f + 1 := ⟨fuel - 1, by omega⟩
    rw [ff_cut_seps, if_pos]
    · have h4 : (((t ++ [47]).length : Nat) : Int) - 1 = ((t.length : Nat) : Int) := by
        simp
      have hl2 : t ++ [47] ++ 47 :: rest = t ++ 47 :: (47 :: rest) := by simp
      rw [h4, hl2]
      exact ih (47 :: rest) f (fun ch hch => ht ch (by simp [hch])) (by omega)
    · refine ⟨by simp only [List.length_append, List.length_singleton]; push_cast; omega, ?_⟩
      rw [Int.toNat_natCast, getD_append_cons, hsep]
      rfl

/-- C29 (as amended).  With `/` as the path separator, write the start directory as `P ++ d ++ t`: `t` the path separators at its end, `d` the name before them (without a separator, and empty only when `P` is empty) and `P` the part before the name (empty or ending with a separator).  An upward step from this start directory, not in the stop list, with `path_end` at the last separator of `t` or, when `t` is empty, at the end of the string, strips exactly the last path segment `d ++ t`: the new start directory is `P`, a strictly shorter prefix of a start directory that is not empty; when `P` is empty the upward loop ends (NULL is returned), otherwise a frame for `P` is pushed and `path_end` is at the last character of `P`.  The exception is the step with `path_end` at the end of a start directory that ends with a separator (the first step of a call from such a directory): it strips nothing. -/
theorem ff_upward_strips_segment (env : Env) (c : ff_search_ctx_T) (P d t : Str)
    (sv : List Str) (path_end : Int)
    (hsep : ∀ ch, env.vim_ispathsep ch = (ch == 47))
    (hsd : c.ffsc_start_dir = some (P ++ d ++ t)) (hsv : c.ffsc_stopdirs_v = some sv)
    (hstop : ff_path_in_stoplist env (P ++ d ++ t) path_end sv = false)
    (hP : P = [] ∨ P.getLast? = some 47) (hd : 47 ∉ d) (hdP : d ≠ [] ∨ P = [])
    (ht : ∀ ch ∈ t, ch = 47) :
    (path_end = ((P ++ d ++ t).length : Int) - (if t = [] then 0 else 1) →
      ff_upward env c path_end =
          (if P.headD 0 = 0 then .stop { c with ffsc_start_dir := some P }
          else
            .seed
              (ff_push { c with ffsc_start_dir := some P }
                (ff_create_stack_element
                  (some (env.add_pathsep P ++ c.ffsc_fix_path.getD []))
                  c.ffsc_wc_path c.ffsc_level 0))
              ((P.length : Int) - 1))
        ∧ P <+: P ++ d ++ t
        ∧ (P ++ d ++ t ≠ [] → P.length < (P ++ d ++ t).length))
    ∧ (t ≠ [] → path_end = ((P ++ d ++ t).length : Int) →
      ff_upward env c path_end =
        (if (P ++ d ++ t).headD 0 = 0 then
          .stop { c with ffsc_start_dir := some (P ++ d ++ t) }
        else
          .seed
            (ff_push { c with ffsc_start_dir := some (P ++ d ++ t) }
              (ff_create_stack_element
                (some (env.add_pathsep (P ++ d ++ t) ++ c.ffsc_fix_path.getD []))
                c.ffsc_wc_path c.ffsc_level 0))
            (((P ++ d ++ t).length : Int) - 1))) := by
  have hd47 : ∀ ch ∈ d, ch ≠ 47 := fun ch hch h => hd (h ▸ hch)
  have hend : ∀ fuel, ff_cut_seps env (P ++ d ++ t) fuel (((P ++ d ++ t).length : Nat) : Int)
      = (((P ++ d ++ t).length : Nat) : Int) := by
    intro fuel
    apply ff_cut_seps_stay
    rintro ⟨_, h2⟩
    rw [Int.toNat_natCast, List.getD_eq_default _ _ (le_refl _), hsep] at h2
    simp at h2
  constructor
  · intro hpe
    refine ⟨?_, ⟨d ++ t, by simp⟩, ?_⟩
    · have hcut : ff_cut_name env (P ++ d ++ t)
          (ff_cut_seps env (P ++ d ++ t) path_end.toNat path_end).toNat
          (ff_cut_seps env (P ++ d ++ t) path_end.toNat path_end) = (P.length : Int) := by
        by_cases ht0 : t = []
        · subst ht0
          rw [if_pos rfl, sub_zero] at hpe
          rw [hpe, hend, Int.toNat_natCast]
          have hl : P ++ d ++ [] = P ++ (d ++ []) := by simp
          have hn : (P ++ d ++ ([] : Str)).length = P.length + d.length := by simp
          rw [hn, hl]
          exact ff_cut_name_to env hsep P hP d [] _ hd47 (by omega)
        · rw [if_neg ht0] at hpe
          have htl : 0 < t.length := List.length_pos.mpr ht0
          by_cases hdne : d ≠ []
          · obtain ⟨d0, x, rfl⟩ : ∃ d0 x, d = d0 ++ [x] :=
              ⟨d.dropLast, d.getLast hdne, (List.dropLast_append_getLast hdne).symm⟩
            have hx : x ≠ 47 := hd47 x (by simp)
            have hpe2 : path_end = (((P ++ d0).length + t.length : Nat) : Int) := by
              rw [hpe]
              simp only [List.length_append, List.length_singleton]
              push_cast
              omega
            have hl : P ++ (d0 ++ [x]) ++ t = (P ++ d0) ++ x :: (t ++ []) := by simp
            have hq : ff_cut_seps env (P ++ (d0 ++ [x]) ++ t) path_end.toNat path_end
                = ((P ++ d0).length : Int) := by
              rw [hpe2, Int.toNat_natCast, hl]
              exact ff_cut_seps_run env hsep (P ++ d0) x hx t [] _ ht (by omega)
            have hl2 : P ++ (d0 ++ [x]) ++ t = P ++ (d0 ++ (x :: t)) := by simp
            have hn : ((P ++ d0).length : Int) = ((P.length + d0.length : Nat) : Int) := by
              simp
            rw [hq, hn, Int.toNat_natCast, hl2]
            exact ff_cut_name_to env hsep P hP d0 (x :: t) _
              (fun ch hch => hd47 ch (by simp [hch])) (by omega)
          · have hde : d = [] := not_not.mp hdne
            have hPe : P = [] := by
              rcases hdP with h | h
              · exact absurd hde h
              · exact h
            subst hde hPe
            obtain ⟨t0, y, rfl⟩ : ∃ t0 y, t = t0 ++ [y] :=
              ⟨t.dropLast, t.getLast ht0, (List.dropLast_append_getLast ht0).symm⟩
            have hy : y = 47 := ht y (by simp)
            subst hy
            have hpe2 : path_end = ((t0.length : Nat) : Int) := by
              rw [hpe]
              simp
            have hl : ([] : Str) ++ [] ++ (t0 ++ [47]) = t0 ++ 47 :: [] := by simp
            have hq : ff_cut_seps env (([] : Str) ++ [] ++ (t0 ++ [47])) path_end.toNat path_end
                = 0 := by
              rw [hpe2, Int.toNat_natCast, hl]
              exact ff_cut_seps_all env hsep t0 [] _ (fun ch hch => ht ch (by simp [hch]))
                (le_refl _)
            rw [hq]
            rfl
      unfold ff_upward
      rw [hsd, hsv]
      dsimp only
      rw [hstop, hcut]
      have htake : (P ++ d ++ t).take P.length = P := by
        have : P ++ d ++ t = P ++ (d ++ t) := by simp
        rw [this, List.take_left' rfl]
      simp only [Bool.false_eq_true, if_false, Int.toNat_natCast, htake]
    · intro hne
      rcases hdP with h | h
      · have : 0 < d.length := List.length_pos.mpr h
        simp only [List.length_append]
        omega
      · subst h
        have : 0 < (([] : Str) ++ d ++ t).length := List.length_pos.mpr hne
        simpa using this
  · intro ht0 hpe
    obtain ⟨t0, y, rfl⟩ : ∃ t0 y, t = t0 ++ [y] :=
      ⟨t.dropLast, t.getLast ht0, (List.dropLast_append_getLast ht0).symm⟩
    have hy : y = 47 := ht y (by simp)
    subst hy
    have hcut : ff_cut_name env (P ++ d ++ (t0 ++ [47]))
        (ff_cut_seps env (P ++ d ++ (t0 ++ [47])) path_end.toNat path_end).toNat
        (ff_cut_seps env (P ++ d ++ (t0 ++ [47])) path_end.toNat path_end)
        = ((P ++ d ++ (t0 ++ [47])).length : Int) := by
      rw [hpe, hend, Int.toNat_natCast]
      have hn : (P ++ d ++ (t0 ++ [47])).length = (P ++ d ++ t0).length + 1 := by
        simp only [List.length_append, List.length_singleton]
        omega
      rw [hn, ff_cut_name, if_neg]
      rintro ⟨_, h2⟩
      have h3 : ((((P ++ d ++ t0).length + 1 : Nat) : Int) - 1).toNat = (P ++ d ++ t0).length := by
        omega
      have hl : P ++ d ++ (t0 ++ [47]) = (P ++ d ++ t0) ++ 47 :: [] := by simp
      rw [h3, hl, getD_append_cons, hsep] at h2
      simp at h2
    unfold ff_upward
    rw [hsd, hsv]
    dsimp only
    rw [hstop, hcut]
    simp only [Bool.false_eq_true, if_false, Int.toNat_natCast, List.take_length]

/-- From the start directory `/d1/d2/`, an upward step with `path_end` at
the last separator strips the segment `d2/` and pushes a frame for `/d1/`;
the step with `path_end` at the end of the string strips nothing. -/
theorem ff_upward_strips_segment_witness :
    ff_path_in_stoplist (tree_env tree_r 4096 []) (str "/d1/d2/") 6 [[]] = false
    ∧ ff_upward (tree_env tree_r 4096 [])
        { star_state (str "/d1/d2/") (str "tags") 2 FINDFILE_FILE false [] [] [] with
          ffsc_stopdirs_v := some [[]] } 6 =
      .seed
        (ff_push
          { star_state (str "/d1/d2/") (str "tags") 2 FINDFILE_FILE false [] [] [] with
            ffsc_stopdirs_v := some [[]], ffsc_start_dir := some (str "/d1/") }
          (ff_create_stack_element (some (str "/d1/")) (some [STAR]) 2 0))
        3
    ∧ ff_path_in_stoplist (tree_env tree_r 4096 []) (str "/d1/d2/") 7 [[]] = false
    ∧ ff_upward (tree_env tree_r 4096 [])
        { star_state (str "/d1/d2/") (str "tags") 2 FINDFILE_FILE false [] [] [] with
          ffsc_stopdirs_v := some [[]] } 7 =
      .seed
        (ff_push
          { star_state (str "/d1/d2/") (str "tags") 2 FINDFILE_FILE false [] [] [] with
            ffsc_stopdirs_v := some [[]], ffsc_start_dir := some (str "/d1/d2/") }
          (ff_create_stack_element (some (str "/d1/d2/")) (some [STAR]) 2 0))
        6 :=
  ⟨by decide,
    ((ff_upward_strips_segment (tree_env tree_r 4096 [])
      { star_state (str "/d1/d2/") (str "tags") 2 FINDFILE_FILE false [] [] [] with
        ffsc_stopdirs_v := some [[]] }
      (str "/d1/") (str "d2") (str "/") [[]] 6 (fun _ => rfl) rfl rfl (by decide)
      (Or.inr (by decide)) (by decide) (Or.inl (by decide)) (by decide)).1 (by decide)).1,
    by decide,
    (ff_upward_strips_segment (tree_env tree_r 4096 [])
      { star_state (str "/d1/d2/") (str "tags") 2 FINDFILE_FILE false [] [] [] with
        ffsc_stopdirs_v := some [[]] }
      (str "/d1/") (str "d2") (str "/") [[]] 7 (fun _ => rfl) rfl rfl (by decide)
      (Or.inr (by decide)) (by decide) (Or.inl (by decide)) (by decide)).2
      (by decide) (by decide)⟩

theorem ff_with_with (c : ff_search_ctx_T) (s s2 : List ff_stack_T)
    (fl dl fl2 dl2 : List ff_visited_T) :
    ff_with (ff_with c s fl dl) s2 fl2 dl2 = ff_with c s2 fl2 dl2 := rfl

theorem ff_pop_with (c : ff_search_ctx_T) (f : ff_stack_T) (s : List ff_stack_T)
    (fl dl : List ff_visited_T) :
    ff_pop (ff_with c (f :: s) fl dl) = (some f, ff_with c s fl dl) := rfl

theorem ff_pop_with_nil (c : ff_search_ctx_T) (fl dl : List ff_visited_T) :
    ff_pop (ff_with c [] fl dl) = (none, ff_with c [] fl dl) := rfl

theorem ff_try_suffixes_congr (env : Env) (c1 c2 : ff_search_ctx_T)
    (h : c1.ffsc_find_what = c2.ffsc_find_what) (i : Nat) :
    ∀ (cands : List Str) (vl : Option (List ff_visited_T)),
      ff_try_suffixes env c1 i cands vl = ff_try_suffixes env c2 i cands vl := by
  intro cands
  induction cands with
  | nil => intro vl; rfl
  | cons p more ih =>
    intro vl
    rw [ff_try_suffixes_cons, ff_try_suffixes_cons, ff_file_wanted_find_what env c1 c2 p h,
      ih vl]
    cases vl with
    | none => rfl
    | some l => simp only [ih]

theorem ff_scan_entries_congr (env : Env) (c1 c2 : ff_search_ctx_T)
    (h1 : c1.ffsc_find_what = c2.ffsc_find_what)
    (h2 : c1.ffsc_file_to_search = c2.ffsc_file_to_search)
    (h3 : c1.ffsc_tagfile = c2.ffsc_tagfile) :
    ∀ (entries : List Str) (i : Nat) (vl : Option (List ff_visited_T)),
      ff_scan_entries env c1 entries i vl = ff_scan_entries env c2 entries i vl := by
  intro entries
  induction entries with
  | nil => intro i vl; rfl
  | cons e more ih =>
    intro i vl
    have hc : ff_candidates env c1 e = ff_candidates env c2 e := by
      unfold ff_candidates; rw [h2, h3]
    rw [ff_scan_entries_cons, ff_scan_entries_cons, hc, ff_try_suffixes_congr env c1 c2 h1,
      ih]
    simp only [ih]

theorem ff_scan_entries_with (env : Env) (c : ff_search_ctx_T) (s : List ff_stack_T)
    (fl dl : List ff_visited_T) (entries : List Str) (i : Nat)
    (vl : Option (List ff_visited_T)) :
    ff_scan_entries env (ff_with c s fl dl) entries i vl = ff_scan_entries env c entries i vl :=
  ff_scan_entries_congr env (ff_with c s fl dl) c rfl rfl rfl entries i vl

/-- The check of the visited directories at the start of a turn, on a
context with one visited list for directories. -/
theorem ff_step_popped_with (env : Env) (c : ff_search_ctx_T) (s : List ff_stack_T)
    (fl dl : List ff_visited_T) (f : ff_stack_T) (hf : f.ffs_filearray = none) :
    ff_step_popped env (ff_with c s fl dl) f =
      if (ff_check_visited env dl f.ffs_fix_path (some f.ffs_wc_path)).1 = true then
        ff_step_frame env
          (ff_with c s fl (ff_check_visited env dl f.ffs_fix_path (some f.ffs_wc_path)).2) f
      else .again (ff_with c s fl dl) := by
  unfold ff_step_popped
  rw [hf]
  by_cases h : (ff_check_visited env dl f.ffs_fix_path (some f.ffs_wc_path)).1 = true
  · rw [if_pos h]
    simp [ff_with, hdr_deref, hdr_store, h]
  · rw [if_neg h]
    have h2 := ff_check_visited_fail env dl f.ffs_fix_path (some f.ffs_wc_path)
      (by simpa using h)
    simp [ff_with, hdr_deref, hdr_store, h, h2]

theorem ff_step_popped_resumed (env : Env) (c : ff_search_ctx_T) (f : ff_stack_T)
    (arr : List Str) (hf : f.ffs_filearray = some arr) :
    ff_step_popped env c f = ff_step_frame env c f := by
  unfold ff_step_popped
  simp [hf]

/-- The search for the final file in the turn that expands a frame, when
no wildcards are left, on a context with one visited list for files. -/
theorem ff_step_frame_scan (env : Env) (c : ff_search_ctx_T) (s : List ff_stack_T)
    (fl dl : List ff_visited_T) (f f2 : ff_stack_T) (rest : Str) (arr : List Str)
    (hl : 0 < f.ffs_level) (hf : f.ffs_filearray = none)
    (hex : ff_expand env (ff_with c s fl dl) f = (f2, rest))
    (hst : f2.ffs_stage = 0) (hcur : f2.ffs_filearray_cur = 0)
    (harr : f2.ffs_filearray = some arr) (hrest : rest.headD 0 = 0) :
    ff_step_frame env (ff_with c s fl dl) f =
      match ff_scan_entries env c arr 0 (some fl) with
      | .fault => .fault
      | .hit i p vl =>
        .found (ff_found_name env p)
          (ff_with c ({ f2 with ffs_filearray_cur := (i + 1) % 256 } :: s) vl dl)
      | .miss _ =>
        ff_step_finish env (ff_with c s fl dl)
          { f2 with ffs_filearray_cur := 0, ffs_stage := 1 } := by
  unfold ff_step_frame
  rw [if_neg (by omega)]
  simp only [hf, Option.isNone_none, ↓reduceIte, hex, hst, hrest, hcur, harr,
    Option.getD_some, List.drop_zero]
  rw [show (hdr_deref (ff_with c s fl dl).ffsc_visited_lists_list
      (ff_with c s fl dl).ffsc_visited_list).map (·.ffvl_visited_list) = some fl from rfl,
    ff_scan_entries_with]
  have hspec := ff_scan_entries_spec env c arr 0 (some fl)
  revert hspec
  cases ff_scan_entries env c arr 0 (some fl) with
  | hit i p vl => intro _; rfl
  | miss vl => intro h; subst h; rfl
  | fault => intro _; rfl

/-- The search for the final file in a turn on a frame that has its file
array already. -/
theorem ff_step_frame_rescan (env : Env) (c : ff_search_ctx_T) (s : List ff_stack_T)
    (fl dl : List ff_visited_T) (f : ff_stack_T) (arr : List Str)
    (hl : 0 < f.ffs_level) (harr : f.ffs_filearray = some arr) (hst : f.ffs_stage = 0) :
    ff_step_frame env (ff_with c s fl dl) f =
      match ff_scan_entries env c (arr.drop f.ffs_filearray_cur) f.ffs_filearray_cur
          (some fl) with
      | .fault => .fault
      | .hit i p vl =>
        .found (ff_found_name env p)
          (ff_with c ({ f with ffs_filearray_cur := (i + 1) % 256 } :: s) vl dl)
      | .miss _ =>
        ff_step_finish env (ff_with c s fl dl)
          { f with ffs_filearray_cur := 0, ffs_stage := 1 } := by
  unfold ff_step_frame
  rw [if_neg (by omega)]
  simp only [harr, Option.isNone_some, Bool.false_eq_true, ↓reduceIte, hst, List.headD_nil,
    Option.getD_some]
  rw [show (hdr_deref (ff_with c s fl dl).ffsc_visited_lists_list
      (ff_with c s fl dl).ffsc_visited_list).map (·.ffvl_visited_list) = some fl from rfl,
    ff_scan_entries_with]
  have hspec := ff_scan_entries_spec env c (arr.drop f.ffs_filearray_cur)
    f.ffs_filearray_cur (some fl)
  revert hspec
  cases ff_scan_entries env c (arr.drop f.ffs_filearray_cur) f.ffs_filearray_cur
      (some fl) with
  | hit i p vl => intro _; rfl
  | miss vl => intro h; subst h; rfl
  | fault => intro _; rfl

/-- The turn that expands a frame when wildcards are left: a frame is
pushed for every entry that is a directory. -/
theorem ff_step_frame_children (env : Env) (c : ff_search_ctx_T) (s : List ff_stack_T)
    (fl dl : List ff_visited_T) (f f2 : ff_stack_T) (rest : Str) (arr : List Str)
    (hl : 0 < f.ffs_level) (hf : f.ffs_filearray = none)
    (hex : ff_expand env (ff_with c s fl dl) f = (f2, rest))
    (hst : f2.ffs_stage = 0) (hcur : f2.ffs_filearray_cur = 0)
    (harr : f2.ffs_filearray = some arr) (hrest : rest.headD 0 ≠ 0) :
    ff_step_frame env (ff_with c s fl dl) f =
      ff_step_finish env
        (ff_with c
          (((arr.filter env.mch_isdir).map
            (fun e => ff_create_stack_element (some e) (some rest) (f2.ffs_level - 1)
              0)).reverse ++ s) fl dl)
        { f2 with ffs_filearray_cur := 0, ffs_stage := 1 } := by
  unfold ff_step_frame
  rw [if_neg (by omega)]
  simp only [hf, Option.isNone_none, ↓reduceIte, hex, hst, hrest, hcur, harr,
    Option.getD_some, List.drop_zero]
  rw [ff_push_children_eq]
  rfl

theorem ff_step_finish_plain (env : Env) (c : ff_search_ctx_T) (f : ff_stack_T)
    (h : starts_star_star f.ffs_wc_path = false) : ff_step_finish env c f = .again c := by
  unfold ff_step_finish
  simp [h]

/-- The expansion of a frame without wildcards: its directory. -/
theorem ff_expand_final (env : Env) (c : ff_search_ctx_T) (f : ff_stack_T)
    (hurl : ∀ p, env.path_with_url p = false)
    (habs : env.vim_isAbsName f.ffs_fix_path = true)
    (hadd : env.add_pathsep f.ffs_fix_path = f.ffs_fix_path)
    (hwc : f.ffs_wc_path = []) :
    ff_expand env c f =
      ({ f with
         ffs_filearray := some (env.expand_wildcards [f.ffs_fix_path]),
         ffs_filearray_cur := 0, ffs_stage := 0 }, []) := by
  unfold ff_expand
  simp [habs, hadd, hwc, hurl]

theorem takeWhile_name (env : Env) (hsep : ∀ ch, env.vim_ispathsep ch = (ch == 47))
    (b : Str) (hb : ∀ ch ∈ b, ch ≠ 0 ∧ ch ≠ 47) :
    b.takeWhile (fun c => c != 0 && !env.vim_ispathsep c) = b
      ∧ b.dropWhile (fun c => c != 0 && !env.vim_ispathsep c) = [] := by
  have h : ∀ ch ∈ b, (ch != 0 && !env.vim_ispathsep ch) = true := by
    intro ch hch
    have := hb ch hch
    simp [hsep, this.1, this.2]
  exact ⟨List.takeWhile_eq_self_iff.mpr h, List.dropWhile_eq_nil_iff.mpr h⟩

/-- The expansion of a frame whose wildcards are one name. -/
theorem ff_expand_name (env : Env) (c : ff_search_ctx_T) (f : ff_stack_T)
    (hsep : ∀ ch, env.vim_ispathsep ch = (ch == 47))
    (hurl : ∀ p, env.path_with_url p = false)
    (habs : env.vim_isAbsName f.ffs_fix_path = true)
    (hadd : env.add_pathsep f.ffs_fix_path = f.ffs_fix_path)
    (hb0 : f.ffs_wc_path ≠ []) (hb : ∀ ch ∈ f.ffs_wc_path, ch ≠ 0 ∧ ch ≠ 47)
    (hss : starts_star_star f.ffs_wc_path = false) :
    ff_expand env c f =
      ({ f with
         ffs_filearray := some (env.expand_wildcards [f.ffs_fix_path ++ f.ffs_wc_path]),
         ffs_filearray_cur := 0, ffs_stage := 0 }, []) := by
  have hh : f.ffs_wc_path.headD 0 ≠ 0 := by
    cases hw : f.ffs_wc_path with
    | nil => exact absurd hw hb0
    | cons x r => exact (hb x (by rw [hw]; simp)).1
  obtain ⟨ht, hd⟩ := takeWhile_name env hsep f.ffs_wc_path hb
  simp only [hsep] at ht hd
  have hh2 : (f.ffs_wc_path.head?).getD 0 ≠ 0 := by simpa using hh
  unfold ff_expand
  simp [habs, hadd, hurl, hh2, hss, ht, hd, hsep]

/-- The expansion of a frame whose wildcards are a path separator and a
name: the directory of the frame, and the name is left. -/
theorem ff_expand_sep (env : Env) (c : ff_search_ctx_T) (f : ff_stack_T)
    (hsep : ∀ ch, env.vim_ispathsep ch = (ch == 47))
    (hurl : ∀ p, env.path_with_url p = false)
    (habs : env.vim_isAbsName f.ffs_fix_path = true)
    (hadd : env.add_pathsep f.ffs_fix_path = f.ffs_fix_path)
    (b : Str) (hwc : f.ffs_wc_path = 47 :: b) :
    ff_expand env c f =
      ({ f with
         ffs_filearray := some (env.expand_wildcards [f.ffs_fix_path]),
         ffs_filearray_cur := 0, ffs_stage := 0 }, b) := by
  unfold ff_expand
  simp [habs, hadd, hurl, hwc, hsep, starts_star_star]

theorem ff_init_relative (env : Env) (cwd path target : Str) (level find_what : Int)
    (tagfile : Bool) (hcwd : env.mch_dirname = some cwd)
    (hrel : env.vim_isAbsName path = false) :
    vim_findfile_init env path target none level false find_what none tagfile none =
      ff_init_split env (ff_init_ctx env target false find_what none tagfile) path target
        none level (some cwd) := by
  unfold vim_findfile_init
  dsimp only
  rw [if_neg (by simp), if_pos (Or.inr (by simp [hrel])), hcwd]

theorem ff_init_finish_dir (env : Env) (cwd fix target : Str) (wc : Option Str)
    (level find_what : Int) (tagfile : Bool)
    (hlen : cwd.length + fix.length + 3 < env.MAXPATHL)
    (hdir : env.mch_isdir (env.add_pathsep cwd ++ fix) = true) :
    ff_init_finish env
        { ff_init_ctx env target false find_what none tagfile with
          ffsc_stopdirs_v := none, ffsc_level := level } target level cwd fix wc [] =
      { ctx := some (ff_with (ff_base cwd target fix wc level find_what tagfile)
          [ff_create_stack_element (some (env.add_pathsep (env.add_pathsep cwd ++ fix))) wc
            level 0] [] []),
        msgs := [] } := by
  unfold ff_init_finish
  rw [if_neg (by omega)]
  simp only [hdir, ↓reduceIte]
  rfl

theorem ff_init_finish_nodir (env : Env) (c : ff_search_ctx_T) (cwd fix target : Str)
    (level : Int) (hlen : cwd.length + fix.length + 3 < env.MAXPATHL)
    (hdir : env.mch_isdir (env.add_pathsep cwd ++ fix) = false) :
    ff_init_finish env c target level cwd fix none [] = { ctx := none, msgs := [] } := by
  unfold ff_init_finish
  rw [if_neg (by omega)]
  simp only [hdir, Bool.false_eq_true, ↓reduceIte]

theorem ff_init_split_plain (env : Env) (c : ff_search_ctx_T) (cwd path target : Str)
    (level : Int) (h42 : 42 ∉ path) :
    ff_init_split env c path target none level (some cwd) =
      ff_init_finish env { c with ffsc_stopdirs_v := none, ffsc_level := level } target level
        cwd path none [] := by
  unfold ff_init_split
  simp [h42]

theorem ff_init_split_wild (env : Env) (c : ff_search_ctx_T) (cwd fix wc buf target : Str)
    (level : Int) (hfix : 42 ∉ fix) (hwc : wc.head? = some 42)
    (hloop : ff_wc_loop env (wc.length + 1) wc [] = .done buf) :
    ff_init_split env c (fix ++ wc) target none level (some cwd) =
      ff_init_finish env { c with ffsc_stopdirs_v := none, ffsc_level := level } target level
        cwd fix (some buf) [] := by
  have htw := takeWhile_append_of_all (· != 42) fix wc
    (fun x hx => by
      have : x ≠ 42 := fun h => hfix (h ▸ hx)
      simpa using this) (by simp [hwc])
  have h42 : 42 ∈ fix ++ wc := by
    cases wc with
    | nil => simp at hwc
    | cons x r =>
      simp only [List.head?_cons, Option.some.injEq] at hwc
      subst hwc
      simp
  unfold ff_init_split
  simp only [h42, ↓reduceIte, htw.1, htw.2, hloop, Option.map_none']

theorem ff_scan_entries_index (env : Env) (c : ff_search_ctx_T) :
    ∀ (entries : List Str) (i : Nat) (vl : Option (List ff_visited_T)) (j : Nat) (p : Str)
      (l : List ff_visited_T),
      ff_scan_entries env c entries i vl = .hit j p l → i ≤ j ∧ j < i + entries.length := by
  intro entries
  induction entries with
  | nil => intro i vl j p l h; simp [ff_scan_entries] at h
  | cons e more ih =>
    intro i vl j p l h
    rw [ff_scan_entries_cons] at h
    split_ifs at h with h1
    · have := ih (i + 1) vl j p l h
      simp only [List.length_cons]
      omega
    · have hs := ff_try_suffixes_spec env c i (ff_candidates env c e) vl
      revert h hs
      cases ff_try_suffixes env c i (ff_candidates env c e) vl with
      | hit j2 p2 l2 =>
        intro h hs
        simp only [ff_scan.hit.injEq] at h
        simp only [List.length_cons]
        omega
      | miss vl2 =>
        intro h _
        have := ih (i + 1) vl2 j p l h
        simp only [List.length_cons]
        omega
      | fault => intro h _; simp at h

/-- A call on an empty stack, without stop directories, returns NULL. -/
theorem ff_search_loop_spent (env : Env) (c : ff_search_ctx_T) (fl dl : List ff_visited_T)
    (hsd : c.ffsc_stopdirs_v = none) (n k : Nat) (pe : Int) :
    ff_search_loop env no_interrupt (n + 1) k (ff_with c [] fl dl) pe
      = .done none (ff_with c [] fl dl) := by
  rw [ff_search_loop_succ, ff_pop_with_nil]
  have hup : ff_upward env (ff_with c [] fl dl) pe = .stop (ff_with c [] fl dl) := by
    unfold ff_upward
    have : (ff_with c [] fl dl).ffsc_stopdirs_v = none := hsd
    rw [this]
    cases (ff_with c [] fl dl).ffsc_start_dir <;> rfl
  simp only [no_interrupt, Bool.false_eq_true, ↓reduceIte, hup]

theorem ff_calls_spent (env : Env) (c : ff_search_ctx_T) (fl dl : List ff_visited_T)
    (hsd : c.ffsc_stopdirs_v = none) :
    ∀ calls : List ((Nat → Bool) × Nat),
      (∀ call ∈ calls, call.1 = no_interrupt ∧ 1 ≤ call.2) →
      ff_calls env calls (ff_with c [] fl dl) = calls.map (fun _ => none) := by
  intro calls
  induction calls with
  | nil => intro _; rfl
  | cons call more ih =>
    intro h
    obtain ⟨h1, h2⟩ := h call (by simp)
    obtain ⟨n, hn⟩ : ∃ n, call.2 = n + 1 := ⟨call.2 - 1, by omega⟩
    rw [ff_calls, h1, hn]
    unfold vim_findfile
    rw [ff_search_loop_spent env c fl dl hsd]
    simp only [List.map_cons]
    rw [ih (fun x hx => h x (by simp [hx]))]

/-- A call on a stack of one frame that has its file array and nothing left
in it, without stop directories, returns NULL and leaves the stack
empty. -/
theorem ff_search_loop_rest (env : Env) (c : ff_search_ctx_T) (fl dl : List ff_visited_T)
    (hsd : c.ffsc_stopdirs_v = none) (g : ff_stack_T) (arr : List Str)
    (hl : 0 < g.ffs_level) (harr : g.ffs_filearray = some arr) (hst : g.ffs_stage = 0)
    (hcur : arr.length ≤ g.ffs_filearray_cur)
    (hss : starts_star_star g.ffs_wc_path = false) (n k : Nat) (pe : Int) :
    ff_search_loop env no_interrupt (n + 2) k (ff_with c [g] fl dl) pe
      = .done none (ff_with c [] fl dl) := by
  rw [ff_search_loop_succ, ff_pop_with]
  have hstep : ff_step_popped env (ff_with c [] fl dl) g = .again (ff_with c [] fl dl) := by
    rw [ff_step_popped_resumed env _ g arr harr,
      ff_step_frame_rescan env c [] fl dl g arr hl harr hst,
      List.drop_eq_nil_of_le hcur]
    simp only [ff_scan_entries]
    exact ff_step_finish_plain env _ _ hss
  simp only [no_interrupt, Bool.false_eq_true, ↓reduceIte, hstep]
  exact ff_search_loop_spent env c fl dl hsd n (k + 1) pe

/-- The calls of a search from a state where the next turn searches for the
file in a file array of at most one entry, with nothing else on the stack
and no stop directories. -/
theorem ff_calls_scan (env : Env) (c : ff_search_ctx_T) (dl dl2 : List ff_visited_T)
    (hsd : c.ffsc_stopdirs_v = none) (f f2 : ff_stack_T) (arr : List Str)
    (hlen : arr.length ≤ 1)
    (hl : 0 < f2.ffs_level) (harr : f2.ffs_filearray = some arr) (hst : f2.ffs_stage = 0)
    (hss : starts_star_star f2.ffs_wc_path = false)
    (hstep : ff_step_popped env (ff_with c [] [] dl) f =
      match ff_scan_entries env c arr 0 (some []) with
      | .fault => .fault
      | .hit i p vl =>
        .found (ff_found_name env p)
          (ff_with c [{ f2 with ffs_filearray_cur := (i + 1) % 256 }] vl dl2)
      | .miss _ => .again (ff_with c [] [] dl2)) :
    (∀ (n k : Nat) (pe : Int) (more : List ((Nat → Bool) × Nat)),
      (∀ call ∈ more, call.1 = no_interrupt ∧ 2 ≤ call.2) →
      (match ff_search_loop env no_interrupt (n + 2) k (ff_with c [f] [] dl) pe with
        | .done r c2 => r :: ff_calls env more c2
        | _ => []) = ff_scan_results env c arr ((no_interrupt, n) :: more)) := by
  intro n k pe more hmore
  rw [ff_search_loop_succ, ff_pop_with]
  simp only [no_interrupt, Bool.false_eq_true, ↓reduceIte, hstep, ff_scan_results]
  have hidx := ff_scan_entries_index env c arr 0 (some [])
  revert hidx
  cases ff_scan_entries env c arr 0 (some []) with
  | fault => intro _; rfl
  | miss vl =>
    intro _
    simp only
    rw [ff_search_loop_spent env c [] dl2 hsd n (k + 1) pe]
    simp only [List.map_cons]
    rw [ff_calls_spent env c [] dl2 hsd more
      (fun x hx => ⟨(hmore x hx).1, by have := (hmore x hx).2; omega⟩)]
  | hit i p vl =>
    intro hidx
    have hi := hidx i p vl rfl
    have hi0 : i = 0 := by omega
    subst hi0
    simp only
    cases more with
    | nil => rfl
    | cons call more2 =>
      obtain ⟨h1, h2⟩ := hmore call (by simp)
      obtain ⟨m, hm⟩ : ∃ m, call.2 = m + 2 := ⟨call.2 - 2, by omega⟩
      rw [ff_calls, h1, hm]
      unfold vim_findfile
      rw [ff_search_loop_rest env c vl dl2 hsd { f2 with ffs_filearray_cur := (0 + 1) % 256 } arr
        hl harr hst (by simpa using hlen) hss]
      simp only [List.map_cons]
      rw [ff_calls_spent env c vl dl2 hsd more2
        (fun x hx => ⟨(hmore x (by simp [hx])).1,
          by have := (hmore x (by simp [hx])).2; omega⟩)]

theorem ff_step_frame_scan_plain (env : Env) (c : ff_search_ctx_T) (s : List ff_stack_T)
    (fl dl : List ff_visited_T) (f f2 : ff_stack_T) (rest : Str) (arr : List Str)
    (hl : 0 < f.ffs_level) (hf : f.ffs_filearray = none)
    (hex : ff_expand env (ff_with c s fl dl) f = (f2, rest))
    (hst : f2.ffs_stage = 0) (hcur : f2.ffs_filearray_cur = 0)
    (harr : f2.ffs_filearray = some arr) (hrest : rest.headD 0 = 0)
    (hss : starts_star_star f2.ffs_wc_path = false) :
    ff_step_frame env (ff_with c s fl dl) f =
      match ff_scan_entries env c arr 0 (some fl) with
      | .fault => .fault
      | .hit i p vl =>
        .found (ff_found_name env p)
          (ff_with c ({ f2 with ffs_filearray_cur := (i + 1) % 256 } :: s) vl dl)
      | .miss _ => .again (ff_with c s fl dl) := by
  rw [ff_step_frame_scan env c s fl dl f f2 rest arr hl hf hex hst hcur harr hrest]
  cases ff_scan_entries env c arr 0 (some fl) with
  | fault => rfl
  | hit i p vl => rfl
  | miss vl => exact ff_step_finish_plain env _ _ hss

theorem ff_check_visited_first (env : Env) (p : Str) (wc : Option Str) (st : Nat × Nat)
    (hurl : env.path_with_url p = false) (hstat : env.mch_stat p = some st) :
    ff_check_visited env [] p wc =
      (true, [{ ffv_wc_path := wc, ffv_dev_valid := true, ffv_dev := st.1, ffv_ino := st.2,
                ffv_fname := [] }]) := by
  simp [ff_check_visited, hurl, hstat, ff_visited_find]

theorem elide_init_star (env : Env) (cwd a b target : Str) (level find_what : Int)
    (tagfile : Bool) (sc : elide_scenario env cwd a b) :
    vim_findfile_init env (a ++ 47 :: 42 :: 42 :: 48 :: 47 :: b) target none level false
        find_what none tagfile none =
      { ctx := some (ff_with
          (ff_base cwd target (a ++ [47]) (some (47 :: b)) level find_what tagfile)
          [ff_create_stack_element (some (elide_root env cwd a)) (some (47 :: b)) level 0]
          [] []),
        msgs := [] } := by
  have hst : strtol (48 :: 47 :: b) = (0, 1) := by
    simp [strtol, strtol_after_sign, isspace, isdigit, digits_value]
  have hb42 : 42 ∉ b := fun h => (sc.b_name.2 42 h).2.2 rfl
  have hcopy : ∀ (s buf : Str) (fuel : Nat), 42 ∉ s → s.length < fuel →
      (buf ++ s).length + 5 < env.MAXPATHL → ff_wc_loop env fuel s buf = .done (buf ++ s) := by
    intro s
    induction s with
    | nil =>
      intro buf fuel _ hf _
      cases fuel with
      | zero => simp at hf
      | succ n => simp [ff_wc_loop]
    | cons x r ih =>
      intro buf fuel hx hf hl
      cases fuel with
      | zero => simp at hf
      | succ n =>
        rw [ff_wc_loop_char env n x r buf (by simp at hl; omega)
          (fun h => absurd (h ▸ List.mem_cons_self x r) hx),
          ih (buf ++ [x]) n (fun h => hx (List.mem_cons_of_mem x h))
            (by simpa using hf) (by simpa using hl)]
        simp
  have hloop : ff_wc_loop env ((42 :: 42 :: 48 :: 47 :: b).length + 1)
      (42 :: 42 :: 48 :: 47 :: b) [] = .done (47 :: b) := by
    have hm := sc.maxpathl
    rw [show (42 :: 42 :: 48 :: 47 :: b).length + 1 = (b.length + 4) + 1 from by simp,
      ff_wc_loop_star_star env (b.length + 4) (48 :: 47 :: b) [] (by simp; omega)]
    simp only [hst, List.drop_succ_cons, List.drop_zero, List.headD_cons, sc.unix_sep]
    rw [if_neg (by simp)]
    have h0 : long_to_int 0 = 0 := by decide
    simp only [h0, lt_self_iff_false, false_and, and_false, ↓reduceIte, ne_eq,
      one_ne_zero, not_false_eq_true, and_self]
    rw [hcopy (47 :: b) [] (b.length + 4) (by simp [hb42]) (by simp) (by simp; omega)]
    rfl
  have hpath : a ++ 47 :: 42 :: 42 :: 48 :: 47 :: b = (a ++ [47]) ++ (42 :: 42 :: 48 :: 47 :: b) := by
    simp
  rw [ff_init_relative env cwd _ target level find_what tagfile sc.cwd_dir sc.relative.2, hpath,
    ff_init_split_wild env _ cwd (a ++ [47]) (42 :: 42 :: 48 :: 47 :: b) (47 :: b) target level
      (by simp [sc.a_plain]) rfl hloop,
    ff_init_finish_dir env cwd (a ++ [47]) target (some (47 :: b)) level find_what tagfile
      (by have := sc.maxpathl; simp; omega) sc.root_isdir]
  have hr : env.add_pathsep (env.add_pathsep cwd ++ (a ++ [47])) = elide_root env cwd a :=
    sc.root_sep
  rw [hr]

theorem elide_init_plain (env : Env) (cwd a b target : Str) (level find_what : Int)
    (tagfile : Bool) (sc : elide_scenario env cwd a b) :
    vim_findfile_init env (a ++ 47 :: b) target none level false find_what none tagfile none =
      if env.mch_isdir (elide_root env cwd a ++ b) then
        { ctx := some (ff_with (ff_base cwd target (a ++ 47 :: b) none level find_what tagfile)
            [ff_create_stack_element (some (elide_root env cwd a ++ b ++ [47])) none level 0]
            [] []),
          msgs := [] }
      else { ctx := none, msgs := [] } := by
  have hb42 : 42 ∉ b := fun h => (sc.b_name.2 42 h).2.2 rfl
  have hp : env.add_pathsep cwd ++ (a ++ 47 :: b) = elide_root env cwd a ++ b := by
    simp [elide_root]
  rw [ff_init_relative env cwd _ target level find_what tagfile sc.cwd_dir sc.relative.1,
    ff_init_split_plain env _ cwd _ target level (by simp [sc.a_plain, hb42])]
  by_cases hdir : env.mch_isdir (elide_root env cwd a ++ b) = true
  · rw [if_pos hdir,
      ff_init_finish_dir env cwd (a ++ 47 :: b) target none level find_what tagfile
        (by have := sc.maxpathl; simp; omega) (by rw [hp]; exact hdir), hp, sc.sub_sep.1]
  · rw [if_neg hdir]
    exact ff_init_finish_nodir env _ cwd (a ++ 47 :: b) target level
      (by have := sc.maxpathl; simp; omega) (by rw [hp]; simpa using hdir)

/-- The first turn of the search with the path `a/**0/b`: the frame of `a`
with the wildcards `/b` makes way for a frame of `a` with the wildcards `b`,
one level further down. -/
theorem elide_turn_sep (env : Env) (cwd a b : Str) (c : ff_search_ctx_T) (level : Int)
    (sc : elide_scenario env cwd a b) (hl : 0 < level) (st : Nat × Nat)
    (hstat : env.mch_stat (elide_root env cwd a) = some st) :
    ff_step_popped env (ff_with c [] [] [])
        (ff_create_stack_element (some (elide_root env cwd a)) (some (47 :: b)) level 0) =
      .again (ff_with c
        [ff_create_stack_element (some (elide_root env cwd a)) (some b) (level - 1) 0] []
        [{ ffv_wc_path := some (47 :: b), ffv_dev_valid := true, ffv_dev := st.1,
           ffv_ino := st.2, ffv_fname := [] }]) := by
  have hb0 : b.headD 0 ≠ 0 := by
    cases hb : b with
    | nil => exact absurd hb sc.b_name.1
    | cons x r => exact (sc.b_name.2 x (by rw [hb]; simp)).1
  rw [ff_step_popped_with env c [] [] [] _ rfl]
  simp only [ff_create_stack_element, Option.getD_some]
  rw [ff_check_visited_first env _ _ st (sc.no_url _) hstat, if_pos rfl]
  rw [ff_step_frame_children env c [] [] _ _ _ b [elide_root env cwd a] hl rfl
    ((ff_expand_sep env _ _ sc.unix_sep sc.no_url sc.root_abs sc.root_sep b rfl).trans
      (by rw [sc.root_listing])) rfl rfl rfl hb0]
  rw [ff_step_finish_plain env _ _ (by simp [starts_star_star])]
  simp [sc.root_isdir, ff_create_stack_element]

/-- The turn of the search with the path `a/**0/b` on the frame of `a` with
the wildcards `b`: the search for the file in `a/b`. -/
theorem elide_turn_name (env : Env) (cwd a b : Str) (c : ff_search_ctx_T) (level : Int)
    (sc : elide_scenario env cwd a b) (hl : 0 < level - 1) (st : Nat × Nat)
    (hstat : env.mch_stat (elide_root env cwd a) = some st) :
    ∃ dl2, ff_step_popped env
        (ff_with c [] []
          [{ ffv_wc_path := some (47 :: b), ffv_dev_valid := true, ffv_dev := st.1,
             ffv_ino := st.2, ffv_fname := [] }])
        (ff_create_stack_element (some (elide_root env cwd a)) (some b) (level - 1) 0) =
      match ff_scan_entries env c
          (if env.mch_isdir (elide_root env cwd a ++ b) then
            [elide_root env cwd a ++ b ++ [47]] else []) 0 (some []) with
      | .fault => .fault
      | .hit i p vl =>
        .found (ff_found_name env p)
          (ff_with c
            [{ ({ ffs_fix_path := elide_root env cwd a, ffs_wc_path := b,
                  ffs_filearray := some (if env.mch_isdir (elide_root env cwd a ++ b) then
                    [elide_root env cwd a ++ b ++ [47]] else []),
                  ffs_filearray_cur := 0, ffs_stage := 0, ffs_level := level - 1,
                  ffs_star_star_empty := 0 } : ff_stack_T) with
               ffs_filearray_cur := (i + 1) % 256 }] vl dl2)
      | .miss _ => .again (ff_with c [] [] dl2) := by
  have hss : starts_star_star b = false := by
    cases hb : b with
    | nil => rfl
    | cons x r =>
      have hx : x ≠ 42 := (sc.b_name.2 x (by rw [hb]; simp)).2.2
      unfold starts_star_star
      split
      · rename_i heq
        simp only [List.cons.injEq] at heq
        exact absurd heq.1 hx
      · rfl
  have hchk : ff_check_visited env
      [{ ffv_wc_path := some (47 :: b), ffv_dev_valid := true, ffv_dev := st.1,
         ffv_ino := st.2, ffv_fname := [] }] (elide_root env cwd a) (some b)
      = (true, [{ ffv_wc_path := some b, ffv_dev_valid := true, ffv_dev := st.1,
                  ffv_ino := st.2, ffv_fname := [] },
                { ffv_wc_path := some (47 :: b), ffv_dev_valid := true, ffv_dev := st.1,
                  ffv_ino := st.2, ffv_fname := [] }]) := by
    simp [ff_check_visited, sc.no_url, hstat, ff_visited_find, ff_wc_equal]
  refine ⟨[{ ffv_wc_path := some b, ffv_dev_valid := true, ffv_dev := st.1,
               ffv_ino := st.2, ffv_fname := [] },
             { ffv_wc_path := some (47 :: b), ffv_dev_valid := true, ffv_dev := st.1,
               ffv_ino := st.2, ffv_fname := [] }], ?_⟩
  rw [ff_step_popped_with env c [] [] _ _ rfl]
  simp only [ff_create_stack_element, Option.getD_some]
  rw [hchk, if_pos rfl]
  have hex : ff_expand env
      (ff_with c [] []
        [{ ffv_wc_path := some b, ffv_dev_valid := true, ffv_dev := st.1,
           ffv_ino := st.2, ffv_fname := [] },
         { ffv_wc_path := some (47 :: b), ffv_dev_valid := true, ffv_dev := st.1,
           ffv_ino := st.2, ffv_fname := [] }])
      { ffs_fix_path := elide_root env cwd a, ffs_wc_path := b, ffs_filearray := none,
        ffs_filearray_cur := 0, ffs_stage := 0, ffs_level := level - 1,
        ffs_star_star_empty := 0 }
      = ({ ffs_fix_path := elide_root env cwd a, ffs_wc_path := b,
           ffs_filearray := some (if env.mch_isdir (elide_root env cwd a ++ b) then
             [elide_root env cwd a ++ b ++ [47]] else []),
           ffs_filearray_cur := 0, ffs_stage := 0, ffs_level := level - 1,
           ffs_star_star_empty := 0 }, []) := by
    rw [ff_expand_name env _ _ sc.unix_sep sc.no_url sc.root_abs sc.root_sep sc.b_name.1
      (fun ch hch => ⟨(sc.b_name.2 ch hch).1, (sc.b_name.2 ch hch).2.1⟩) hss]
    simp only [sc.sub_listing]
  exact ff_step_frame_scan_plain env c [] [] _ _ _ [] _ hl rfl hex rfl rfl rfl rfl hss

/-- The first turn of the search with the path `a/b`, where `a/b` is a
directory: the search for the file in `a/b`. -/
theorem elide_turn_plain (env : Env) (cwd a b : Str) (c : ff_search_ctx_T) (level : Int)
    (sc : elide_scenario env cwd a b) (hl : 0 < level)
    (hdir : env.mch_isdir (elide_root env cwd a ++ b) = true) :
    ∃ dl2, ff_step_popped env (ff_with c [] [] [])
        (ff_create_stack_element (some (elide_root env cwd a ++ b ++ [47])) none level 0) =
      match ff_scan_entries env c [elide_root env cwd a ++ b ++ [47]] 0 (some []) with
      | .fault => .fault
      | .hit i p vl =>
        .found (ff_found_name env p)
          (ff_with c
            [{ ({ ffs_fix_path := elide_root env cwd a ++ b ++ [47], ffs_wc_path := [],
                  ffs_filearray := some [elide_root env cwd a ++ b ++ [47]],
                  ffs_filearray_cur := 0, ffs_stage := 0, ffs_level := level,
                  ffs_star_star_empty := 0 } : ff_stack_T) with
               ffs_filearray_cur := (i + 1) % 256 }] vl dl2)
      | .miss _ => .again (ff_with c [] [] dl2) := by
  obtain ⟨habs, hstat, hlist⟩ := sc.sub_dir hdir
  obtain ⟨st, hst⟩ := Option.isSome_iff_exists.mp hstat
  refine ⟨[{ ffv_wc_path := some [], ffv_dev_valid := true, ffv_dev := st.1,
               ffv_ino := st.2, ffv_fname := [] }], ?_⟩
  rw [ff_step_popped_with env c [] [] [] _ rfl]
  simp only [ff_create_stack_element, Option.getD_some, Option.getD_none]
  rw [ff_check_visited_first env _ _ st (sc.no_url _) hst, if_pos rfl]
  have hex : ff_expand env
      (ff_with c [] []
        [{ ffv_wc_path := some [], ffv_dev_valid := true, ffv_dev := st.1,
           ffv_ino := st.2, ffv_fname := [] }])
      { ffs_fix_path := elide_root env cwd a ++ b ++ [47], ffs_wc_path := [],
        ffs_filearray := none, ffs_filearray_cur := 0, ffs_stage := 0, ffs_level := level,
        ffs_star_star_empty := 0 }
      = ({ ffs_fix_path := elide_root env cwd a ++ b ++ [47], ffs_wc_path := [],
           ffs_filearray := some [elide_root env cwd a ++ b ++ [47]],
           ffs_filearray_cur := 0, ffs_stage := 0, ffs_level := level,
           ffs_star_star_empty := 0 }, []) := by
    rw [ff_expand_final env _ _ sc.no_url habs sc.sub_sep.2 rfl]
    simp only [hlist]
  exact ff_step_frame_scan_plain env c [] [] _ _ _ [] _ hl rfl hex rfl rfl rfl rfl rfl

theorem ff_scan_results_head (env : Env) (c : ff_search_ctx_T) (arr : List Str)
    (x y : (Nat → Bool) × Nat) (more : List ((Nat → Bool) × Nat)) :
    ff_scan_results env c arr (x :: more) = ff_scan_results env c arr (y :: more) := by
  unfold ff_scan_results
  cases ff_scan_entries env c arr 0 (some []) <;> rfl

theorem ff_scan_results_congr (env : Env) (c1 c2 : ff_search_ctx_T) (arr : List Str)
    (calls : List ((Nat → Bool) × Nat))
    (h1 : c1.ffsc_find_what = c2.ffsc_find_what)
    (h2 : c1.ffsc_file_to_search = c2.ffsc_file_to_search)
    (h3 : c1.ffsc_tagfile = c2.ffsc_tagfile) :
    ff_scan_results env c1 arr calls = ff_scan_results env c2 arr calls := by
  unfold ff_scan_results
  rw [ff_scan_entries_congr env c1 c2 h1 h2 h3]

theorem ff_scan_results_nil (env : Env) (c : ff_search_ctx_T) (arr : List Str) :
    ff_scan_results env c arr [] = [] := by
  unfold ff_scan_results
  cases ff_scan_entries env c arr 0 (some []) <;> rfl

/-- The calls of the search with the path `a/**0/b`, at a level of 2 or
more. -/
theorem elide_calls_star (env : Env) (cwd a b : Str) (c : ff_search_ctx_T) (level : Int)
    (sc : elide_scenario env cwd a b) (hl : 2 ≤ level) (hsd : c.ffsc_stopdirs_v = none)
    (calls : List ((Nat → Bool) × Nat))
    (hcalls : ∀ call ∈ calls, call.1 = no_interrupt ∧ 3 ≤ call.2) :
    ff_calls env calls
        (ff_with c
          [ff_create_stack_element (some (elide_root env cwd a)) (some (47 :: b)) level 0]
          [] []) =
      ff_scan_results env c
        (if env.mch_isdir (elide_root env cwd a ++ b) then
          [elide_root env cwd a ++ b ++ [47]] else []) calls := by
  cases calls with
  | nil => rw [ff_scan_results_nil]; rfl
  | cons call more =>
    obtain ⟨h1, h2⟩ := hcalls call (by simp)
    obtain ⟨n, hn⟩ : ∃ n, call.2 = n + 3 := ⟨call.2 - 3, by omega⟩
    obtain ⟨st, hst⟩ := Option.isSome_iff_exists.mp sc.root_stat
    obtain ⟨dl2, hstep⟩ := elide_turn_name env cwd a b c level sc (by omega) st hst
    have hss : starts_star_star b = false := by
      cases hb : b with
      | nil => rfl
      | cons x r =>
        have hx : x ≠ 42 := (sc.b_name.2 x (by rw [hb]; simp)).2.2
        unfold starts_star_star
        split
        · rename_i heq
          simp only [List.cons.injEq] at heq
          exact absurd heq.1 hx
        · rfl
    have key := ff_calls_scan env c _ dl2 hsd _
      ({ ffs_fix_path := elide_root env cwd a, ffs_wc_path := b,
         ffs_filearray := some (if env.mch_isdir (elide_root env cwd a ++ b) then
           [elide_root env cwd a ++ b ++ [47]] else []),
         ffs_filearray_cur := 0, ffs_stage := 0, ffs_level := level - 1,
         ffs_star_star_empty := 0 } : ff_stack_T)
      (if env.mch_isdir (elide_root env cwd a ++ b) then
        [elide_root env cwd a ++ b ++ [47]] else [])
      (by split <;> simp) (by show 0 < level - 1; omega) rfl rfl hss hstep n 1
      (((ff_with c
          [ff_create_stack_element (some (elide_root env cwd a)) (some (47 :: b)) level 0]
          [] []).ffsc_start_dir.getD []).length : Int) more
      (fun x hx => ⟨(hcalls x (by simp [hx])).1,
        by have := (hcalls x (by simp [hx])).2; omega⟩)
    rw [ff_scan_results_head env c _ call (no_interrupt, n) more, ← key, ff_calls, h1, hn]
    unfold vim_findfile
    rw [ff_search_loop_succ env no_interrupt (n + 2), ff_pop_with]
    have hturn := elide_turn_sep env cwd a b c level sc (by omega) st hst
    simp only [no_interrupt, Bool.false_eq_true, ↓reduceIte, hturn, Nat.zero_add]

/-- The calls of the search with the path `a/b`, where `a/b` is a
directory. -/
theorem elide_calls_plain (env : Env) (cwd a b : Str) (c : ff_search_ctx_T) (level : Int)
    (sc : elide_scenario env cwd a b) (hl : 0 < level) (hsd : c.ffsc_stopdirs_v = none)
    (hdir : env.mch_isdir (elide_root env cwd a ++ b) = true)
    (calls : List ((Nat → Bool) × Nat))
    (hcalls : ∀ call ∈ calls, call.1 = no_interrupt ∧ 3 ≤ call.2) :
    ff_calls env calls
        (ff_with c
          [ff_create_stack_element (some (elide_root env cwd a ++ b ++ [47])) none level 0]
          [] []) =
      ff_scan_results env c [elide_root env cwd a ++ b ++ [47]] calls := by
  cases calls with
  | nil => rw [ff_scan_results_nil]; rfl
  | cons call more =>
    obtain ⟨h1, h2⟩ := hcalls call (by simp)
    obtain ⟨n, hn⟩ : ∃ n, call.2 = n + 2 := ⟨call.2 - 2, by omega⟩
    obtain ⟨dl2, hstep⟩ := elide_turn_plain env cwd a b c level sc hl hdir
    have key := ff_calls_scan env c _ dl2 hsd _
      ({ ffs_fix_path := elide_root env cwd a ++ b ++ [47], ffs_wc_path := [],
         ffs_filearray := some [elide_root env cwd a ++ b ++ [47]],
         ffs_filearray_cur := 0, ffs_stage := 0, ffs_level := level,
         ffs_star_star_empty := 0 } : ff_stack_T)
      [elide_root env cwd a ++ b ++ [47]]
      (by simp) hl rfl rfl rfl hstep n 0
      (((ff_with c
          [ff_create_stack_element (some (elide_root env cwd a ++ b ++ [47])) none level 0]
          [] []).ffsc_start_dir.getD []).length : Int) more
      (fun x hx => ⟨(hcalls x (by simp [hx])).1,
        by have := (hcalls x (by simp [hx])).2; omega⟩)
    rw [ff_scan_results_head env c _ call (no_interrupt, n) more, ← key, ff_calls, h1, hn]
    rfl

/-- C6 (as amended).  Where `a` is a directory below the current directory, `b` is one name, and the outside world answers about `a` and `a/b` as a file system does (the setting `elide_scenario`), for every target name, every kind of file wanted and every maximum level of 2 or more: `vim_findfile_init` succeeds for the path `a/**0/b`; when it succeeds for the path `a/b` too, the calls of `vim_findfile` return the same sequence for the two paths; and when it fails for `a/b` (`a/b` is not a directory) every call for `a/**0/b` returns NULL. -/
theorem vim_findfile_elided_star_star (env : Env) (cwd a b target : Str)
    (level find_what : Int) (tagfile : Bool) (calls : List ((Nat → Bool) × Nat))
    (sc : elide_scenario env cwd a b) (hlevel : 2 ≤ level)
    (hcalls : ∀ call ∈ calls, call.1 = no_interrupt ∧ 3 ≤ call.2) :
    ∃ c_star,
      (vim_findfile_init env (a ++ 47 :: 42 :: 42 :: 48 :: 47 :: b) target none level false
        find_what none tagfile none).ctx = some c_star
      ∧ match (vim_findfile_init env (a ++ 47 :: b) target none level false find_what none
          tagfile none).ctx with
        | some c_plain => ff_calls env calls c_star = ff_calls env calls c_plain
        | none => ff_calls env calls c_star = calls.map (fun _ => none) := by
  rw [elide_init_star env cwd a b target level find_what tagfile sc,
    elide_init_plain env cwd a b target level find_what tagfile sc]
  refine ⟨_, rfl, ?_⟩
  rw [elide_calls_star env cwd a b _ level sc hlevel rfl calls hcalls]
  by_cases hdir : env.mch_isdir (elide_root env cwd a ++ b) = true
  · rw [if_pos hdir, if_pos hdir]
    show _ = ff_calls env calls _
    rw [elide_calls_plain env cwd a b _ level sc (by omega) rfl hdir calls hcalls]
    exact ff_scan_results_congr env _ _ _ calls rfl rfl rfl
  · rw [if_neg hdir, if_neg hdir]
    show _ = calls.map (fun _ => none)
    unfold ff_scan_results
    rfl

theorem tree_a_elide_scenario :
    elide_scenario (tree_env tree_a 4096 []) (str "/cwd") (str "a") (str "b") :=
  { unix_sep := fun _ => rfl
    no_url := fun _ => rfl
    cwd_dir := rfl
    a_plain := by decide
    b_name := by decide
    relative := by decide
    maxpathl := by decide
    root_abs := by decide
    root_sep := by decide
    root_isdir := by decide
    root_stat := by decide
    root_listing := by decide
    sub_listing := by decide
    sub_sep := by decide
    sub_dir := by decide }

theorem vim_findfile_elided_star_star_witness :
    elide_scenario (tree_env tree_a 4096 []) (str "/cwd") (str "a") (str "b")
    ∧ (2 : Int) ≤ 2
    ∧ (∀ call ∈ List.replicate 3 (no_interrupt, 3), call.1 = no_interrupt ∧ 3 ≤ call.2)
    ∧ ∃ c_star,
      (vim_findfile_init (tree_env tree_a 4096 []) (str "a/**0/b") (str "t") none 2 false
        FINDFILE_FILE none false none).ctx = some c_star
      ∧ match (vim_findfile_init (tree_env tree_a 4096 []) (str "a/b") (str "t") none 2 false
          FINDFILE_FILE none false none).ctx with
        | some c_plain =>
          ff_calls (tree_env tree_a 4096 []) (List.replicate 3 (no_interrupt, 3)) c_star
            = ff_calls (tree_env tree_a 4096 []) (List.replicate 3 (no_interrupt, 3)) c_plain
        | none =>
          ff_calls (tree_env tree_a 4096 []) (List.replicate 3 (no_interrupt, 3)) c_star
            = (List.replicate 3 (no_interrupt, 3)).map (fun _ => none) :=
  ⟨tree_a_elide_scenario, by decide,
    fun call h => by rw [List.eq_of_mem_replicate h]; exact ⟨rfl, Nat.le_refl 3⟩,
    vim_findfile_elided_star_star (tree_env tree_a 4096 []) (str "/cwd") (str "a") (str "b")
      (str "t") 2 FINDFILE_FILE false (List.replicate 3 (no_interrupt, 3))
      tree_a_elide_scenario (by decide)
      (fun call h => by rw [List.eq_of_mem_replicate h]; exact ⟨rfl, Nat.le_refl 3⟩)⟩

/-- C6, counterexample.  On the tree below `/cwd/a` with the maximum level 1, the search with the path `a/b` returns `/cwd/a/b/t`, and the search with the path `a/**0/b` returns nothing: its first frame has the wildcards `/b`, and the frame for `b` below it is at level 0. -/
theorem vim_findfile_elided_level_counterexample :
    (vim_findfile_init (tree_env tree_a 4096 []) (str "a/b") (str "t") none 1 false
        FINDFILE_FILE none false none).ctx.map
      (ff_calls (tree_env tree_a 4096 []) [(no_interrupt, 3), (no_interrupt, 3)])
      = some [some (str "/cwd/a/b/t"), none]
    ∧ (vim_findfile_init (tree_env tree_a 4096 []) (str "a/**0/b") (str "t") none 1 false
        FINDFILE_FILE none false none).ctx.map
      (ff_calls (tree_env tree_a 4096 []) [(no_interrupt, 3), (no_interrupt, 3)])
      = some [none, none] := by
  decide

/-! ## The search below a `**` with a counter -/

/-- The search with the path `a/**2/b` on the tree below `/cwd/a`: the name
`b` is looked up in `a/x/y`, `a/x/b`, `a`, `a/x` and `a/b`, in this order,
not in `a/x/y/z`; the calls return the file `t` of `a/x/y/b`, `a/b` and
`a/x/b`, then NULL. -/
theorem vim_findfile_star_star_depth_two :
    ss_root_order (tree_env tree_a 4096 []) 2 (str "/cwd/a/")
      = [str "/cwd/a/x/y/", str "/cwd/a/x/b/", str "/cwd/a/", str "/cwd/a/x/", str "/cwd/a/b/"]
    ∧ (vim_findfile_init (tree_env tree_a 4096 []) (str "a/**2/b") (str "t") none 3 false
        FINDFILE_FILE none false none).ctx.map
      (ff_calls (tree_env tree_a 4096 []) (List.replicate 4 (no_interrupt, 12)))
      = some [some (str "/cwd/a/x/y/b/t"), some (str "/cwd/a/b/t"), some (str "/cwd/a/x/b/t"),
          none] := by
  decide

end FileSearch
